import Mathlib

/-!
# The librav graph container (src/graph/internal/graph_impl.h)

A shallow embedding of `class Graph` of graph_impl.h.

* A `Vertex*` is an address, a natural number (every `Nat` named `p`, `vptr`,
  `src_`, `dst_`, `..._vertex` below is such a pointer); the free store is a
  partial map from addresses to `Vertex` objects.  `new` takes the next unused address
  (addresses are never handed out twice), `delete` releases an address.
* Reading or writing through a pointer whose object is not allocated, and
  deleting such a pointer, is undefined behaviour in C++; the embedding returns
  `none` there.
* `std::map<uint64_t, Vertex*>` is an association list kept in ascending key
  order; `insert` keeps an existing entry, as `std::map::insert` does.
* The by-value and the by-pointer overloads of a member differ only in
  `vertex_node.data_id_` against `vertex_node->data_id_`; a state is modelled by
  a record holding its `data_id_`.
* The edge cost (`double cost`) is only stored, never computed with; it is a
  type parameter `W`.
-/

namespace librav

/-! ## Data model -/

/-- The conversion `(uint64_t)(...)` applied to `data_id_` where it is used as a key. -/
def uint64_t (n : Nat) : Nat := n % 2 ^ 64

/-- Modelled from the spec: the state type handed in by the caller (graph/internal/bds_base.h is
not among the sources); the container reads only its member `data_id_`. -/
structure BundledStructType where
  data_id_ : Nat
deriving DecidableEq, Repr

/-- Modelled from the spec: the record `Edge<Vertex<BundledStructType>*>` (its declaration is not
among the sources), built in `AddEdge` as `new_edge(src_vertex, dst_vertex, cost)` and read in
graph_impl.h through `dst_`: source pointer, destination pointer, weight. -/
structure Edge (W : Type) where
  src_ : Nat
  dst_ : Nat
  cost_ : W
deriving DecidableEq, Repr

/-- Modelled from the spec: the class `Vertex` (graph/internal/vertex_impl.h is not among the
sources).  It holds the identity, the payload, the ordered outgoing edges (`edges_`) and the
back-references (`associated_vertices_`); the search metadata plays no part in the container. -/
structure Vertex (W : Type) where
  bundled_data_ : BundledStructType
  vertex_id_ : Nat
  edges_ : List (Edge W)
  associated_vertices_ : List Nat
deriving DecidableEq, Repr

/-- Modelled from the spec: the constructor of `Vertex` (vertex_impl.h is not among the sources):
it stores the payload and its identity and starts with empty `edges_` and
`associated_vertices_`. -/
def Vertex.new {W : Type} (vertex_node : BundledStructType) : Vertex W :=
  { bundled_data_ := vertex_node
    vertex_id_ := uint64_t vertex_node.data_id_
    edges_ := []
    associated_vertices_ := [] }

/-- Modelled from the spec: `Vertex::CheckNeighbour(dst_vertex)` (vertex_impl.h is not among the
sources): a linear scan of `edges_` for an edge whose destination is the given vertex. -/
def Vertex.CheckNeighbour {W : Type} (v : Vertex W) (dst_vertex : Nat) : Bool :=
  v.edges_.any (fun e => decide (e.dst_ = dst_vertex))

/-- The free store: the vertex object allocated at each address, if any. -/
abbrev Heap (W : Type) := Nat → Option (Vertex W)

/-- Modelled from the spec: the statement `delete p` with the destructor of `Vertex`
(vertex_impl.h is not among the sources): the vertex is released together with the edge values
it contains, and no other vertex is touched.  Releasing a pointer that is not allocated is
undefined. -/
def Heap.delete {W : Type} (h : Heap W) (p : Nat) : Option (Heap W) :=
  match h p with
  | none => none
  | some _ => some (Function.update h p none)

/-- The member `std::map::find`: the mapped pointer, `none` for `end()`. -/
def map_find : List (Nat × Nat) → Nat → Option Nat
  | [], _ => none
  | (k, p) :: m, key => if k = key then some p else map_find m key

/-- The member `std::map::insert`: keeps the keys ascending and leaves an existing entry alone. -/
def map_insert : List (Nat × Nat) → Nat → Nat → List (Nat × Nat)
  | [], key, p => [(key, p)]
  | (k, q) :: m, key, p =>
    if key < k then (key, p) :: (k, q) :: m
    else if key = k then (k, q) :: m
    else (k, q) :: map_insert m key p

/-- The member `std::map::erase(it)` for the iterator found at `key`. -/
def map_erase (m : List (Nat × Nat)) (key : Nat) : List (Nat × Nat) :=
  m.eraseP (fun kv => decide (kv.1 = key))

/-- The class `Graph`: the member `vertex_map_`, together with the free store its pointers
refer to and the next unused address. -/
structure Graph (W : Type) where
  vertex_map_ : List (Nat × Nat)
  heap : Heap W
  brk : Nat

namespace Graph

variable {W : Type}

/-- The constructor `Graph()`: no vertex, nothing allocated. -/
def empty : Graph W :=
  { vertex_map_ := [], heap := fun _ => none, brk := 0 }

/-! ## Private members -/

/-- The member `GetVertex`: the existing vertex of the identity, otherwise a new one is
allocated and inserted. -/
def GetVertex (g : Graph W) (vertex_node : BundledStructType) : Nat × Graph W :=
  match map_find g.vertex_map_ (uint64_t vertex_node.data_id_) with
  | none =>
    let new_vertex := g.brk
    (new_vertex,
      { vertex_map_ := map_insert g.vertex_map_ (uint64_t vertex_node.data_id_) new_vertex
        heap := Function.update g.heap new_vertex (some (Vertex.new vertex_node))
        brk := g.brk + 1 })
  | some p => (p, g)

/-- The member `AddVertex`: a new vertex is allocated and handed to `insert`; the new
pointer is returned. -/
def AddVertex (g : Graph W) (vertex_node : BundledStructType) : Nat × Graph W :=
  let new_vertex := g.brk
  (new_vertex,
    { vertex_map_ := map_insert g.vertex_map_ (uint64_t vertex_node.data_id_) new_vertex
      heap := Function.update g.heap new_vertex (some (Vertex.new vertex_node))
      brk := g.brk + 1 })

/-- The member `SearchVertex`: the existing vertex of the identity, `none` for `nullptr`. -/
def SearchVertex (g : Graph W) (vertex_node : BundledStructType) : Option Nat :=
  map_find g.vertex_map_ (uint64_t vertex_node.data_id_)

/-! ## Public members -/

/-- The loop of `ClearGraph` (and of the destructor): `delete it->second` for every entry. -/
def ClearGraph.loop : List (Nat × Nat) → Heap W → Option (Heap W)
  | [], h => some h
  | (_, p) :: m, h =>
    match h.delete p with
    | none => none
    | some h1 => ClearGraph.loop m h1

/-- The member `ClearGraph`. -/
def ClearGraph (g : Graph W) : Option (Graph W) :=
  match ClearGraph.loop g.vertex_map_ g.heap with
  | none => none
  | some h => some { g with vertex_map_ := [], heap := h }

/-- The body of `AddEdge` after the two `GetVertex` calls. -/
def AddEdge.link (g : Graph W) (src_vertex dst_vertex : Nat) (cost : W) :
    Option (Graph W) :=
  match g.heap src_vertex with
  | none => none
  | some sv =>
    if sv.CheckNeighbour dst_vertex then some g
    else
      match g.heap dst_vertex with
      | none => none
      | some dv =>
        let h1 := Function.update g.heap dst_vertex
          (some { dv with associated_vertices_ := dv.associated_vertices_ ++ [src_vertex] })
        match h1 src_vertex with
        | none => none
        | some sv1 =>
          some { g with
            heap := Function.update h1 src_vertex
              (some { sv1 with edges_ := sv1.edges_ ++ [Edge.mk src_vertex dst_vertex cost] }) }

/-- The member `AddEdge`. -/
def AddEdge (g : Graph W) (src_node dst_node : BundledStructType) (cost : W) :
    Option (Graph W) :=
  let src := g.GetVertex src_node
  let dst := src.2.GetVertex dst_node
  AddEdge.link dst.2 src.1 dst.1 cost

/-- The scan of `RemoveEdge`: `idx` ends at the position of the last edge whose `dst_` is
`dst_vertex`; `none` stands for `found_edge == false`. -/
def RemoveEdge.scan (dst_vertex : Nat) : List (Edge W) → Nat → Option Nat → Option Nat
  | [], _, idx => idx
  | e :: es, i, idx =>
    RemoveEdge.scan dst_vertex es (i + 1) (if e.dst_ = dst_vertex then some i else idx)

/-- The member `RemoveEdge`: the returned flag and the graph after the call. -/
def RemoveEdge (g : Graph W) (src_node dst_node : BundledStructType) :
    Option (Bool × Graph W) :=
  match g.SearchVertex src_node, g.SearchVertex dst_node with
  | some src_vertex, some dst_vertex =>
    match g.heap src_vertex with
    | none => none
    | some sv =>
      match RemoveEdge.scan dst_vertex sv.edges_ 0 none with
      | none => some (false, g)
      | some idx =>
        some (true,
          { g with
            heap := Function.update g.heap src_vertex
              (some { sv with edges_ := sv.edges_.eraseIdx idx }) })
  | _, _ => some (false, g)

/-- The nested loops of `RemoveVertex`: for every `asv` of the back-reference list, the
first edge of `asv->edges_` whose `dst_` is the vertex being removed is erased. -/
def RemoveVertex.loop (vptr : Nat) : List Nat → Heap W → Option (Heap W)
  | [], h => some h
  | asv :: rest, h =>
    match h asv with
    | none => none
    | some av =>
      RemoveVertex.loop vptr rest
        (Function.update h asv
          (some { av with edges_ := av.edges_.eraseP (fun e => decide (e.dst_ = vptr)) }))

/-- The member `RemoveVertex`. -/
def RemoveVertex (g : Graph W) (vertex_node : BundledStructType) : Option (Graph W) :=
  match map_find g.vertex_map_ (uint64_t vertex_node.data_id_) with
  | none => some g
  | some vptr =>
    match g.heap vptr with
    | none => none
    | some v =>
      match RemoveVertex.loop vptr v.associated_vertices_ g.heap with
      | none => none
      | some h1 =>
        match h1.delete vptr with
        | none => none
        | some h2 =>
          some { g with
            vertex_map_ := map_erase g.vertex_map_ (uint64_t vertex_node.data_id_)
            heap := h2 }

/-- The member `GetGraphVertices`: the mapped pointers in map order. -/
def GetGraphVertices (g : Graph W) : List Nat :=
  g.vertex_map_.map Prod.snd

/-- The loop of `GetGraphEdges`: the `edges_` of every mapped vertex, in map order. -/
def GetGraphEdges.loop (h : Heap W) : List (Nat × Nat) → Option (List (Edge W))
  | [] => some []
  | (_, p) :: m =>
    match h p with
    | none => none
    | some v =>
      match GetGraphEdges.loop h m with
      | none => none
      | some es => some (v.edges_ ++ es)

/-- The member `GetGraphEdges`. -/
def GetGraphEdges (g : Graph W) : Option (List (Edge W)) :=
  GetGraphEdges.loop g.heap g.vertex_map_

/-- The member `GetVertexFromID`, `none` for `nullptr`. -/
def GetVertexFromID (g : Graph W) (vertex_id : Nat) : Option Nat :=
  map_find g.vertex_map_ vertex_id

/-! ## Observations through the returned pointers -/

/-- The expression `p->vertex_id_`. -/
def vertexId (g : Graph W) (p : Nat) : Option Nat :=
  (g.heap p).map (fun v => v.vertex_id_)

/-- The identities `p->vertex_id_` of a list of vertex pointers. -/
def vertexIds (g : Graph W) : List Nat → Option (List Nat)
  | [] => some []
  | p :: ps =>
    match g.vertexId p with
    | none => none
    | some i =>
      match vertexIds g ps with
      | none => none
      | some is => some (i :: is)

/-- An edge read as `(e.src_->vertex_id_, e.dst_->vertex_id_, e.cost_)`. -/
def edgeTriple (g : Graph W) (e : Edge W) : Option (Nat × Nat × W) :=
  match g.vertexId e.src_, g.vertexId e.dst_ with
  | some s, some d => some (s, d, e.cost_)
  | _, _ => none

/-- A list of edges read as identity and weight triples. -/
def edgeTriples (g : Graph W) : List (Edge W) → Option (List (Nat × Nat × W))
  | [] => some []
  | e :: es =>
    match g.edgeTriple e with
    | none => none
    | some t =>
      match edgeTriples g es with
      | none => none
      | some ts => some (t :: ts)

/-- The result of `GetGraphEdges` read as identity and weight triples. -/
def GetGraphEdgeIds (g : Graph W) : Option (List (Nat × Nat × W)) :=
  match g.GetGraphEdges with
  | none => none
  | some es => g.edgeTriples es

end Graph

/-! ## Call sequences -/

/-- One call of the mutating interface. -/
inductive Call (W : Type) where
  | AddVertex (vertex_node : BundledStructType)
  | AddEdge (src_node dst_node : BundledStructType) (cost : W)
  | RemoveEdge (src_node dst_node : BundledStructType)
  | RemoveVertex (vertex_node : BundledStructType)
  | ClearGraph
deriving DecidableEq, Repr

namespace Graph

variable {W : Type}

/-- The graph after one call; `none` when the call has undefined behaviour. -/
def step (g : Graph W) : Call W → Option (Graph W)
  | .AddVertex s => some (g.AddVertex s).2
  | .AddEdge s d w => g.AddEdge s d w
  | .RemoveEdge s d => (g.RemoveEdge s d).map Prod.snd
  | .RemoveVertex s => g.RemoveVertex s
  | .ClearGraph => g.ClearGraph

/-- The graph after a sequence of calls, first call first. -/
def run (g : Graph W) : List (Call W) → Option (Graph W)
  | [] => some g
  | c :: cs =>
    match g.step c with
    | none => none
    | some g1 => run g1 cs

/-- A state the container reaches from the empty graph by a sequence of calls. -/
def Reachable (g : Graph W) : Prop :=
  ∃ cs : List (Call W), run empty cs = some g

end Graph

/-- The graph a call sequence builds from the empty graph (the empty graph when a call of
the sequence is undefined). -/
def Graph.after {W : Type} (cs : List (Call W)) : Graph W :=
  (Graph.run Graph.empty cs).getD Graph.empty

/-! ## The reference scenario of graph_type_test.cpp -/

/-- The state `TestState(i)` of the test fixture. -/
def node (i : Nat) : BundledStructType := { data_id_ := i }

/-- The nineteen `AddEdge` calls of `TEST_F(GraphTypeTest, ValueType)`, in order. -/
def testEdges : List (Call ℚ) :=
  [ .AddEdge (node 0) (node 1) 1.0, .AddEdge (node 0) (node 3) 1.5,
    .AddEdge (node 1) (node 0) 2.0, .AddEdge (node 1) (node 4) 2.5,
    .AddEdge (node 1) (node 2) 1.0, .AddEdge (node 2) (node 1) 1.5,
    .AddEdge (node 2) (node 5) 2.0, .AddEdge (node 3) (node 0) 2.5,
    .AddEdge (node 3) (node 4) 2.5, .AddEdge (node 4) (node 1) 2.5,
    .AddEdge (node 4) (node 3) 2.5, .AddEdge (node 4) (node 5) 2.5,
    .AddEdge (node 5) (node 2) 2.5, .AddEdge (node 5) (node 4) 2.5,
    .AddEdge (node 5) (node 8) 2.5, .AddEdge (node 7) (node 4) 2.5,
    .AddEdge (node 7) (node 8) 2.5, .AddEdge (node 8) (node 5) 2.5,
    .AddEdge (node 8) (node 7) 2.5 ]

/-! ## Total readings used in the proofs -/

namespace Graph

variable {W : Type}

/-- The expression `p->edges_`, with the empty list where nothing is allocated at `p`. -/
def edgesAt (g : Graph W) (p : Nat) : List (Edge W) :=
  match g.heap p with
  | none => []
  | some v => v.edges_

/-- The expression `p->vertex_id_`, with `0` where nothing is allocated at `p`. -/
def idAt (g : Graph W) (p : Nat) : Nat :=
  match g.heap p with
  | none => 0
  | some v => v.vertex_id_

/-- An edge read as identities and weight, through `idAt`. -/
def tripleAt (g : Graph W) (e : Edge W) : Nat × Nat × W :=
  (g.idAt e.src_, g.idAt e.dst_, e.cost_)

/-- The stored edges of all mapped vertices, in map order. -/
def allEdges (g : Graph W) : List (Edge W) :=
  g.vertex_map_.flatMap (fun x => g.edgesAt x.2)

end Graph

/-- The identities of the states passed to a call. -/
def Call.ids {W : Type} : Call W → List Nat
  | .AddVertex s => [uint64_t s.data_id_]
  | .AddEdge s d _ => [uint64_t s.data_id_, uint64_t d.data_id_]
  | .RemoveEdge s d => [uint64_t s.data_id_, uint64_t d.data_id_]
  | .RemoveVertex s => [uint64_t s.data_id_]
  | .ClearGraph => []

/-- The call is an `AddVertex` or an `AddEdge`. -/
def Call.isAdd {W : Type} : Call W → Bool
  | .AddVertex _ => true
  | .AddEdge _ _ _ => true
  | _ => false

/-! ## The invariant of the reachable states -/

namespace Graph

variable {W : Type}

/-- The well-formedness invariant kept by every call with defined behaviour. -/
structure WF (g : Graph W) : Prop where
  /-- The keys of `vertex_map_` are strictly ascending (so no key occurs twice). -/
  sorted : (g.vertex_map_.map Prod.fst).Pairwise (· < ·)
  /-- Every mapped pointer is allocated and its vertex carries the key as identity. -/
  live : ∀ k p, (k, p) ∈ g.vertex_map_ → ∃ v, g.heap p = some v ∧ v.vertex_id_ = k
  /-- Nothing is allocated at or above the next unused address. -/
  fresh : ∀ p, g.brk ≤ p → g.heap p = none
  /-- Every stored edge starts at the vertex that stores it and ends at a mapped vertex. -/
  v3 : ∀ k p v, (k, p) ∈ g.vertex_map_ → g.heap p = some v →
    ∀ e ∈ v.edges_, e.src_ = p ∧ ∃ k1, (k1, e.dst_) ∈ g.vertex_map_
  /-- The destination of every stored edge lists the source among its back-references. -/
  v2 : ∀ k p v, (k, p) ∈ g.vertex_map_ → g.heap p = some v →
    ∀ e ∈ v.edges_, ∀ d, g.heap e.dst_ = some d → p ∈ d.associated_vertices_
  /-- No vertex stores two edges to the same destination. -/
  nopar : ∀ k p v, (k, p) ∈ g.vertex_map_ → g.heap p = some v →
    (v.edges_.map Edge.dst_).Nodup

end Graph

/-- The free store `h1` differs from `h` only in that edge lists lost entries. -/
def Shrinks {W : Type} (h h1 : Heap W) : Prop :=
  ∀ p, (h p = none → h1 p = none) ∧
    ∀ v, h p = some v → ∃ v1, h1 p = some v1 ∧ v1.vertex_id_ = v.vertex_id_ ∧
      v1.associated_vertices_ = v.associated_vertices_ ∧ v1.edges_.Sublist v.edges_

/-! ## Undirected edges -/

namespace Graph

variable {W : Type}

/-- Modelled from the spec: `Edge::operator-=` (the declaration of `Edge` is not among the
sources), the comparison `itedge -= (*ite)` of `GetGraphUndirectedEdges`: an edge against its
logical reverse, true when the (source, destination) identities of one are the
(destination, source) identities of the other and the two edges carry the same weight (the
weight is not part of the equality used for duplicate suppression, but is used when an edge
is compared with its logical reverse).  The identities are read through the pointers of the
edges. -/
def isReverse [DecidableEq W] (g : Graph W) (x y : Edge W) : Option Bool :=
  match g.vertexId x.src_, g.vertexId x.dst_, g.vertexId y.src_, g.vertexId y.dst_ with
  | some xs, some xd, some ys, some yd =>
    some (decide (xs = yd ∧ xd = ys ∧ x.cost_ = y.cost_))
  | _, _, _, _ => none

/-- The innermost loop of `GetGraphUndirectedEdges`: the flag `edge_existed` after
`for(auto& itedge : edges)` with its `break`. -/
def GetGraphUndirectedEdges.existed [DecidableEq W] (g : Graph W) (ite : Edge W) :
    List (Edge W) → Option Bool
  | [] => some false
  | itedge :: rest =>
    match g.isReverse itedge ite with
    | none => none
    | some true => some true
    | some false => GetGraphUndirectedEdges.existed g ite rest

/-- The loop of `GetGraphUndirectedEdges` over `vertex->edges_`; `edges` is the result
vector so far. -/
def GetGraphUndirectedEdges.inner [DecidableEq W] (g : Graph W) :
    List (Edge W) → List (Edge W) → Option (List (Edge W))
  | [], edges => some edges
  | ite :: rest, edges =>
    match GetGraphUndirectedEdges.existed g ite edges with
    | none => none
    | some true => GetGraphUndirectedEdges.inner g rest edges
    | some false => GetGraphUndirectedEdges.inner g rest (edges ++ [ite])

/-- The loop of `GetGraphUndirectedEdges` over `vertex_map_`. -/
def GetGraphUndirectedEdges.loop [DecidableEq W] (g : Graph W) :
    List (Nat × Nat) → List (Edge W) → Option (List (Edge W))
  | [], edges => some edges
  | (_, p) :: m, edges =>
    match g.heap p with
    | none => none
    | some vertex =>
      match GetGraphUndirectedEdges.inner g vertex.edges_ edges with
      | none => none
      | some edges1 => GetGraphUndirectedEdges.loop g m edges1

/-- The member `GetGraphUndirectedEdges`. -/
def GetGraphUndirectedEdges [DecidableEq W] (g : Graph W) : Option (List (Edge W)) :=
  GetGraphUndirectedEdges.loop g g.vertex_map_ []

/-- The result of `GetGraphUndirectedEdges` read as identity and weight triples. -/
def GetGraphUndirectedEdgeIds [DecidableEq W] (g : Graph W) : Option (List (Nat × Nat × W)) :=
  match g.GetGraphUndirectedEdges with
  | none => none
  | some es => g.edgeTriples es

/-- Modelled from the spec: the member `AddUndirectedEdge`, declared in graph.hpp; its body
(graph/details/graph_impl.hpp) is not among the sources.  It is `AddEdge(a, b, cost)` followed
by `AddEdge(b, a, cost)`. -/
def AddUndirectedEdge (g : Graph W) (src_node dst_node : BundledStructType) (cost : W) :
    Option (Graph W) :=
  match g.AddEdge src_node dst_node cost with
  | none => none
  | some g1 => g1.AddEdge dst_node src_node cost

/-- The comparison of `isReverse` on the pointers of two edges. -/
def revPtr [DecidableEq W] (x y : Edge W) : Bool :=
  decide (x.src_ = y.dst_ ∧ x.dst_ = y.src_ ∧ x.cost_ = y.cost_)

end Graph

/-- The three loops of `GetGraphUndirectedEdges` run on a plain list with a total comparison:
an element is appended unless an element appended before compares true with it. -/
def collapse {α : Type} (r : α → α → Bool) : List α → List α → List α
  | [], acc => acc
  | e :: es, acc => collapse r es (if acc.any (fun x => r x e) then acc else acc ++ [e])

/-! ## The by-pointer overloads -/

/-- The memory of the caller: the state object a `BundledStructType` pointer refers to, if
any.  In the by-pointer instantiation the states are handed in as such pointers. -/
abbrev Store := Nat → Option BundledStructType

namespace Graph

variable {W : Type}

/-- The by-pointer overload of `GetVertex`: the identity is read as `vertex_node->data_id_`;
reading through a pointer that refers to no object is undefined.  The payload of a by-pointer
vertex is the pointer; the record it refers to stands for it, as no member of `Graph` reads the
payload. -/
def GetVertex_ptr (m : Store) (g : Graph W) (vertex_node : Nat) : Option (Nat × Graph W) :=
  match m vertex_node with
  | none => none
  | some node =>
    match map_find g.vertex_map_ (uint64_t node.data_id_) with
    | none =>
      let new_vertex := g.brk
      some (new_vertex,
        { vertex_map_ := map_insert g.vertex_map_ (uint64_t node.data_id_) new_vertex
          heap := Function.update g.heap new_vertex (some (Vertex.new node))
          brk := g.brk + 1 })
    | some p => some (p, g)

/-- The by-pointer overload of `AddVertex`. -/
def AddVertex_ptr (m : Store) (g : Graph W) (vertex_node : Nat) : Option (Nat × Graph W) :=
  match m vertex_node with
  | none => none
  | some node =>
    let new_vertex := g.brk
    some (new_vertex,
      { vertex_map_ := map_insert g.vertex_map_ (uint64_t node.data_id_) new_vertex
        heap := Function.update g.heap new_vertex (some (Vertex.new node))
        brk := g.brk + 1 })

/-- The by-pointer overload of `SearchVertex`; the outer `none` is undefined behaviour, the
inner one `nullptr`. -/
def SearchVertex_ptr (m : Store) (g : Graph W) (vertex_node : Nat) : Option (Option Nat) :=
  match m vertex_node with
  | none => none
  | some node => some (map_find g.vertex_map_ (uint64_t node.data_id_))

/-- The member `AddEdge` in the by-pointer instantiation: its two `GetVertex` calls resolve
to the by-pointer overload. -/
def AddEdge_ptr (m : Store) (g : Graph W) (src_node dst_node : Nat) (cost : W) :
    Option (Graph W) :=
  match g.GetVertex_ptr m src_node with
  | none => none
  | some src =>
    match src.2.GetVertex_ptr m dst_node with
    | none => none
    | some dst => AddEdge.link dst.2 src.1 dst.1 cost

/-- The member `RemoveEdge` in the by-pointer instantiation: its two `SearchVertex` calls
resolve to the by-pointer overload. -/
def RemoveEdge_ptr (m : Store) (g : Graph W) (src_node dst_node : Nat) :
    Option (Bool × Graph W) :=
  match g.SearchVertex_ptr m src_node with
  | none => none
  | some src =>
    match g.SearchVertex_ptr m dst_node with
    | none => none
    | some dst =>
      match src, dst with
      | some src_vertex, some dst_vertex =>
        match g.heap src_vertex with
        | none => none
        | some sv =>
          match RemoveEdge.scan dst_vertex sv.edges_ 0 none with
          | none => some (false, g)
          | some idx =>
            some (true,
              { g with
                heap := Function.update g.heap src_vertex
                  (some { sv with edges_ := sv.edges_.eraseIdx idx }) })
      | _, _ => some (false, g)

/-- The by-pointer overload of `RemoveVertex`. -/
def RemoveVertex_ptr (m : Store) (g : Graph W) (vertex_node : Nat) : Option (Graph W) :=
  match m vertex_node with
  | none => none
  | some node =>
    match map_find g.vertex_map_ (uint64_t node.data_id_) with
    | none => some g
    | some vptr =>
      match g.heap vptr with
      | none => none
      | some v =>
        match RemoveVertex.loop vptr v.associated_vertices_ g.heap with
        | none => none
        | some h1 =>
          match h1.delete vptr with
          | none => none
          | some h2 =>
            some { g with
              vertex_map_ := map_erase g.vertex_map_ (uint64_t node.data_id_)
              heap := h2 }

end Graph

/-- One call of the mutating interface in the by-pointer instantiation; the states are
pointers into the memory of the caller. -/
inductive PtrCall (W : Type) where
  | AddVertex (vertex_node : Nat)
  | AddEdge (src_node dst_node : Nat) (cost : W)
  | RemoveEdge (src_node dst_node : Nat)
  | RemoveVertex (vertex_node : Nat)
  | ClearGraph
deriving DecidableEq, Repr

/-- The by-value call over the states a by-pointer call refers to; `none` when one of its
pointers refers to no object. -/
def PtrCall.deref {W : Type} (m : Store) : PtrCall W → Option (Call W)
  | .AddVertex p => (m p).map Call.AddVertex
  | .AddEdge p q w =>
    match m p, m q with
    | some s, some d => some (Call.AddEdge s d w)
    | _, _ => none
  | .RemoveEdge p q =>
    match m p, m q with
    | some s, some d => some (Call.RemoveEdge s d)
    | _, _ => none
  | .RemoveVertex p => (m p).map Call.RemoveVertex
  | .ClearGraph => some Call.ClearGraph

/-- The by-value call sequence over the states a by-pointer call sequence refers to. -/
def PtrCall.derefAll {W : Type} (m : Store) : List (PtrCall W) → Option (List (Call W))
  | [] => some []
  | c :: cs =>
    match PtrCall.deref m c with
    | none => none
    | some c1 =>
      match PtrCall.derefAll m cs with
      | none => none
      | some cs1 => some (c1 :: cs1)

namespace Graph

variable {W : Type}

/-- The graph after one call of the by-pointer instantiation. -/
def step_ptr (m : Store) (g : Graph W) : PtrCall W → Option (Graph W)
  | .AddVertex p => (g.AddVertex_ptr m p).map Prod.snd
  | .AddEdge p q w => g.AddEdge_ptr m p q w
  | .RemoveEdge p q => (g.RemoveEdge_ptr m p q).map Prod.snd
  | .RemoveVertex p => g.RemoveVertex_ptr m p
  | .ClearGraph => g.ClearGraph

/-- The graph after a sequence of calls of the by-pointer instantiation. -/
def run_ptr (m : Store) (g : Graph W) : List (PtrCall W) → Option (Graph W)
  | [] => some g
  | c :: cs =>
    match g.step_ptr m c with
    | none => none
    | some g1 => run_ptr m g1 cs

end Graph

/-! ## Graphs that differ by the addresses of their vertices -/

/-- An edge with both pointers moved up by `n` addresses. -/
def Edge.shift {W : Type} (n : Nat) (e : Edge W) : Edge W :=
  { src_ := e.src_ + n, dst_ := e.dst_ + n, cost_ := e.cost_ }

/-- A vertex with all the pointers it holds moved up by `n` addresses. -/
def Vertex.shift {W : Type} (n : Nat) (v : Vertex W) : Vertex W :=
  { v with
    edges_ := v.edges_.map (Edge.shift n)
    associated_vertices_ := v.associated_vertices_.map (fun p => p + n) }

/-- The graph `g` is the graph `g0` with every vertex `n` addresses further up; what `g`
holds below address `n` is not referred to. -/
def Graph.Shifted {W : Type} (n : Nat) (g0 g : Graph W) : Prop :=
  g.vertex_map_ = g0.vertex_map_.map (fun x => (x.1, x.2 + n)) ∧ g.brk = g0.brk + n ∧
    ∀ p, g.heap (p + n) = (g0.heap p).map (Vertex.shift n)

/-- The call is an `AddEdge`. -/
def Call.isAddEdge {W : Type} : Call W → Bool
  | .AddEdge _ _ _ => true
  | _ => false

/-- The memory of the test fixture: the object `TestState(i)` that `nodes[i]` points to is
placed at address `100 + i`, for `i` from 0 to 8. -/
def testStore : Store :=
  fun p => if 100 ≤ p ∧ p < 109 then some (node (p - 100)) else none

/-- The pointer `nodes[i]` of the test fixture. -/
def nodes (i : Nat) : Nat := 100 + i

/-! ## Further call sequences used as examples -/

/-- A call sequence with all five kinds of call. -/
def mixedCalls : List (Call ℚ) :=
  [ .AddEdge (node 7) (node 6) 1.5, .ClearGraph, .AddEdge (node 1) (node 2) 1.0,
    .AddEdge (node 2) (node 3) 2.0, .AddEdge (node 3) (node 1) 2.5,
    .RemoveEdge (node 1) (node 2), .AddEdge (node 1) (node 2) 2.0,
    .AddEdge (node 1) (node 2) 2.5, .AddEdge (node 2) (node 1) 1.5,
    .RemoveVertex (node 3), .AddVertex (node 4) ]

/-- A sequence with all five kinds of call that leaves the edges from 1 to 3 and from 3 to 1. -/
def backRefCalls : List (Call ℚ) :=
  [ .AddEdge (node 5) (node 6) 1.5, .ClearGraph, .AddEdge (node 1) (node 2) 1.0,
    .AddEdge (node 2) (node 3) 2.0, .AddEdge (node 3) (node 1) 2.5,
    .AddEdge (node 1) (node 3) 3.0, .RemoveEdge (node 2) (node 3),
    .RemoveVertex (node 2), .AddVertex (node 4) ]

/-- Four `AddEdge` calls: the edges between 1 and 2 carry the same weight, the edges between 2
and 3 carry different weights. -/
def undirectedCalls : List (Call ℚ) :=
  [ .AddEdge (node 1) (node 2) 1.0, .AddEdge (node 2) (node 1) 1.0,
    .AddEdge (node 2) (node 3) 2.0, .AddEdge (node 3) (node 2) 1.5 ]

/-- Four calls of the by-pointer instantiation on nodes of the test fixture. -/
def ptrCalls : List (PtrCall ℚ) :=
  [ .AddEdge (nodes 0) (nodes 1) 1.0, .AddEdge (nodes 1) (nodes 0) 2.0,
    .RemoveEdge (nodes 0) (nodes 1), .RemoveVertex (nodes 1) ]

/-- The calls of `ptrCalls` in the by-value instantiation. -/
def valCalls : List (Call ℚ) :=
  [ .AddEdge (node 0) (node 1) 1.0, .AddEdge (node 1) (node 0) 2.0,
    .RemoveEdge (node 0) (node 1), .RemoveVertex (node 1) ]

end librav

namespace librav

/-! ## The identity map -/

theorem map_find_mem {m : List (Nat × Nat)} {k : Nat} {p : Nat}
    (h : map_find m k = some p) : (k, p) ∈ m := by
  induction m with
  | nil => simp [map_find] at h
  | cons kv m ih =>
    obtain ⟨k1, q⟩ := kv
    simp only [map_find] at h
    split at h
    · next hk => simp only [Option.some.injEq] at h; subst hk; subst h; simp
    · exact List.mem_cons_of_mem _ (ih h)

theorem map_find_none {m : List (Nat × Nat)} {k : Nat} :
    map_find m k = none ↔ k ∉ m.map Prod.fst := by
  induction m with
  | nil => simp [map_find]
  | cons kv m ih =>
    obtain ⟨k1, q⟩ := kv
    simp only [map_find, List.map_cons, List.mem_cons, not_or]
    split
    · next hk => simp [hk]
    · next hk => rw [ih]; constructor
                 · intro h; exact ⟨fun h1 => hk h1.symm, h⟩
                 · intro h; exact h.2

theorem map_unique {m : List (Nat × Nat)} (hs : (m.map Prod.fst).Pairwise (· < ·))
    {k : Nat} {p q : Nat} (hp : (k, p) ∈ m) (hq : (k, q) ∈ m) : p = q := by
  induction m with
  | nil => simp at hp
  | cons kv m ih =>
    simp only [List.map_cons, List.pairwise_cons] at hs
    rcases List.mem_cons.1 hp with hp | hp <;> rcases List.mem_cons.1 hq with hq | hq
    · rw [← hp] at hq; exact (Prod.mk.inj hq).2.symm
    · have := hs.1 k (List.mem_map.2 ⟨_, hq, rfl⟩); rw [← hp] at this; simp at this
    · have := hs.1 k (List.mem_map.2 ⟨_, hp, rfl⟩); rw [← hq] at this; simp at this
    · exact ih hs.2 hp hq

theorem map_find_of_mem {m : List (Nat × Nat)} (hs : (m.map Prod.fst).Pairwise (· < ·))
    {k : Nat} {p : Nat} (hp : (k, p) ∈ m) : map_find m k = some p := by
  cases h : map_find m k with
  | none => exact absurd (List.mem_map.2 ⟨_, hp, rfl⟩) (map_find_none.1 h)
  | some q => rw [map_unique hs hp (map_find_mem h)]

theorem mem_map_insert {m : List (Nat × Nat)} (hs : (m.map Prod.fst).Pairwise (· < ·))
    {k : Nat} {p : Nat} {x : Nat × Nat} :
    x ∈ map_insert m k p ↔ x ∈ m ∨ (x = (k, p) ∧ k ∉ m.map Prod.fst) := by
  induction m with
  | nil => simp [map_insert]
  | cons kv m ih =>
    obtain ⟨k1, q⟩ := kv
    simp only [List.map_cons, List.pairwise_cons] at hs
    simp only [map_insert]
    split
    · next hlt =>
      simp only [List.mem_cons, List.map_cons, not_or]
      constructor
      · rintro (h | h | h)
        · right; refine ⟨h, by omega, fun hk => ?_⟩
          have := hs.1 k hk
          omega
        · left; left; exact h
        · left; right; exact h
      · rintro (h | h)
        · right; exact h
        · left; exact h.1
    · split
      · next hge heq =>
        subst heq
        simp
      · next hge hne =>
        simp only [List.mem_cons, ih hs.2, List.map_cons, not_or]
        constructor
        · rintro (h | h | h)
          · left; left; exact h
          · left; right; exact h
          · right; exact ⟨h.1, hne, h.2⟩
        · rintro (h | h)
          · rcases h with h | h
            · left; exact h
            · right; left; exact h
          · right; right; exact ⟨h.1, h.2.2⟩

theorem map_insert_sorted {m : List (Nat × Nat)} (hs : (m.map Prod.fst).Pairwise (· < ·))
    (k : Nat) (p : Nat) : ((map_insert m k p).map Prod.fst).Pairwise (· < ·) := by
  induction m with
  | nil => simp [map_insert]
  | cons kv m ih =>
    obtain ⟨k1, q⟩ := kv
    have hs0 := hs
    simp only [List.map_cons, List.pairwise_cons] at hs
    simp only [map_insert]
    split
    · next hlt =>
      simp only [List.map_cons, List.pairwise_cons, List.mem_cons]
      refine ⟨?_, hs⟩
      rintro a (ha | ha)
      · omega
      · have := hs.1 a ha; omega
    · split
      · exact hs0
      · next hge hne =>
        simp only [List.map_cons, List.pairwise_cons]
        refine ⟨?_, ih hs.2⟩
        intro a ha
        obtain ⟨x, hx, rfl⟩ := List.mem_map.1 ha
        rcases (mem_map_insert hs.2).1 hx with h | h
        · exact hs.1 _ (List.mem_map.2 ⟨x, h, rfl⟩)
        · rw [h.1]; show k1 < k; omega

theorem map_insert_of_mem {m : List (Nat × Nat)}
    (hs : (m.map Prod.fst).Pairwise (· < ·)) {k : Nat} (p : Nat)
    (hk : k ∈ m.map Prod.fst) : map_insert m k p = m := by
  induction m with
  | nil => simp at hk
  | cons kv m ih =>
    obtain ⟨k1, q⟩ := kv
    simp only [List.map_cons, List.pairwise_cons] at hs
    simp only [List.map_cons, List.mem_cons] at hk
    simp only [map_insert]
    split
    · next hlt =>
      rcases hk with hk | hk
      · omega
      · have := hs.1 k hk; omega
    · split
      · rfl
      · next hge hne =>
        rcases hk with hk | hk
        · exact absurd hk hne
        · rw [ih hs.2 hk]

theorem mem_map_erase {m : List (Nat × Nat)} (hs : (m.map Prod.fst).Pairwise (· < ·))
    {k : Nat} {x : Nat × Nat} : x ∈ map_erase m k ↔ x ∈ m ∧ x.1 ≠ k := by
  induction m with
  | nil => simp [map_erase]
  | cons kv m ih =>
    simp only [List.map_cons, List.pairwise_cons] at hs
    unfold map_erase at ih ⊢
    by_cases hk : kv.1 = k
    · rw [List.eraseP_cons_of_pos (by simpa using hk)]
      constructor
      · intro hx
        refine ⟨List.mem_cons_of_mem _ hx, fun hxk => ?_⟩
        have := hs.1 x.1 (List.mem_map.2 ⟨x, hx, rfl⟩)
        omega
      · rintro ⟨hx, hxk⟩
        rcases List.mem_cons.1 hx with h | h
        · rw [h] at hxk; exact absurd hk hxk
        · exact h
    · rw [List.eraseP_cons_of_neg (by simpa using hk), List.mem_cons, ih hs.2, List.mem_cons]
      constructor
      · rintro (h | h)
        · exact ⟨Or.inl h, by rw [h]; exact hk⟩
        · exact ⟨Or.inr h.1, h.2⟩
      · rintro ⟨h | h, h2⟩
        · exact Or.inl h
        · exact Or.inr ⟨h, h2⟩

theorem map_erase_sorted {m : List (Nat × Nat)} (hs : (m.map Prod.fst).Pairwise (· < ·))
    (k : Nat) : ((map_erase m k).map Prod.fst).Pairwise (· < ·) :=
  hs.sublist ((List.eraseP_sublist m).map Prod.fst)

/-! ## The invariant is kept by every call -/

namespace Graph

variable {W : Type}

theorem WF.empty : (Graph.empty : Graph W).WF := by
  constructor <;> simp [Graph.empty]

theorem WF.ptr_lt {g : Graph W} (hg : g.WF) {k : Nat} {p : Nat}
    (h : (k, p) ∈ g.vertex_map_) : p < g.brk := by
  by_contra hlt
  obtain ⟨v, hv, _⟩ := hg.live k p h
  rw [hg.fresh p (by omega)] at hv
  simp at hv

theorem WF.key_of_ptr {g : Graph W} (hg : g.WF) {k k1 : Nat} {p : Nat}
    (h : (k, p) ∈ g.vertex_map_) (h1 : (k1, p) ∈ g.vertex_map_) : k = k1 := by
  obtain ⟨v, hv, hk⟩ := hg.live k p h
  obtain ⟨v1, hv1, hk1⟩ := hg.live k1 p h1
  rw [hv] at hv1
  cases hv1
  rw [← hk, ← hk1]

theorem AddVertex_mono {g : Graph W} (hg : g.WF) (s : BundledStructType) {x : Nat × Nat}
    (hx : x ∈ g.vertex_map_) : x ∈ (g.AddVertex s).2.vertex_map_ :=
  (mem_map_insert hg.sorted).2 (Or.inl hx)

theorem AddVertex_heap_old {g : Graph W} (s : BundledStructType) {p : Nat}
    (hp : p ≠ g.brk) : (g.AddVertex s).2.heap p = g.heap p := by
  simp [AddVertex, Function.update_noteq hp]

theorem WF.AddVertex {g : Graph W} (hg : g.WF) (s : BundledStructType) :
    (g.AddVertex s).2.WF := by
  have hmem : ∀ k p, (k, p) ∈ (g.AddVertex s).2.vertex_map_ →
      (k, p) ∈ g.vertex_map_ ∨ ((k, p) = (uint64_t s.data_id_, g.brk)) := by
    intro k p h
    rcases (mem_map_insert hg.sorted).1 h with h | h
    · exact Or.inl h
    · exact Or.inr h.1
  have hnew : (g.AddVertex s).2.heap g.brk = some (Vertex.new s) := by
    simp [Graph.AddVertex]
  constructor
  · exact map_insert_sorted hg.sorted _ _
  · intro k p h
    rcases hmem k p h with h | h
    · obtain ⟨v, hv, hk⟩ := hg.live k p h
      exact ⟨v, by rw [AddVertex_heap_old s (Nat.ne_of_lt (hg.ptr_lt h))]; exact hv, hk⟩
    · cases h
      exact ⟨Vertex.new s, hnew, rfl⟩
  · intro p hp
    have hp1 : g.brk + 1 ≤ p := hp
    rw [AddVertex_heap_old s (by omega)]
    exact hg.fresh p (by omega)
  · intro k p v h hv e he
    rcases hmem k p h with h | h
    · rw [AddVertex_heap_old s (Nat.ne_of_lt (hg.ptr_lt h))] at hv
      obtain ⟨h1, k1, h2⟩ := hg.v3 k p v h hv e he
      exact ⟨h1, k1, AddVertex_mono hg s h2⟩
    · cases h
      rw [hnew] at hv
      cases hv
      simp [Vertex.new] at he
  · intro k p v h hv e he d hd
    rcases hmem k p h with h | h
    · rw [AddVertex_heap_old s (Nat.ne_of_lt (hg.ptr_lt h))] at hv
      obtain ⟨_, k1, h2⟩ := hg.v3 k p v h hv e he
      rw [AddVertex_heap_old s (Nat.ne_of_lt (hg.ptr_lt h2))] at hd
      exact hg.v2 k p v h hv e he d hd
    · cases h
      rw [hnew] at hv
      cases hv
      simp [Vertex.new] at he
  · intro k p v h hv
    rcases hmem k p h with h | h
    · rw [AddVertex_heap_old s (Nat.ne_of_lt (hg.ptr_lt h))] at hv
      exact hg.nopar k p v h hv
    · cases h
      rw [hnew] at hv
      cases hv
      simp [Vertex.new]

theorem GetVertex_of_none {g : Graph W} {s : BundledStructType}
    (h : map_find g.vertex_map_ (uint64_t s.data_id_) = none) :
    g.GetVertex s = g.AddVertex s := by
  simp [GetVertex, AddVertex, h]

theorem GetVertex_of_some {g : Graph W} {s : BundledStructType} {p : Nat}
    (h : map_find g.vertex_map_ (uint64_t s.data_id_) = some p) :
    g.GetVertex s = (p, g) := by
  simp [GetVertex, h]

theorem WF.GetVertex {g : Graph W} (hg : g.WF) (s : BundledStructType) :
    (g.GetVertex s).2.WF := by
  cases h : map_find g.vertex_map_ (uint64_t s.data_id_) with
  | none => rw [GetVertex_of_none h]; exact hg.AddVertex s
  | some p => rw [GetVertex_of_some h]; exact hg

theorem GetVertex_mem {g : Graph W} (hg : g.WF) (s : BundledStructType) :
    (uint64_t s.data_id_, (g.GetVertex s).1) ∈ (g.GetVertex s).2.vertex_map_ := by
  cases h : map_find g.vertex_map_ (uint64_t s.data_id_) with
  | none =>
    rw [GetVertex_of_none h]
    exact (mem_map_insert hg.sorted).2 (Or.inr ⟨rfl, map_find_none.1 h⟩)
  | some p => rw [GetVertex_of_some h]; exact map_find_mem h

theorem GetVertex_mono {g : Graph W} (hg : g.WF) (s : BundledStructType) {x : Nat × Nat}
    (hx : x ∈ g.vertex_map_) : x ∈ (g.GetVertex s).2.vertex_map_ := by
  cases h : map_find g.vertex_map_ (uint64_t s.data_id_) with
  | none => rw [GetVertex_of_none h]; exact AddVertex_mono hg s hx
  | some p => rw [GetVertex_of_some h]; exact hx

theorem AddEdge.link_of_neighbour {g : Graph W} {sp dp : Nat} (w : W) {sv : Vertex W}
    (hs : g.heap sp = some sv) (hc : sv.CheckNeighbour dp = true) :
    AddEdge.link g sp dp w = some g := by
  simp [AddEdge.link, hs, hc]

theorem AddEdge.link_heap {g : Graph W} {sp dp : Nat} (w : W) {sv dv : Vertex W}
    (hs : g.heap sp = some sv) (hd : g.heap dp = some dv)
    (hc : sv.CheckNeighbour dp = false) :
    AddEdge.link g sp dp w = some { g with heap := fun p => (g.heap p).map (fun v =>
        { v with
          edges_ := v.edges_ ++ (if p = sp then [Edge.mk sp dp w] else [])
          associated_vertices_ :=
            v.associated_vertices_ ++ (if p = dp then [sp] else []) }) } := by
  by_cases hsd : sp = dp
  · subst hsd
    rw [hs] at hd
    cases hd
    simp only [AddEdge.link, hs, hc, Function.update_same, Bool.false_eq_true, if_false,
      Option.some.injEq]
    congr 1
    funext p
    by_cases hp : p = sp
    · subst hp; simp [hs]
    · simp only [Function.update_noteq hp, hp, if_false, List.append_nil]
      cases g.heap p <;> simp
  · simp only [AddEdge.link, hs, hc, hd, Function.update_noteq hsd, Bool.false_eq_true,
      if_false, Option.some.injEq]
    congr 1
    funext p
    by_cases hp : p = sp
    · subst hp; simp [hs, hsd]
    · by_cases hq : p = dp
      · subst hq; simp [Function.update_noteq hp, hd, hp]
      · simp only [Function.update_noteq hp, Function.update_noteq hq, hp, hq, if_false,
          List.append_nil]
        cases g.heap p <;> simp

theorem CheckNeighbour_iff {v : Vertex W} {dp : Nat} :
    v.CheckNeighbour dp = true ↔ dp ∈ v.edges_.map Edge.dst_ := by
  simp only [Vertex.CheckNeighbour, List.any_eq_true, decide_eq_true_eq, List.mem_map]

theorem WF.link {g g1 : Graph W} (hg : g.WF) {ks kd sp dp : Nat} (w : W)
    (hsp : (ks, sp) ∈ g.vertex_map_) (hdp : (kd, dp) ∈ g.vertex_map_)
    (h : AddEdge.link g sp dp w = some g1) : g1.WF := by
  obtain ⟨sv, hs, -⟩ := hg.live ks sp hsp
  obtain ⟨dv, hd, -⟩ := hg.live kd dp hdp
  cases hc : sv.CheckNeighbour dp with
  | true =>
    rw [AddEdge.link_of_neighbour w hs hc] at h
    cases h
    exact hg
  | false =>
    rw [AddEdge.link_heap w hs hd hc] at h
    cases h
    have hnot : dp ∉ sv.edges_.map Edge.dst_ := by
      rw [← CheckNeighbour_iff, hc]; simp
    constructor
    · exact hg.sorted
    · intro k p hp
      obtain ⟨v, hv, hk⟩ := hg.live k p hp
      show ∃ v1, Option.map _ (g.heap p) = some v1 ∧ v1.vertex_id_ = k
      rw [hv]
      exact ⟨_, rfl, hk⟩
    · intro p hp
      simp [hg.fresh p hp]
    · intro k p v1 hp hv1 e he
      obtain ⟨v, hv, -⟩ := hg.live k p hp
      simp only [hv, Option.map_some', Option.some.injEq] at hv1
      subst hv1
      simp only [List.mem_append] at he
      rcases he with he | he
      · exact hg.v3 k p v hp hv e he
      · split at he
        · next hps =>
          simp only [List.mem_singleton] at he
          subst he
          exact ⟨hps.symm, kd, hdp⟩
        · simp at he
    · intro k p v1 hp hv1 e he d1 hd1
      obtain ⟨v, hv, -⟩ := hg.live k p hp
      simp only [hv, Option.map_some', Option.some.injEq] at hv1
      subst hv1
      simp only [List.mem_append] at he
      rcases he with he | he
      · obtain ⟨-, k1, hk1⟩ := hg.v3 k p v hp hv e he
        obtain ⟨d, hd0, -⟩ := hg.live k1 e.dst_ hk1
        simp only [hd0, Option.map_some', Option.some.injEq] at hd1
        subst hd1
        exact List.mem_append_left _ (hg.v2 k p v hp hv e he d hd0)
      · split at he
        · next hps =>
          simp only [List.mem_singleton] at he
          subst he
          simp only [hd, Option.map_some', Option.some.injEq] at hd1
          subst hd1
          simp [hps]
        · simp at he
    · intro k p v1 hp hv1
      obtain ⟨v, hv, -⟩ := hg.live k p hp
      simp only [hv, Option.map_some', Option.some.injEq] at hv1
      subst hv1
      by_cases hps : p = sp
      · subst hps
        rw [hs] at hv
        cases hv
        simp only [if_true, List.map_append, List.map_cons, List.map_nil]
        exact List.Nodup.append (hg.nopar k p _ hp hs) (List.nodup_singleton _)
          (by simpa [List.Disjoint] using hnot)
      · simp only [hps, if_false, List.append_nil]
        exact hg.nopar k p v hp hv

theorem AddEdge_total {g : Graph W} (hg : g.WF) (s d : BundledStructType) (w : W) :
    ∃ g1, g.AddEdge s d w = some g1 := by
  have h1 := hg.GetVertex s
  have h2 := h1.GetVertex d
  have hsp := GetVertex_mono h1 d (GetVertex_mem hg s)
  have hdp := GetVertex_mem h1 d
  obtain ⟨sv, hs, -⟩ := h2.live _ _ hsp
  obtain ⟨dv, hd, -⟩ := h2.live _ _ hdp
  unfold AddEdge
  cases hc : sv.CheckNeighbour ((g.GetVertex s).2.GetVertex d).1 with
  | true => exact ⟨_, AddEdge.link_of_neighbour w hs hc⟩
  | false => exact ⟨_, AddEdge.link_heap w hs hd hc⟩

theorem WF.AddEdge {g g1 : Graph W} (hg : g.WF) {s d : BundledStructType} {w : W}
    (h : g.AddEdge s d w = some g1) : g1.WF := by
  have h1 := hg.GetVertex s
  have h2 := h1.GetVertex d
  exact h2.link w (GetVertex_mono h1 d (GetVertex_mem hg s)) (GetVertex_mem h1 d) h

end Graph

/-! ### Calls that only take edges away -/

section shrink

variable {W : Type}

theorem Shrinks.refl (h : Heap W) : Shrinks h h :=
  fun _ => ⟨id, fun v hv => ⟨v, hv, rfl, rfl, List.Sublist.refl _⟩⟩

theorem Shrinks.trans {h h1 h2 : Heap W} (a : Shrinks h h1) (b : Shrinks h1 h2) :
    Shrinks h h2 := by
  intro p
  refine ⟨fun hp => (b p).1 ((a p).1 hp), fun v hv => ?_⟩
  obtain ⟨v1, hv1, e1, e2, e3⟩ := (a p).2 v hv
  obtain ⟨v2, hv2, f1, f2, f3⟩ := (b p).2 v1 hv1
  exact ⟨v2, hv2, f1.trans e1, f2.trans e2, f3.trans e3⟩

theorem Shrinks.get {h h1 : Heap W} (a : Shrinks h h1) {p : Nat} {v v1 : Vertex W}
    (hv : h p = some v) (hv1 : h1 p = some v1) :
    v1.vertex_id_ = v.vertex_id_ ∧ v1.associated_vertices_ = v.associated_vertices_ ∧
      v1.edges_.Sublist v.edges_ := by
  obtain ⟨v2, hv2, e⟩ := (a p).2 v hv
  rw [hv1] at hv2
  cases hv2
  exact e

theorem Shrinks.update {h : Heap W} {p : Nat} {v : Vertex W} (hv : h p = some v)
    {l : List (Edge W)} (hl : l.Sublist v.edges_) :
    Shrinks h (Function.update h p (some { v with edges_ := l })) := by
  intro q
  by_cases hq : q = p
  · subst hq
    refine ⟨fun hn => ?_, fun v0 hv0 => ?_⟩
    · rw [hv] at hn; cases hn
    · rw [hv] at hv0
      cases hv0
      exact ⟨_, Function.update_same _ _ _, rfl, rfl, hl⟩
  · rw [Function.update_noteq hq]
    exact Shrinks.refl h q

theorem Graph.WF.shrink {g : Graph W} (hg : g.WF) {h1 : Heap W} (hs : Shrinks g.heap h1) :
    Graph.WF { g with heap := h1 } := by
  constructor
  · exact hg.sorted
  · intro k p hp
    obtain ⟨v, hv, hk⟩ := hg.live k p hp
    obtain ⟨v1, hv1, e1, -⟩ := (hs p).2 v hv
    exact ⟨v1, hv1, e1.trans hk⟩
  · intro p hp
    exact (hs p).1 (hg.fresh p hp)
  · intro k p v1 hp hv1 e he
    obtain ⟨v, hv, -⟩ := hg.live k p hp
    exact hg.v3 k p v hp hv e ((hs.get hv hv1).2.2.subset he)
  · intro k p v1 hp hv1 e he d1 hd1
    obtain ⟨v, hv, -⟩ := hg.live k p hp
    have he0 := (hs.get hv hv1).2.2.subset he
    obtain ⟨-, k1, hk1⟩ := hg.v3 k p v hp hv e he0
    obtain ⟨d, hd, -⟩ := hg.live k1 e.dst_ hk1
    rw [(hs.get hd hd1).2.1]
    exact hg.v2 k p v hp hv e he0 d hd
  · intro k p v1 hp hv1
    obtain ⟨v, hv, -⟩ := hg.live k p hp
    exact (hg.nopar k p v hp hv).sublist ((hs.get hv hv1).2.2.map Edge.dst_)

theorem eraseP_no_dst {l : List (Edge W)} {vptr : Nat} (hn : (l.map Edge.dst_).Nodup) :
    ∀ e ∈ l.eraseP (fun e => decide (e.dst_ = vptr)), e.dst_ ≠ vptr := by
  induction l with
  | nil => simp
  | cons a t ih =>
    simp only [List.map_cons, List.nodup_cons] at hn
    by_cases ha : a.dst_ = vptr
    · rw [List.eraseP_cons_of_pos (by simpa using ha)]
      intro e he hev
      exact hn.1 (List.mem_map.2 ⟨e, he, hev.trans ha.symm⟩)
    · rw [List.eraseP_cons_of_neg (by simpa using ha)]
      intro e he
      rcases List.mem_cons.1 he with h | h
      · rw [h]; exact ha
      · exact ih hn.2 e h

end shrink

namespace Graph

variable {W : Type}

theorem RemoveVertex.loop_shrinks {vptr : Nat} {l : List Nat} {h h1 : Heap W}
    (hl : RemoveVertex.loop vptr l h = some h1) : Shrinks h h1 := by
  induction l generalizing h with
  | nil => simp only [RemoveVertex.loop, Option.some.injEq] at hl; subst hl; exact Shrinks.refl h
  | cons a t ih =>
    simp only [RemoveVertex.loop] at hl
    cases ha : h a with
    | none => simp [ha] at hl
    | some av =>
      simp only [ha] at hl
      exact (Shrinks.update ha (List.eraseP_sublist _)).trans (ih hl)

theorem RemoveVertex.loop_clears {vptr : Nat} {l : List Nat} {h h1 : Heap W}
    (hl : RemoveVertex.loop vptr l h = some h1) {p : Nat} (hp : p ∈ l) {v v1 : Vertex W}
    (hv : h p = some v) (hn : (v.edges_.map Edge.dst_).Nodup) (hv1 : h1 p = some v1) :
    ∀ e ∈ v1.edges_, e.dst_ ≠ vptr := by
  induction l generalizing h v with
  | nil => simp at hp
  | cons a t ih =>
    simp only [RemoveVertex.loop] at hl
    cases ha : h a with
    | none => simp [ha] at hl
    | some av =>
      simp only [ha] at hl
      by_cases hpa : p = a
      · subst hpa
        rw [hv] at ha
        cases ha
        have hs := RemoveVertex.loop_shrinks hl
        have hsub := (hs.get (Function.update_same _ _ _) hv1).2.2
        intro e he
        exact eraseP_no_dst hn e (hsub.subset he)
      · rcases List.mem_cons.1 hp with h0 | h0
        · exact absurd h0 hpa
        · exact ih hl h0 (by rw [Function.update_noteq hpa]; exact hv) hn

theorem RemoveVertex.loop_total {vptr : Nat} {l : List Nat} {h : Heap W}
    (hl : ∀ p ∈ l, h p ≠ none) : ∃ h1, RemoveVertex.loop vptr l h = some h1 := by
  induction l generalizing h with
  | nil => exact ⟨h, rfl⟩
  | cons a t ih =>
    simp only [RemoveVertex.loop]
    cases ha : h a with
    | none => exact absurd ha (hl a (List.mem_cons_self _ _))
    | some av =>
      simp only
      apply ih
      intro p hp
      by_cases hpa : p = a
      · subst hpa; simp
      · rw [Function.update_noteq hpa]; exact hl p (List.mem_cons_of_mem _ hp)

theorem WF.keys_nodup {g : Graph W} (hg : g.WF) : (g.vertex_map_.map Prod.fst).Nodup :=
  hg.sorted.imp (fun h => Nat.ne_of_lt h)

theorem WF.ptrs_nodup {g : Graph W} (hg : g.WF) : (g.vertex_map_.map Prod.snd).Nodup := by
  refine List.Nodup.map_on ?_ (List.Nodup.of_map _ hg.keys_nodup)
  rintro ⟨k, p⟩ hx ⟨k1, p1⟩ hy hxy
  simp only at hxy
  subst hxy
  rw [hg.key_of_ptr hx hy]

theorem WF.remove {g : Graph W} (hg : g.WF) {k vptr : Nat} (hk : (k, vptr) ∈ g.vertex_map_)
    (hno : ∀ k1 p v, (k1, p) ∈ g.vertex_map_ → p ≠ vptr → g.heap p = some v →
      ∀ e ∈ v.edges_, e.dst_ ≠ vptr) :
    Graph.WF { g with vertex_map_ := map_erase g.vertex_map_ k
                      heap := Function.update g.heap vptr none } := by
  have hmem : ∀ k1 p, (k1, p) ∈ map_erase g.vertex_map_ k →
      (k1, p) ∈ g.vertex_map_ ∧ p ≠ vptr := by
    intro k1 p h
    obtain ⟨h1, h2⟩ := (mem_map_erase hg.sorted).1 h
    refine ⟨h1, fun hp => h2 ?_⟩
    subst hp
    exact hg.key_of_ptr h1 hk
  constructor
  · exact map_erase_sorted hg.sorted k
  · intro k1 p hp
    obtain ⟨h1, h2⟩ := hmem k1 p hp
    obtain ⟨v, hv, hkv⟩ := hg.live k1 p h1
    exact ⟨v, by simp only [Function.update_noteq h2]; exact hv, hkv⟩
  · intro p hp
    by_cases h : p = vptr
    · subst h; simp
    · simp only [Function.update_noteq h]; exact hg.fresh p hp
  · intro k1 p v hp hv e he
    obtain ⟨h1, h2⟩ := hmem k1 p hp
    simp only [Function.update_noteq h2] at hv
    obtain ⟨hsrc, k2, hk2⟩ := hg.v3 k1 p v h1 hv e he
    refine ⟨hsrc, k2, (mem_map_erase hg.sorted).2 ⟨hk2, fun h => ?_⟩⟩
    simp only at h
    subst h
    exact hno k1 p v h1 h2 hv e he (map_unique hg.sorted hk2 hk)
  · intro k1 p v hp hv e he d hd
    obtain ⟨h1, h2⟩ := hmem k1 p hp
    simp only [Function.update_noteq h2] at hv
    have hne : e.dst_ ≠ vptr := hno k1 p v h1 h2 hv e he
    simp only [Function.update_noteq hne] at hd
    exact hg.v2 k1 p v h1 hv e he d hd
  · intro k1 p v hp hv
    obtain ⟨h1, h2⟩ := hmem k1 p hp
    simp only [Function.update_noteq h2] at hv
    exact hg.nopar k1 p v h1 hv

theorem RemoveVertex_of_none {g : Graph W} {s : BundledStructType}
    (hf : map_find g.vertex_map_ (uint64_t s.data_id_) = none) :
    g.RemoveVertex s = some g := by
  simp [RemoveVertex, hf]

theorem RemoveVertex_of_loop {g : Graph W} {s : BundledStructType} {vptr : Nat}
    {v : Vertex W} {h1 : Heap W}
    (hf : map_find g.vertex_map_ (uint64_t s.data_id_) = some vptr)
    (hv : g.heap vptr = some v)
    (hl : RemoveVertex.loop vptr v.associated_vertices_ g.heap = some h1) :
    g.RemoveVertex s = some { g with
      vertex_map_ := map_erase g.vertex_map_ (uint64_t s.data_id_)
      heap := Function.update h1 vptr none } := by
  obtain ⟨v1, hv1, -⟩ := ((RemoveVertex.loop_shrinks hl) vptr).2 v hv
  simp [RemoveVertex, hf, hv, hl, Heap.delete, hv1]

theorem WF.RemoveVertex {g g1 : Graph W} (hg : g.WF) {s : BundledStructType}
    (h : g.RemoveVertex s = some g1) : g1.WF := by
  cases hf : map_find g.vertex_map_ (uint64_t s.data_id_) with
  | none =>
    rw [RemoveVertex_of_none hf] at h
    cases h
    exact hg
  | some vptr =>
    have hk := map_find_mem hf
    obtain ⟨v, hv, -⟩ := hg.live _ _ hk
    cases hl : RemoveVertex.loop vptr v.associated_vertices_ g.heap with
    | none => simp [Graph.RemoveVertex, hf, hv, hl] at h
    | some h1 =>
      rw [RemoveVertex_of_loop hf hv hl] at h
      cases h
      have hs := RemoveVertex.loop_shrinks hl
      refine WF.remove (g := { g with heap := h1 }) (hg.shrink hs) hk ?_
      intro k1 p v1 hp hne hv1 e he hdst
      obtain ⟨v0, hv0, -⟩ := hg.live k1 p hp
      have he0 := (hs.get hv0 hv1).2.2.subset he
      have hin : p ∈ v.associated_vertices_ :=
        hg.v2 k1 p v0 hp hv0 e he0 v (by rw [hdst]; exact hv)
      exact RemoveVertex.loop_clears hl hin hv0 (hg.nopar k1 p v0 hp hv0) hv1 e he hdst

theorem RemoveEdge_shrinks {g g1 : Graph W} {s d : BundledStructType} {b : Bool}
    (h : g.RemoveEdge s d = some (b, g1)) :
    g1.vertex_map_ = g.vertex_map_ ∧ g1.brk = g.brk ∧ Shrinks g.heap g1.heap := by
  unfold Graph.RemoveEdge at h
  split at h
  · next sp dp hs hd =>
    split at h
    · cases h
    · next sv hsv =>
      split at h
      · cases h; exact ⟨rfl, rfl, Shrinks.refl _⟩
      · next idx hidx =>
        cases h
        exact ⟨rfl, rfl, Shrinks.update hsv (List.eraseIdx_sublist _ _)⟩
  · cases h; exact ⟨rfl, rfl, Shrinks.refl _⟩

theorem WF.RemoveEdge {g g1 : Graph W} (hg : g.WF) {s d : BundledStructType} {b : Bool}
    (h : g.RemoveEdge s d = some (b, g1)) : g1.WF := by
  obtain ⟨h1, h2, h3⟩ := RemoveEdge_shrinks h
  have := hg.shrink h3
  cases g1
  simp only at h1 h2
  subst h1 h2
  exact this

theorem ClearGraph.loop_none {m : List (Nat × Nat)} {h h1 : Heap W}
    (hl : ClearGraph.loop m h = some h1) : ∀ p, h p = none → h1 p = none := by
  induction m generalizing h with
  | nil => simp only [ClearGraph.loop, Option.some.injEq] at hl; subst hl; exact fun _ hp => hp
  | cons a t ih =>
    obtain ⟨k, q⟩ := a
    simp only [ClearGraph.loop, Heap.delete] at hl
    cases hq : h q with
    | none => simp [hq] at hl
    | some v =>
      simp only [hq] at hl
      intro p hp
      apply ih hl
      by_cases hpq : p = q
      · subst hpq; simp
      · rw [Function.update_noteq hpq]; exact hp

theorem WF.ClearGraph {g g1 : Graph W} (hg : g.WF) (h : g.ClearGraph = some g1) : g1.WF := by
  unfold Graph.ClearGraph at h
  split at h
  · cases h
  · next h1 hl =>
    cases h
    constructor
    · simp
    · intro k p hp; simp at hp
    · intro p hp; exact ClearGraph.loop_none hl p (hg.fresh p hp)
    · intro k p v hp; simp at hp
    · intro k p v hp; simp at hp
    · intro k p v hp; simp at hp

theorem WF.step {g g1 : Graph W} (hg : g.WF) {c : Call W} (h : g.step c = some g1) :
    g1.WF := by
  cases c with
  | AddVertex s =>
    change some (g.AddVertex s).2 = some g1 at h
    cases h
    exact hg.AddVertex s
  | AddEdge s d w => exact hg.AddEdge h
  | RemoveEdge s d =>
    change (g.RemoveEdge s d).map Prod.snd = some g1 at h
    simp only [Option.map_eq_some'] at h
    obtain ⟨⟨b, g2⟩, h1, h2⟩ := h
    simp only at h2
    subst h2
    exact hg.RemoveEdge h1
  | RemoveVertex s => exact hg.RemoveVertex h
  | ClearGraph => exact hg.ClearGraph h

theorem WF.run {g g1 : Graph W} (hg : g.WF) {cs : List (Call W)}
    (h : g.run cs = some g1) : g1.WF := by
  induction cs generalizing g with
  | nil => simp only [Graph.run, Option.some.injEq] at h; subst h; exact hg
  | cons c cs ih =>
    simp only [Graph.run] at h
    cases hc : g.step c with
    | none => simp [hc] at h
    | some g2 => simp only [hc] at h; exact ih (hg.step hc) h

theorem Reachable.wf {g : Graph W} (h : g.Reachable) : g.WF := by
  obtain ⟨cs, hcs⟩ := h
  exact WF.empty.run hcs

/-! ## What the enumerations return in a well-formed state -/

theorem GetGraphEdges.loop_eq {h : Heap W} {m : List (Nat × Nat)}
    (hm : ∀ x ∈ m, h x.2 ≠ none) :
    GetGraphEdges.loop h m =
      some (m.flatMap (fun x => match h x.2 with | none => [] | some v => v.edges_)) := by
  induction m with
  | nil => rfl
  | cons a t ih =>
    obtain ⟨k, p⟩ := a
    have ht := ih (fun x hx => hm x (List.mem_cons_of_mem _ hx))
    cases hp : h p with
    | none => exact absurd hp (hm (k, p) (List.mem_cons_self _ _))
    | some v => simp [GetGraphEdges.loop, hp, ht]

theorem WF.GetGraphEdges_eq {g : Graph W} (hg : g.WF) : g.GetGraphEdges = some g.allEdges := by
  unfold Graph.GetGraphEdges Graph.allEdges
  rw [GetGraphEdges.loop_eq]
  · rfl
  · rintro ⟨k, p⟩ hx
    obtain ⟨v, hv, -⟩ := hg.live k p hx
    simp [hv]

theorem mem_allEdges {g : Graph W} {e : Edge W} :
    e ∈ g.allEdges ↔ ∃ k p v, (k, p) ∈ g.vertex_map_ ∧ g.heap p = some v ∧ e ∈ v.edges_ := by
  simp only [Graph.allEdges, List.mem_flatMap, Graph.edgesAt]
  constructor
  · rintro ⟨⟨k, p⟩, hx, he⟩
    cases hp : g.heap p with
    | none => simp [hp] at he
    | some v => simp only [hp] at he; exact ⟨k, p, v, hx, hp, he⟩
  · rintro ⟨k, p, v, hx, hv, he⟩
    exact ⟨(k, p), hx, by simp only [hv]; exact he⟩

theorem WF.idAt_eq {g : Graph W} (hg : g.WF) {k p : Nat} (h : (k, p) ∈ g.vertex_map_) :
    g.idAt p = k := by
  obtain ⟨v, hv, hk⟩ := hg.live k p h
  simp [Graph.idAt, hv, hk]

theorem WF.vertexId_eq {g : Graph W} (hg : g.WF) {k p : Nat} (h : (k, p) ∈ g.vertex_map_) :
    g.vertexId p = some k := by
  obtain ⟨v, hv, hk⟩ := hg.live k p h
  simp [Graph.vertexId, hv, hk]

theorem edgeTriples_eq {g : Graph W} {es : List (Edge W)}
    (h : ∀ e ∈ es, g.heap e.src_ ≠ none ∧ g.heap e.dst_ ≠ none) :
    g.edgeTriples es = some (es.map g.tripleAt) := by
  induction es with
  | nil => rfl
  | cons e t ih =>
    have ht := ih (fun x hx => h x (List.mem_cons_of_mem _ hx))
    obtain ⟨h1, h2⟩ := h e (List.mem_cons_self _ _)
    cases hs : g.heap e.src_ with
    | none => exact absurd hs h1
    | some sv =>
      cases hd : g.heap e.dst_ with
      | none => exact absurd hd h2
      | some dv =>
        simp [Graph.edgeTriples, Graph.edgeTriple, Graph.vertexId, hs, hd, ht, Graph.tripleAt,
          Graph.idAt]

theorem WF.mem_allEdges_owned {g : Graph W} (hg : g.WF) {e : Edge W} (he : e ∈ g.allEdges) :
    (∃ k, (k, e.src_) ∈ g.vertex_map_) ∧ ∃ k, (k, e.dst_) ∈ g.vertex_map_ := by
  obtain ⟨k, p, v, hx, hv, hev⟩ := mem_allEdges.1 he
  obtain ⟨h1, h2⟩ := hg.v3 k p v hx hv e hev
  exact ⟨⟨k, by rw [h1]; exact hx⟩, h2⟩

theorem WF.GetGraphEdgeIds_eq {g : Graph W} (hg : g.WF) :
    g.GetGraphEdgeIds = some (g.allEdges.map g.tripleAt) := by
  unfold Graph.GetGraphEdgeIds
  rw [hg.GetGraphEdges_eq]
  simp only
  apply edgeTriples_eq
  intro e he
  obtain ⟨⟨k1, h1⟩, ⟨k2, h2⟩⟩ := hg.mem_allEdges_owned he
  obtain ⟨v1, hv1, -⟩ := hg.live _ _ h1
  obtain ⟨v2, hv2, -⟩ := hg.live _ _ h2
  simp [hv1, hv2]

theorem WF.vertexIds_eq {g : Graph W} (hg : g.WF) :
    g.vertexIds g.GetGraphVertices = some (g.vertex_map_.map Prod.fst) := by
  have : ∀ m : List (Nat × Nat), (∀ x ∈ m, x ∈ g.vertex_map_) →
      g.vertexIds (m.map Prod.snd) = some (m.map Prod.fst) := by
    intro m
    induction m with
    | nil => intro _; rfl
    | cons a t ih =>
      intro hm
      obtain ⟨k, p⟩ := a
      have h1 := hg.vertexId_eq (hm (k, p) (List.mem_cons_self _ _))
      have h2 := ih (fun x hx => hm x (List.mem_cons_of_mem _ hx))
      simp [Graph.vertexIds, h1, h2]
  exact this _ (fun _ hx => hx)

theorem WF.edge_ptrs_nodup {g : Graph W} (hg : g.WF) :
    (g.allEdges.map (fun e => (e.src_, e.dst_))).Nodup := by
  unfold Graph.allEdges
  rw [List.map_flatMap, List.nodup_flatMap]
  constructor
  · rintro ⟨k, p⟩ hx
    obtain ⟨v, hv, -⟩ := hg.live k p hx
    simp only [Graph.edgesAt, hv]
    refine List.Nodup.of_map Prod.snd ?_
    rw [List.map_map]
    exact hg.nopar k p v hx hv
  · refine (List.Nodup.of_map _ hg.keys_nodup).pairwise_of_forall_ne ?_
    rintro ⟨k, p⟩ hx ⟨k1, p1⟩ hy hne
    intro a ha hb
    simp only [List.mem_map, Graph.edgesAt] at ha hb
    obtain ⟨e, he, rfl⟩ := ha
    obtain ⟨e1, he1, hee⟩ := hb
    obtain ⟨v, hv, -⟩ := hg.live k p hx
    obtain ⟨v1, hv1, -⟩ := hg.live k1 p1 hy
    simp only [hv] at he
    simp only [hv1] at he1
    have h1 := (hg.v3 k p v hx hv e he).1
    have h2 := (hg.v3 k1 p1 v1 hy hv1 e1 he1).1
    have hpp : p = p1 := by
      rw [← h1, ← h2]
      exact (congrArg Prod.fst hee).symm
    subst hpp
    exact hne (by rw [hg.key_of_ptr hx hy])

theorem WF.edge_ids_nodup {g : Graph W} (hg : g.WF) :
    ((g.allEdges.map g.tripleAt).map (fun t => (t.1, t.2.1))).Nodup := by
  have h := hg.edge_ptrs_nodup
  rw [List.map_map]
  have hcomp : ((fun t : Nat × Nat × W => (t.1, t.2.1)) ∘ g.tripleAt) =
      (fun q : Nat × Nat => (g.idAt q.1, g.idAt q.2)) ∘ (fun e : Edge W => (e.src_, e.dst_)) := by
    funext e; rfl
  rw [hcomp, ← List.map_map]
  refine List.Nodup.map_on ?_ h
  rintro ⟨a, b⟩ hx ⟨a1, b1⟩ hy hxy
  simp only [List.mem_map] at hx hy
  obtain ⟨e, he, hee⟩ := hx
  obtain ⟨e1, he1, hee1⟩ := hy
  obtain ⟨⟨k1, h1⟩, ⟨k2, h2⟩⟩ := hg.mem_allEdges_owned he
  obtain ⟨⟨k3, h3⟩, ⟨k4, h4⟩⟩ := hg.mem_allEdges_owned he1
  simp only [Prod.mk.injEq] at hee hee1 hxy
  rw [← hee.1, ← hee.2, ← hee1.1, ← hee1.2, hg.idAt_eq h1, hg.idAt_eq h2, hg.idAt_eq h3,
    hg.idAt_eq h4] at hxy
  obtain ⟨hk13, hk24⟩ := hxy
  subst hk13 hk24
  rw [← hee.1, ← hee.2, ← hee1.1, ← hee1.2, map_unique hg.sorted h1 h3,
    map_unique hg.sorted h2 h4]

/-! ## Sequences of `AddVertex` and `AddEdge` calls -/

theorem AddEdge.link_map {g g1 : Graph W} {sp dp : Nat} {w : W}
    (h : AddEdge.link g sp dp w = some g1) :
    g1.vertex_map_ = g.vertex_map_ ∧ g1.brk = g.brk := by
  unfold AddEdge.link at h
  split at h
  · cases h
  · split at h
    · cases h; exact ⟨rfl, rfl⟩
    · split at h
      · cases h
      · dsimp only at h
        split at h
        · cases h
        · cases h; exact ⟨rfl, rfl⟩

theorem AddVertex_keys {g : Graph W} (hg : g.WF) (s : BundledStructType) (k : Nat) :
    k ∈ (g.AddVertex s).2.vertex_map_.map Prod.fst ↔
      k ∈ g.vertex_map_.map Prod.fst ∨ k = uint64_t s.data_id_ := by
  constructor
  · intro h
    obtain ⟨x, hx, rfl⟩ := List.mem_map.1 h
    rcases (mem_map_insert hg.sorted).1 hx with h1 | h1
    · exact Or.inl (List.mem_map.2 ⟨x, h1, rfl⟩)
    · right; rw [h1.1]
  · rintro (h | h)
    · obtain ⟨x, hx, rfl⟩ := List.mem_map.1 h
      exact List.mem_map.2 ⟨x, AddVertex_mono hg s hx, rfl⟩
    · subst h
      by_cases hk : uint64_t s.data_id_ ∈ g.vertex_map_.map Prod.fst
      · obtain ⟨x, hx, hxk⟩ := List.mem_map.1 hk
        exact List.mem_map.2 ⟨x, AddVertex_mono hg s hx, hxk⟩
      · exact List.mem_map.2 ⟨(uint64_t s.data_id_, g.brk),
          (mem_map_insert hg.sorted).2 (Or.inr ⟨rfl, hk⟩), rfl⟩

theorem GetVertex_keys {g : Graph W} (hg : g.WF) (s : BundledStructType) (k : Nat) :
    k ∈ (g.GetVertex s).2.vertex_map_.map Prod.fst ↔
      k ∈ g.vertex_map_.map Prod.fst ∨ k = uint64_t s.data_id_ := by
  cases h : map_find g.vertex_map_ (uint64_t s.data_id_) with
  | none => rw [GetVertex_of_none h]; exact AddVertex_keys hg s k
  | some p =>
    rw [GetVertex_of_some h]
    constructor
    · exact Or.inl
    · rintro (h1 | h1)
      · exact h1
      · subst h1; exact List.mem_map.2 ⟨_, map_find_mem h, rfl⟩

theorem AddEdge_keys {g g1 : Graph W} (hg : g.WF) {s d : BundledStructType} {w : W}
    (h : g.AddEdge s d w = some g1) (k : Nat) :
    k ∈ g1.vertex_map_.map Prod.fst ↔
      k ∈ g.vertex_map_.map Prod.fst ∨ k = uint64_t s.data_id_ ∨ k = uint64_t d.data_id_ := by
  unfold Graph.AddEdge at h
  rw [(AddEdge.link_map h).1, GetVertex_keys (hg.GetVertex s) d k, GetVertex_keys hg s k]
  exact or_assoc

theorem step_add {g : Graph W} (hg : g.WF) {c : Call W} (hc : c.isAdd = true) :
    ∃ g1, g.step c = some g1 ∧
      ∀ k, k ∈ g1.vertex_map_.map Prod.fst ↔ k ∈ g.vertex_map_.map Prod.fst ∨ k ∈ c.ids := by
  cases c with
  | AddVertex s =>
    refine ⟨(g.AddVertex s).2, rfl, fun k => ?_⟩
    rw [AddVertex_keys hg s k]
    simp [Call.ids]
  | AddEdge s d w =>
    obtain ⟨g1, h1⟩ := AddEdge_total hg s d w
    refine ⟨g1, h1, fun k => ?_⟩
    rw [AddEdge_keys hg h1 k]
    simp [Call.ids]
  | RemoveEdge s d => simp [Call.isAdd] at hc
  | RemoveVertex s => simp [Call.isAdd] at hc
  | ClearGraph => simp [Call.isAdd] at hc

theorem run_add {g : Graph W} (hg : g.WF) {cs : List (Call W)}
    (hcs : ∀ c ∈ cs, c.isAdd = true) :
    ∃ g1, g.run cs = some g1 ∧
      ∀ k, k ∈ g1.vertex_map_.map Prod.fst ↔
        k ∈ g.vertex_map_.map Prod.fst ∨ k ∈ cs.flatMap Call.ids := by
  induction cs generalizing g with
  | nil => exact ⟨g, rfl, fun k => by simp⟩
  | cons c cs ih =>
    obtain ⟨g1, h1, hk1⟩ := step_add hg (hcs c (List.mem_cons_self _ _))
    obtain ⟨g2, h2, hk2⟩ := ih (hg.step h1) (fun x hx => hcs x (List.mem_cons_of_mem _ hx))
    refine ⟨g2, by simp only [Graph.run, h1]; exact h2, fun k => ?_⟩
    rw [hk2 k, hk1 k, List.flatMap_cons, List.mem_append, or_assoc]

end Graph

/-! ## Facts about `AddEdge` -/

namespace Graph

variable {W : Type}

theorem AddEdge.link_edge {g g1 : Graph W} {sp dp : Nat} {w : W} {sv dv : Vertex W}
    (hs : g.heap sp = some sv) (hd : g.heap dp = some dv)
    (h : AddEdge.link g sp dp w = some g1) :
    ∃ sv1, g1.heap sp = some sv1 ∧ sv1.CheckNeighbour dp = true ∧
      (sv.CheckNeighbour dp = false → Edge.mk sp dp w ∈ sv1.edges_) := by
  cases hc : sv.CheckNeighbour dp with
  | true =>
    rw [AddEdge.link_of_neighbour w hs hc] at h
    cases h
    exact ⟨sv, hs, hc, fun h => by simp at h⟩
  | false =>
    rw [AddEdge.link_heap w hs hd hc] at h
    cases h
    simp only [hs, Option.map_some', Option.some.injEq, exists_eq_left']
    refine ⟨?_, fun _ => ?_⟩
    · rw [CheckNeighbour_iff]; simp
    · simp

theorem WF.triple_mem {g : Graph W} (hg : g.WF) {ks kd sp dp : Nat} {sv : Vertex W}
    {e : Edge W} (hsp : (ks, sp) ∈ g.vertex_map_) (hdp : (kd, dp) ∈ g.vertex_map_)
    (hs : g.heap sp = some sv) (he : e ∈ sv.edges_) (hd : e.dst_ = dp) :
    (ks, kd, e.cost_) ∈ g.allEdges.map g.tripleAt := by
  refine List.mem_map.2 ⟨e, mem_allEdges.2 ⟨ks, sp, sv, hsp, hs, he⟩, ?_⟩
  have h1 := (hg.v3 ks sp sv hsp hs e he).1
  simp only [Graph.tripleAt, h1, hd, hg.idAt_eq hsp, hg.idAt_eq hdp]

theorem GetVertex_heap_edges {g : Graph W} {s : BundledStructType} {p : Nat} {v : Vertex W}
    (h : (g.GetVertex s).2.heap p = some v) (hv : v.edges_ ≠ []) : g.heap p = some v := by
  cases hf : map_find g.vertex_map_ (uint64_t s.data_id_) with
  | none =>
    rw [GetVertex_of_none hf] at h
    by_cases hp : p = g.brk
    · subst hp
      simp only [Graph.AddVertex, Function.update_same, Option.some.injEq] at h
      subst h
      simp [Vertex.new] at hv
    · rw [AddVertex_heap_old s hp] at h; exact h
  | some q => rw [GetVertex_of_some hf] at h; exact h

theorem GetVertex_mem_old {g : Graph W} (hg : g.WF) {s : BundledStructType} {k p : Nat}
    (h : (k, p) ∈ (g.GetVertex s).2.vertex_map_) :
    (k, p) ∈ g.vertex_map_ ∨ (g.GetVertex s).2.heap p = some (Vertex.new s) := by
  cases hf : map_find g.vertex_map_ (uint64_t s.data_id_) with
  | none =>
    rw [GetVertex_of_none hf] at h ⊢
    rcases (mem_map_insert hg.sorted).1 h with h1 | h1
    · exact Or.inl h1
    · right
      cases h1.1
      simp [Graph.AddVertex]
  | some q => rw [GetVertex_of_some hf] at h; exact Or.inl h

theorem filter_pair_length_one {W : Type} {ts : List (Nat × Nat × W)} {a b : Nat} {w : W}
    (hn : (ts.map (fun t => (t.1, t.2.1))).Nodup) (hm : (a, b, w) ∈ ts) :
    (ts.filter (fun t => decide (t.1 = a ∧ t.2.1 = b))).length = 1 := by
  induction ts with
  | nil => simp at hm
  | cons t r ih =>
    simp only [List.map_cons, List.nodup_cons, List.mem_map, not_exists, not_and] at hn
    rcases List.mem_cons.1 hm with h | h
    · subst h
      have hr : r.filter (fun t => decide (t.1 = a ∧ t.2.1 = b)) = [] := by
        rw [List.filter_eq_nil_iff]
        intro x hx hp
        simp only [decide_eq_true_eq] at hp
        exact hn.1 x hx (by simp only [hp.1, hp.2])
      rw [List.filter_cons_of_pos (by simp), hr]
      rfl
    · have hp : ¬ (t.1 = a ∧ t.2.1 = b) := by
        intro hp
        exact hn.1 (a, b, w) h (by simp only [hp.1, hp.2])
      rw [List.filter_cons_of_neg (by simpa using hp)]
      exact ih hn.2 h

theorem AddEdge_again {g g1 : Graph W} (hg : g.WF) {u v : BundledStructType} {w1 : W}
    (h : g.AddEdge u v w1 = some g1) (w2 : W) : g1.AddEdge u v w2 = some g1 := by
  have ha := hg.GetVertex u
  have hb := ha.GetVertex v
  have hsp := GetVertex_mono ha v (GetVertex_mem hg u)
  have hdp := GetVertex_mem ha v
  obtain ⟨sv, hs, -⟩ := hb.live _ _ hsp
  obtain ⟨dv, hd, -⟩ := hb.live _ _ hdp
  have h1 : g1.WF := hg.AddEdge h
  unfold Graph.AddEdge at h
  obtain ⟨sv1, hs1, hc1, -⟩ := AddEdge.link_edge hs hd h
  have hmap := (AddEdge.link_map h).1
  rw [← hmap] at hsp hdp
  unfold Graph.AddEdge
  rw [GetVertex_of_some (map_find_of_mem h1.sorted hsp)]
  simp only
  rw [GetVertex_of_some (map_find_of_mem h1.sorted hdp)]
  exact AddEdge.link_of_neighbour w2 hs1 hc1

theorem AddEdge_has_edge {g g1 : Graph W} (hg : g.WF) {u v : BundledStructType} {w1 : W}
    (h : g.AddEdge u v w1 = some g1) :
    ∃ w, (uint64_t u.data_id_, uint64_t v.data_id_, w) ∈ g1.allEdges.map g1.tripleAt := by
  have ha := hg.GetVertex u
  have hb := ha.GetVertex v
  have hsp := GetVertex_mono ha v (GetVertex_mem hg u)
  have hdp := GetVertex_mem ha v
  obtain ⟨sv, hs, -⟩ := hb.live _ _ hsp
  obtain ⟨dv, hd, -⟩ := hb.live _ _ hdp
  have h1 : g1.WF := hg.AddEdge h
  unfold Graph.AddEdge at h
  obtain ⟨sv1, hs1, hc1, -⟩ := AddEdge.link_edge hs hd h
  have hmap := (AddEdge.link_map h).1
  rw [← hmap] at hsp hdp
  rw [CheckNeighbour_iff] at hc1
  obtain ⟨e, he, hed⟩ := List.mem_map.1 hc1
  exact ⟨e.cost_, h1.triple_mem hsp hdp hs1 he hed⟩

theorem AddEdge_new_edge {g g1 : Graph W} (hg : g.WF) {u v : BundledStructType} {w1 : W}
    (h : g.AddEdge u v w1 = some g1)
    (hno : ∀ t ∈ g.allEdges.map g.tripleAt,
      ¬ (t.1 = uint64_t u.data_id_ ∧ t.2.1 = uint64_t v.data_id_)) :
    (uint64_t u.data_id_, uint64_t v.data_id_, w1) ∈ g1.allEdges.map g1.tripleAt := by
  have ha := hg.GetVertex u
  have hb := ha.GetVertex v
  have hsp := GetVertex_mono ha v (GetVertex_mem hg u)
  have hdp := GetVertex_mem ha v
  obtain ⟨sv, hs, -⟩ := hb.live _ _ hsp
  obtain ⟨dv, hd, -⟩ := hb.live _ _ hdp
  have h1 : g1.WF := hg.AddEdge h
  unfold Graph.AddEdge at h
  obtain ⟨sv1, hs1, hc1, hnew⟩ := AddEdge.link_edge hs hd h
  have hmap := (AddEdge.link_map h).1
  have hc : sv.CheckNeighbour ((g.GetVertex u).2.GetVertex v).1 = false := by
    cases hc : sv.CheckNeighbour ((g.GetVertex u).2.GetVertex v).1 with
    | false => rfl
    | true =>
      exfalso
      rw [CheckNeighbour_iff] at hc
      obtain ⟨e, he, hed⟩ := List.mem_map.1 hc
      have hne : sv.edges_ ≠ [] := List.ne_nil_of_mem he
      have hsa := GetVertex_heap_edges hs hne
      have hsg := GetVertex_heap_edges hsa hne
      have hspa : (uint64_t u.data_id_, (g.GetVertex u).1) ∈ (g.GetVertex u).2.vertex_map_ := by
        rcases GetVertex_mem_old ha hsp with h2 | h2
        · exact h2
        · rw [hs] at h2; cases h2; simp [Vertex.new] at hne
      have hspg : (uint64_t u.data_id_, (g.GetVertex u).1) ∈ g.vertex_map_ := by
        rcases GetVertex_mem_old hg hspa with h2 | h2
        · exact h2
        · rw [hsa] at h2; cases h2; simp [Vertex.new] at hne
      obtain ⟨-, k1, hk1⟩ := hg.v3 _ _ sv hspg hsg e he
      have hk1b := GetVertex_mono ha v (GetVertex_mono hg u hk1)
      rw [hed] at hk1b hk1
      have hkk := hb.key_of_ptr hk1b hdp
      subst hkk
      exact hno _ (hg.triple_mem hspg hk1 hsg he hed) ⟨rfl, rfl⟩
  rw [← hmap] at hsp hdp
  have := h1.triple_mem hsp hdp hs1 (hnew hc) rfl
  exact this

end Graph

/-! ## Facts about `RemoveEdge`, `RemoveVertex` and `AddVertex` -/

namespace Graph

variable {W : Type}

theorem RemoveEdge.scan_none {dp : Nat} {es : List (Edge W)} {i : Nat} {idx : Option Nat} :
    RemoveEdge.scan dp es i idx = none ↔ idx = none ∧ ∀ e ∈ es, e.dst_ ≠ dp := by
  induction es generalizing i idx with
  | nil => simp [RemoveEdge.scan]
  | cons a t ih =>
    simp only [RemoveEdge.scan, ih, List.mem_cons, forall_eq_or_imp]
    by_cases ha : a.dst_ = dp
    · simp [ha]
    · simp [ha]

theorem RemoveVertex_not_key {g g1 : Graph W} (hg : g.WF) {s : BundledStructType}
    (h : g.RemoveVertex s = some g1) :
    uint64_t s.data_id_ ∉ g1.vertex_map_.map Prod.fst := by
  cases hf : map_find g.vertex_map_ (uint64_t s.data_id_) with
  | none =>
    rw [RemoveVertex_of_none hf] at h
    cases h
    exact map_find_none.1 hf
  | some vptr =>
    have hk := map_find_mem hf
    obtain ⟨v, hv, -⟩ := hg.live _ _ hk
    cases hl : RemoveVertex.loop vptr v.associated_vertices_ g.heap with
    | none => simp [Graph.RemoveVertex, hf, hv, hl] at h
    | some h1 =>
      rw [RemoveVertex_of_loop hf hv hl] at h
      cases h
      intro hmem
      obtain ⟨x, hx, hxk⟩ := List.mem_map.1 hmem
      exact ((mem_map_erase hg.sorted).1 hx).2 hxk

/-- When `RemoveVertex` has defined behaviour, no edge at the removed identity is left. -/
theorem RemoveVertex_closes {g g1 : Graph W} (hg : g.WF) {s : BundledStructType}
    (h : g.RemoveVertex s = some g1) :
    ∃ ts, g1.GetGraphEdgeIds = some ts ∧
      ∀ t ∈ ts, t.1 ≠ uint64_t s.data_id_ ∧ t.2.1 ≠ uint64_t s.data_id_ := by
  have h1 : g1.WF := hg.RemoveVertex h
  have hk := RemoveVertex_not_key hg h
  refine ⟨_, h1.GetGraphEdgeIds_eq, ?_⟩
  intro t ht
  obtain ⟨e, he, rfl⟩ := List.mem_map.1 ht
  obtain ⟨⟨k1, hk1⟩, ⟨k2, hk2⟩⟩ := h1.mem_allEdges_owned he
  simp only [Graph.tripleAt, h1.idAt_eq hk1, h1.idAt_eq hk2]
  constructor
  · intro hh; subst hh; exact hk (List.mem_map.2 ⟨_, hk1, rfl⟩)
  · intro hh; subst hh; exact hk (List.mem_map.2 ⟨_, hk2, rfl⟩)

/-- The pointer `AddVertex` returns is never one the map held before the call. -/
theorem AddVertex_returns_new {g : Graph W} (hg : g.WF) (s : BundledStructType) :
    (g.AddVertex s).1 ∉ g.GetGraphVertices := by
  intro h
  obtain ⟨⟨k, p⟩, hx, hp⟩ := List.mem_map.1 h
  have := hg.ptr_lt hx
  simp only [Graph.AddVertex] at hp
  omega

/-- On a key that is present `AddVertex` leaves the identity map as it was. -/
theorem AddVertex_present_map {g : Graph W} (hg : g.WF) {s : BundledStructType} {p : Nat}
    (h : g.GetVertexFromID (uint64_t s.data_id_) = some p) :
    (g.AddVertex s).2.vertex_map_ = g.vertex_map_ :=
  map_insert_of_mem hg.sorted _ (List.mem_map.2 ⟨_, map_find_mem h, rfl⟩)

theorem eraseP_eq_filter {l : List (Edge W)} {vptr : Nat} (hn : (l.map Edge.dst_).Nodup) :
    l.eraseP (fun e => decide (e.dst_ = vptr)) = l.filter (fun e => decide (e.dst_ ≠ vptr)) := by
  induction l with
  | nil => rfl
  | cons a t ih =>
    simp only [List.map_cons, List.nodup_cons] at hn
    by_cases ha : a.dst_ = vptr
    · rw [List.eraseP_cons_of_pos (by simpa using ha), List.filter_cons_of_neg (by simpa using ha)]
      symm
      rw [List.filter_eq_self]
      intro e he
      simp only [ne_eq, decide_eq_true_eq]
      intro hev
      exact hn.1 (List.mem_map.2 ⟨e, he, hev.trans ha.symm⟩)
    · rw [List.eraseP_cons_of_neg (by simpa using ha), List.filter_cons_of_pos (by simpa using ha),
        ih hn.2]

theorem RemoveVertex.loop_spec {vptr : Nat} {l : List Nat} {h h1 : Heap W}
    (hl : RemoveVertex.loop vptr l h = some h1) {p : Nat} {v : Vertex W}
    (hv : h p = some v) (hn : (v.edges_.map Edge.dst_).Nodup) :
    ∃ v1, h1 p = some v1 ∧
      v1.edges_ = if p ∈ l then v.edges_.filter (fun e => decide (e.dst_ ≠ vptr))
        else v.edges_ := by
  induction l generalizing h v with
  | nil =>
    simp only [RemoveVertex.loop, Option.some.injEq] at hl
    subst hl
    exact ⟨v, hv, by simp⟩
  | cons a t ih =>
    simp only [RemoveVertex.loop] at hl
    cases ha : h a with
    | none => simp [ha] at hl
    | some av =>
      simp only [ha] at hl
      by_cases hpa : p = a
      · subst hpa
        rw [hv] at ha
        cases ha
        have hn1 : ((v.edges_.eraseP (fun e => decide (e.dst_ = vptr))).map Edge.dst_).Nodup :=
          hn.sublist ((List.eraseP_sublist _).map Edge.dst_)
        obtain ⟨v1, hv1, he1⟩ := ih hl (Function.update_same _ _ _) hn1
        refine ⟨v1, hv1, ?_⟩
        rw [he1]
        simp only [List.mem_cons, true_or, if_true]
        rw [eraseP_eq_filter hn]
        split
        · rw [List.filter_filter]; simp
        · rfl
      · obtain ⟨v1, hv1, he1⟩ := ih hl (by rw [Function.update_noteq hpa]; exact hv) hn
        refine ⟨v1, hv1, ?_⟩
        rw [he1]
        simp [hpa]

theorem flatMap_eraseP_nil {α β : Type} {l : List α} {q : α → Bool} {F : α → List β}
    (hq : ∀ x ∈ l, q x = true → F x = []) : (l.eraseP q).flatMap F = l.flatMap F := by
  induction l with
  | nil => rfl
  | cons a t ih =>
    by_cases ha : q a = true
    · rw [List.eraseP_cons_of_pos ha, List.flatMap_cons, hq a (List.mem_cons_self _ _) ha]
      rfl
    · rw [List.eraseP_cons_of_neg ha, List.flatMap_cons, List.flatMap_cons,
        ih (fun x hx => hq x (List.mem_cons_of_mem _ hx))]

/-- When `RemoveVertex` of a mapped identity has defined behaviour, the map loses exactly the
entry of that identity and the stored edges are the old ones without those that start or end
at the removed vertex, in the old order. -/
theorem RemoveVertex_exact {g g1 : Graph W} (hg : g.WF) {s : BundledStructType} {vptr : Nat}
    (hf : map_find g.vertex_map_ (uint64_t s.data_id_) = some vptr)
    (h : g.RemoveVertex s = some g1) :
    g1.vertex_map_ = map_erase g.vertex_map_ (uint64_t s.data_id_) ∧
    g1.GetGraphVertices.length + 1 = g.GetGraphVertices.length ∧
    g1.allEdges = g.allEdges.filter (fun e => decide (e.src_ ≠ vptr ∧ e.dst_ ≠ vptr)) := by
  have hk := map_find_mem hf
  obtain ⟨v, hv, -⟩ := hg.live _ _ hk
  cases hl : RemoveVertex.loop vptr v.associated_vertices_ g.heap with
  | none => simp [Graph.RemoveVertex, hf, hv, hl] at h
  | some h1 =>
    rw [RemoveVertex_of_loop hf hv hl] at h
    cases h
    refine ⟨rfl, ?_, ?_⟩
    · simp only [Graph.GetGraphVertices, List.length_map, map_erase]
      rw [List.length_eraseP_of_mem hk (by simp)]
      have : 0 < g.vertex_map_.length := List.length_pos_of_mem hk
      omega
    · simp only [Graph.allEdges, map_erase]
      rw [List.filter_flatMap]
      have hcongr : ∀ x ∈ g.vertex_map_.eraseP (fun kv => decide (kv.1 = uint64_t s.data_id_)),
          Graph.edgesAt { g with
            vertex_map_ := g.vertex_map_.eraseP (fun kv => decide (kv.1 = uint64_t s.data_id_))
            heap := Function.update h1 vptr none } x.2 =
          (g.edgesAt x.2).filter (fun e => decide (e.src_ ≠ vptr ∧ e.dst_ ≠ vptr)) := by
        rintro ⟨k1, p⟩ hx
        obtain ⟨hx1, hx2⟩ := (mem_map_erase hg.sorted).1 hx
        have hp : p ≠ vptr := by
          intro hp
          subst hp
          exact hx2 (hg.key_of_ptr hx1 hk)
        obtain ⟨v0, hv0, -⟩ := hg.live k1 p hx1
        obtain ⟨v1, hv1, he1⟩ := RemoveVertex.loop_spec hl hv0 (hg.nopar k1 p v0 hx1 hv0)
        simp only [Graph.edgesAt, Function.update_noteq hp, hv1, hv0, he1]
        have hsrc : ∀ e ∈ v0.edges_, e.src_ ≠ vptr := by
          intro e he
          rw [(hg.v3 k1 p v0 hx1 hv0 e he).1]
          exact hp
        split
        · apply List.filter_congr
          intro e he
          simp [hsrc e he]
        · next hnin =>
          symm
          rw [List.filter_eq_self]
          intro e he
          simp only [ne_eq, decide_eq_true_eq]
          refine ⟨hsrc e he, fun hd => hnin ?_⟩
          exact hg.v2 k1 p v0 hx1 hv0 e he v (by rw [hd]; exact hv)
      rw [List.flatMap_congr hcongr]
      apply flatMap_eraseP_nil
      rintro ⟨k1, p⟩ hx hq
      simp only [decide_eq_true_eq] at hq
      subst hq
      have hp := map_unique hg.sorted hx hk
      subst hp
      rw [List.filter_eq_nil_iff]
      intro e he
      simp only [Graph.edgesAt, hv] at he
      simp [(hg.v3 _ _ v hx hv e he).1]

/-- The call `RemoveVertex` has defined behaviour when the identity is not mapped, and when
every back-reference of the vertex to remove is still allocated. -/
theorem RemoveVertex_defined {g : Graph W} (hg : g.WF) (s : BundledStructType)
    (h : ∀ vptr v, map_find g.vertex_map_ (uint64_t s.data_id_) = some vptr →
      g.heap vptr = some v → ∀ a ∈ v.associated_vertices_, g.heap a ≠ none) :
    ∃ g1, g.RemoveVertex s = some g1 := by
  cases hf : map_find g.vertex_map_ (uint64_t s.data_id_) with
  | none => exact ⟨g, RemoveVertex_of_none hf⟩
  | some vptr =>
    obtain ⟨v, hv, -⟩ := hg.live _ _ (map_find_mem hf)
    obtain ⟨h1, hl⟩ := @RemoveVertex.loop_total W vptr _ _ (h vptr v hf hv)
    exact ⟨_, RemoveVertex_of_loop hf hv hl⟩

theorem RemoveEdge_of_found {g : Graph W} {s d : BundledStructType} {sp dp idx : Nat}
    {sv : Vertex W} (hs : map_find g.vertex_map_ (uint64_t s.data_id_) = some sp)
    (hd : map_find g.vertex_map_ (uint64_t d.data_id_) = some dp) (hsv : g.heap sp = some sv)
    (hscan : RemoveEdge.scan dp sv.edges_ 0 none = some idx) :
    g.RemoveEdge s d = some (true, { g with
      heap := Function.update g.heap sp (some { sv with edges_ := sv.edges_.eraseIdx idx }) }) := by
  simp [Graph.RemoveEdge, Graph.SearchVertex, hs, hd, hsv, hscan]

theorem run_append (g : Graph W) (cs ds : List (Call W)) :
    g.run (cs ++ ds) = (g.run cs).bind (fun g1 => g1.run ds) := by
  induction cs generalizing g with
  | nil => rfl
  | cons c cs ih =>
    simp only [List.cons_append, Graph.run]
    cases g.step c with
    | none => rfl
    | some g1 => exact ih g1

theorem after_step {cs : List (Call W)} {c : Call W}
    (h : (Graph.run Graph.empty (cs ++ [c])).isSome = true) :
    (Graph.after cs).step c = some (Graph.after (cs ++ [c])) := by
  unfold Graph.after
  rw [run_append] at h ⊢
  cases hr : Graph.run Graph.empty cs with
  | none => rw [hr] at h; simp at h
  | some g =>
    rw [hr] at h
    simp only [Option.some_bind, Graph.run] at h ⊢
    cases hc : g.step c with
    | none => rw [hc] at h; simp at h
    | some g1 => simp [hc]

theorem run_eq_after {cs : List (Call W)} (h : (Graph.run Graph.empty cs).isSome = true) :
    Graph.run Graph.empty cs = some (Graph.after cs) := by
  unfold Graph.after
  cases hr : Graph.run Graph.empty cs with
  | none => rw [hr] at h; simp at h
  | some g => rfl

theorem after_reachable {cs : List (Call W)} (h : (Graph.run Graph.empty cs).isSome = true) :
    (Graph.after cs).Reachable :=
  ⟨cs, run_eq_after h⟩

end Graph

/-! ## The claims -/

/-- C1: for every finite sequence of AddVertex and AddEdge calls applied to the empty graph,
after every initial part of the sequence (its first `n` calls) the calls have run, the vertices
returned by GetGraphVertices carry pairwise different identities, and their number is the number
of distinct identities passed to the calls so far. -/
theorem C1_vertices_are_the_distinct_identities {W : Type} (cs : List (Call W))
    (hcs : ∀ c ∈ cs, c.isAdd = true) (n : Nat) :
    ∃ g, Graph.run Graph.empty (cs.take n) = some g ∧
      ∃ ids, g.vertexIds g.GetGraphVertices = some ids ∧ ids.Nodup ∧
        g.GetGraphVertices.length = ((cs.take n).flatMap Call.ids).toFinset.card := by
  obtain ⟨g, hrun, hk⟩ := Graph.run_add (W := W) Graph.WF.empty
    (fun c hc => hcs c (List.mem_of_mem_take hc))
  have hg : g.WF := Graph.WF.empty.run hrun
  refine ⟨g, hrun, _, hg.vertexIds_eq, hg.keys_nodup, ?_⟩
  have hset : (g.vertex_map_.map Prod.fst).toFinset =
      ((cs.take n).flatMap Call.ids).toFinset := by
    ext k
    simp only [List.mem_toFinset]
    rw [hk k]
    simp [Graph.empty]
  rw [← hset, List.toFinset_card_of_nodup hg.keys_nodup]
  simp [Graph.GetGraphVertices]

/-- Witness for C1: three calls, of which the first two are looked at. -/
theorem C1_vertices_are_the_distinct_identities_witness :
    (∀ c ∈ [Call.AddVertex (node 1), Call.AddEdge (node 1) (node 2) (1.5 : ℚ),
        Call.AddVertex (node 2)], c.isAdd = true) ∧
    ∃ g, Graph.run Graph.empty
        ([Call.AddVertex (node 1), Call.AddEdge (node 1) (node 2) (1.5 : ℚ),
          Call.AddVertex (node 2)].take 2) = some g ∧
      ∃ ids, g.vertexIds g.GetGraphVertices = some ids ∧ ids.Nodup ∧
        g.GetGraphVertices.length =
          (([Call.AddVertex (node 1), Call.AddEdge (node 1) (node 2) (1.5 : ℚ),
            Call.AddVertex (node 2)].take 2).flatMap Call.ids).toFinset.card :=
  ⟨by decide, C1_vertices_are_the_distinct_identities _ (by decide) 2⟩

/-- C2: in every reachable state, AddEdge(u,v,w1) followed by AddEdge(u,v,w2) runs, the second
call changes nothing, GetGraphEdges then holds exactly one edge from u to v, and when the
state before the first call had no edge from u to v that edge has weight w1. -/
theorem C2_AddEdge_first_write_wins {W : Type} (g : Graph W) (hg : g.Reachable)
    (u v : BundledStructType) (w1 w2 : W) :
    ∃ g1, g.AddEdge u v w1 = some g1 ∧ g1.AddEdge u v w2 = some g1 ∧
      ∃ ts0 ts, g.GetGraphEdgeIds = some ts0 ∧ g1.GetGraphEdgeIds = some ts ∧
        (ts.filter (fun t =>
          decide (t.1 = uint64_t u.data_id_ ∧ t.2.1 = uint64_t v.data_id_))).length = 1 ∧
        ((∀ t ∈ ts0, ¬ (t.1 = uint64_t u.data_id_ ∧ t.2.1 = uint64_t v.data_id_)) →
          ∀ t ∈ ts, t.1 = uint64_t u.data_id_ → t.2.1 = uint64_t v.data_id_ → t.2.2 = w1) := by
  have hw := hg.wf
  obtain ⟨g1, h1⟩ := Graph.AddEdge_total hw u v w1
  have hw1 : g1.WF := hw.AddEdge h1
  obtain ⟨w, hmem⟩ := Graph.AddEdge_has_edge hw h1
  refine ⟨g1, h1, Graph.AddEdge_again hw h1 w2, _, _, hw.GetGraphEdgeIds_eq,
    hw1.GetGraphEdgeIds_eq, Graph.filter_pair_length_one hw1.edge_ids_nodup hmem, ?_⟩
  intro hno t ht h1t h2t
  have hnew := Graph.AddEdge_new_edge hw h1 hno
  have := List.inj_on_of_nodup_map hw1.edge_ids_nodup ht hnew
    (by simp only [h1t, h2t])
  rw [this]

/-- Witness for C2: the state after `AddEdge(1, 2, 1.5)` and the call pair on `(2, 1)`. -/
theorem C2_AddEdge_first_write_wins_witness :
    ∃ g : Graph ℚ, g.Reachable ∧
    ∃ g1, g.AddEdge (node 2) (node 1) 2.5 = some g1 ∧
      g1.AddEdge (node 2) (node 1) 1.0 = some g1 ∧
      ∃ ts0 ts, g.GetGraphEdgeIds = some ts0 ∧ g1.GetGraphEdgeIds = some ts ∧
        (ts.filter (fun t =>
          decide (t.1 = uint64_t (node 2).data_id_ ∧
            t.2.1 = uint64_t (node 1).data_id_))).length = 1 ∧
        ((∀ t ∈ ts0, ¬ (t.1 = uint64_t (node 2).data_id_ ∧
            t.2.1 = uint64_t (node 1).data_id_)) →
          ∀ t ∈ ts, t.1 = uint64_t (node 2).data_id_ → t.2.1 = uint64_t (node 1).data_id_ →
            t.2.2 = 2.5) :=
  ⟨Graph.after [Call.AddEdge (node 1) (node 2) 1.5],
    ⟨[Call.AddEdge (node 1) (node 2) 1.5], by rfl⟩,
    C2_AddEdge_first_write_wins (Graph.after [Call.AddEdge (node 1) (node 2) 1.5])
      ⟨[Call.AddEdge (node 1) (node 2) 1.5], by rfl⟩ (node 2) (node 1) 2.5 1.0⟩

/-- C3, evaluated at the failing input: in the state reached by AddEdge(1,2,1.5) and
RemoveVertex(1), the vertex of 2 still lists the released vertex of 1 among its
back-references, and RemoveVertex(2) reads through that pointer: the call has no defined
result. -/
theorem C3_RemoveVertex_reads_released_vertex :
    (Graph.after [Call.AddEdge (node 1) (node 2) (1.5 : ℚ),
        Call.RemoveVertex (node 1)]).Reachable ∧
    (Graph.after [Call.AddEdge (node 1) (node 2) (1.5 : ℚ),
        Call.RemoveVertex (node 1)]).GetVertexFromID 2 = some 1 ∧
    ((Graph.after [Call.AddEdge (node 1) (node 2) (1.5 : ℚ),
        Call.RemoveVertex (node 1)]).heap 1).map (fun v => v.associated_vertices_) =
      some [0] ∧
    ((Graph.after [Call.AddEdge (node 1) (node 2) (1.5 : ℚ),
        Call.RemoveVertex (node 1)]).heap 0).isNone = true ∧
    (Graph.after [Call.AddEdge (node 1) (node 2) (1.5 : ℚ),
        Call.RemoveVertex (node 1)]).RemoveVertex (node 2) = none :=
  ⟨Graph.after_reachable (by decide), by decide, by decide, by decide,
    Option.isNone_iff_eq_none.1 (by decide)⟩

/-- C4: in every reachable state, every vertex returned by GetGraphVertices is allocated, and
every edge of its outgoing edge list has a source and a destination that are themselves among
the vertices returned by GetGraphVertices. -/
theorem C4_edges_join_owned_vertices {W : Type} (g : Graph W) (hg : g.Reachable) :
    ∀ p ∈ g.GetGraphVertices, ∃ v, g.heap p = some v ∧
      ∀ e ∈ v.edges_, e.src_ ∈ g.GetGraphVertices ∧ e.dst_ ∈ g.GetGraphVertices := by
  have hw := hg.wf
  intro p hp
  obtain ⟨⟨k, q⟩, hx, rfl⟩ := List.mem_map.1 hp
  obtain ⟨v, hv, -⟩ := hw.live k q hx
  refine ⟨v, hv, fun e he => ?_⟩
  obtain ⟨h1, k1, h2⟩ := hw.v3 k q v hx hv e he
  exact ⟨by rw [h1]; exact hp, List.mem_map.2 ⟨_, h2, rfl⟩⟩

/-- Witness for C4: the state reached by a sequence with all five kinds of call; it owns the
vertices of 1, 2 and 4 and holds the edges from 1 to 2 and from 2 to 1. -/
theorem C4_edges_join_owned_vertices_witness :
    (Graph.after mixedCalls).Reachable ∧
    (Graph.after mixedCalls).vertexIds (Graph.after mixedCalls).GetGraphVertices =
      some [1, 2, 4] ∧
    (Graph.after mixedCalls).GetGraphEdgeIds = some [(1, 2, 2.0), (2, 1, 1.5)] ∧
    ∀ p ∈ (Graph.after mixedCalls).GetGraphVertices,
      ∃ v, (Graph.after mixedCalls).heap p = some v ∧
      ∀ e ∈ v.edges_, e.src_ ∈ (Graph.after mixedCalls).GetGraphVertices ∧
        e.dst_ ∈ (Graph.after mixedCalls).GetGraphVertices :=
  ⟨Graph.after_reachable (by decide), by decide, by rfl,
    C4_edges_join_owned_vertices _ (Graph.after_reachable (by decide))⟩

/-- C5: in every reachable state, for every vertex S returned by GetGraphVertices and every
edge of its outgoing edge list, the destination D of the edge is allocated and the
back-reference list (associated_vertices_) of D contains S. -/
theorem C5_destination_lists_source {W : Type} (g : Graph W) (hg : g.Reachable) :
    ∀ p ∈ g.GetGraphVertices, ∃ v, g.heap p = some v ∧
      ∀ e ∈ v.edges_, ∃ d, g.heap e.dst_ = some d ∧ p ∈ d.associated_vertices_ := by
  have hw := hg.wf
  intro p hp
  obtain ⟨⟨k, q⟩, hx, rfl⟩ := List.mem_map.1 hp
  obtain ⟨v, hv, -⟩ := hw.live k q hx
  refine ⟨v, hv, fun e he => ?_⟩
  obtain ⟨-, k1, h2⟩ := hw.v3 k q v hx hv e he
  obtain ⟨d, hd, -⟩ := hw.live k1 e.dst_ h2
  exact ⟨d, hd, hw.v2 k q v hx hv e he d hd⟩

/-- Witness for C5: the state reached by `backRefCalls`; it owns the vertices of 1, 3 and 4
and holds the edges from 1 to 3 and from 3 to 1, so each of the two vertices is the
destination of an edge of the other. -/
theorem C5_destination_lists_source_witness :
    (Graph.after backRefCalls).Reachable ∧
    (Graph.after backRefCalls).vertexIds (Graph.after backRefCalls).GetGraphVertices =
      some [1, 3, 4] ∧
    (Graph.after backRefCalls).GetGraphEdgeIds = some [(1, 3, 3.0), (3, 1, 2.5)] ∧
    ∀ p ∈ (Graph.after backRefCalls).GetGraphVertices,
      ∃ v, (Graph.after backRefCalls).heap p = some v ∧
      ∀ e ∈ v.edges_, ∃ d, (Graph.after backRefCalls).heap e.dst_ = some d ∧
        p ∈ d.associated_vertices_ :=
  ⟨Graph.after_reachable (by decide), by decide, by rfl,
    C5_destination_lists_source _ (Graph.after_reachable (by decide))⟩

/-- C6: in every reachable state RemoveEdge(src,dst) returns; it returns true exactly when
the identities of src and of dst are both mapped to a vertex and the edge list of the source
vertex holds an edge to the destination vertex; when it returns false the graph is unchanged;
and in either case the vertices of the graph are the same as before and nothing was
allocated. -/
theorem C6_RemoveEdge_result {W : Type} (g : Graph W) (hg : g.Reachable)
    (src_node dst_node : BundledStructType) :
    ∃ b g1, g.RemoveEdge src_node dst_node = some (b, g1) ∧
      (b = true ↔ ∃ sp dp sv, g.GetVertexFromID (uint64_t src_node.data_id_) = some sp ∧
        g.GetVertexFromID (uint64_t dst_node.data_id_) = some dp ∧ g.heap sp = some sv ∧
        ∃ e ∈ sv.edges_, e.dst_ = dp) ∧
      (b = false → g1 = g) ∧
      g1.GetGraphVertices = g.GetGraphVertices ∧ g1.brk = g.brk := by
  have hw := hg.wf
  cases hs : map_find g.vertex_map_ (uint64_t src_node.data_id_) with
  | none =>
    refine ⟨false, g, by simp [Graph.RemoveEdge, Graph.SearchVertex, hs], ?_, fun _ => rfl,
      rfl, rfl⟩
    simp [Graph.GetVertexFromID, hs]
  | some sp =>
    cases hd : map_find g.vertex_map_ (uint64_t dst_node.data_id_) with
    | none =>
      refine ⟨false, g, by simp [Graph.RemoveEdge, Graph.SearchVertex, hs, hd], ?_,
        fun _ => rfl, rfl, rfl⟩
      simp [Graph.GetVertexFromID, hd]
    | some dp =>
      obtain ⟨sv, hsv, -⟩ := hw.live _ _ (map_find_mem hs)
      cases hscan : Graph.RemoveEdge.scan dp sv.edges_ 0 none with
      | none =>
        refine ⟨false, g, by simp [Graph.RemoveEdge, Graph.SearchVertex, hs, hd, hsv, hscan],
          ?_, fun _ => rfl, rfl, rfl⟩
        simp only [Bool.false_eq_true, false_iff, not_exists, not_and]
        intro sp1 dp1 sv1 h1 h2 h3 e he hed
        simp only [Graph.GetVertexFromID, hs, hd, Option.some.injEq] at h1 h2
        subst h1 h2
        rw [hsv] at h3
        cases h3
        exact (Graph.RemoveEdge.scan_none.1 hscan).2 e he hed
      | some idx =>
        refine ⟨true, _, Graph.RemoveEdge_of_found hs hd hsv hscan,
          ?_, fun h => by simp at h, rfl, rfl⟩
        simp only [true_iff]
        have hne : ¬ ∀ e ∈ sv.edges_, e.dst_ ≠ dp := by
          intro hall
          have h0 : Graph.RemoveEdge.scan dp sv.edges_ 0 none = none :=
            Graph.RemoveEdge.scan_none.2 ⟨rfl, hall⟩
          rw [hscan] at h0
          cases h0
        simp only [not_forall, ne_eq, not_not] at hne
        obtain ⟨e, he, hed⟩ := hne
        exact ⟨sp, dp, sv, hs, hd, hsv, e, he, hed⟩

/-- Witness for C6: removing the edge 1 to 2 from the graph that holds just that edge. -/
theorem C6_RemoveEdge_result_witness :
    (Graph.after [Call.AddEdge (node 1) (node 2) (1.5 : ℚ)]).Reachable ∧
    ∃ b g1, (Graph.after [Call.AddEdge (node 1) (node 2) (1.5 : ℚ)]).RemoveEdge
        (node 1) (node 2) = some (b, g1) ∧
      (b = true ↔ ∃ sp dp sv,
        (Graph.after [Call.AddEdge (node 1) (node 2) (1.5 : ℚ)]).GetVertexFromID
          (uint64_t (node 1).data_id_) = some sp ∧
        (Graph.after [Call.AddEdge (node 1) (node 2) (1.5 : ℚ)]).GetVertexFromID
          (uint64_t (node 2).data_id_) = some dp ∧
        (Graph.after [Call.AddEdge (node 1) (node 2) (1.5 : ℚ)]).heap sp = some sv ∧
        ∃ e ∈ sv.edges_, e.dst_ = dp) ∧
      (b = false → g1 = Graph.after [Call.AddEdge (node 1) (node 2) (1.5 : ℚ)]) ∧
      g1.GetGraphVertices =
        (Graph.after [Call.AddEdge (node 1) (node 2) (1.5 : ℚ)]).GetGraphVertices ∧
      g1.brk = (Graph.after [Call.AddEdge (node 1) (node 2) (1.5 : ℚ)]).brk :=
  ⟨Graph.after_reachable (by decide),
    C6_RemoveEdge_result _ (Graph.after_reachable (by decide)) (node 1) (node 2)⟩

/-- C7, evaluated at the failing input: in the state reached by AddEdge(1,2,1.5) the identity 1
is mapped to the vertex at address 0, which holds one edge, and GetVertex returns that vertex;
AddVertex(1) returns the newly allocated vertex at address 2, which has no edge and which the
map does not hold, neither before nor after the call. The map and the edges are unchanged. -/
theorem C7_AddVertex_returns_unowned_vertex :
    (Graph.after [Call.AddEdge (node 1) (node 2) (1.5 : ℚ)]).Reachable ∧
    (Graph.after [Call.AddEdge (node 1) (node 2) (1.5 : ℚ)]).GetVertexFromID 1 = some 0 ∧
    ((Graph.after [Call.AddEdge (node 1) (node 2) (1.5 : ℚ)]).GetVertex (node 1)).1 = 0 ∧
    ((Graph.after [Call.AddEdge (node 1) (node 2) (1.5 : ℚ)]).AddVertex (node 1)).1 = 2 ∧
    ((Graph.after [Call.AddEdge (node 1) (node 2) (1.5 : ℚ)]).AddVertex
      (node 1)).2.GetVertexFromID 1 = some 0 ∧
    ((Graph.after [Call.AddEdge (node 1) (node 2) (1.5 : ℚ)]).AddVertex
      (node 1)).2.GetGraphVertices = [0, 1] ∧
    (((Graph.after [Call.AddEdge (node 1) (node 2) (1.5 : ℚ)]).AddVertex
      (node 1)).2.heap 0).map (fun v => v.edges_.length) = some 1 ∧
    (((Graph.after [Call.AddEdge (node 1) (node 2) (1.5 : ℚ)]).AddVertex
      (node 1)).2.heap 2).map (fun v => v.edges_.length) = some 0 ∧
    ((Graph.after [Call.AddEdge (node 1) (node 2) (1.5 : ℚ)]).AddVertex
      (node 1)).2.GetGraphEdges =
      (Graph.after [Call.AddEdge (node 1) (node 2) (1.5 : ℚ)]).GetGraphEdges :=
  ⟨Graph.after_reachable (by decide), by decide, by decide, by decide, by decide, by decide,
    by decide, by decide, by rfl⟩

/-- C8, evaluated at the failing input: on the graph of the reference test, after
RemoveVertex(4) the vertex of 1 (address 1) still lists the released vertex of 4 (address 3)
among its back-references, and RemoveVertex(1) reads through that pointer: the call has no
defined result. -/
theorem C8_RemoveVertex_undefined_after_neighbour_removed :
    (Graph.after (testEdges ++ [Call.RemoveVertex (node 4)])).Reachable ∧
    (Graph.after (testEdges ++ [Call.RemoveVertex (node 4)])).GetVertexFromID 1 = some 1 ∧
    (Graph.after testEdges).GetVertexFromID 4 = some 3 ∧
    ((Graph.after (testEdges ++ [Call.RemoveVertex (node 4)])).heap 1).map
      (fun v => v.associated_vertices_) = some [0, 4, 3] ∧
    ((Graph.after (testEdges ++ [Call.RemoveVertex (node 4)])).heap 3).isNone = true ∧
    (Graph.after (testEdges ++ [Call.RemoveVertex (node 4)])).RemoveVertex (node 1) = none :=
  ⟨Graph.after_reachable (by decide!), by decide!, by decide!, by decide!, by decide!,
    Option.isNone_iff_eq_none.1 (by decide!)⟩

/-- C9, the claim as stated fails: the nineteen AddEdge calls of the reference test run from
the empty graph, and the graph they build has neither 9 vertices nor 18 edges. -/
theorem C9_not_nine_vertices_eighteen_edges :
    ∃ g : Graph ℚ, Graph.run Graph.empty testEdges = some g ∧
      g.GetGraphVertices.length ≠ 9 ∧ g.GetGraphEdges.map List.length ≠ some 18 :=
  ⟨Graph.after testEdges, Graph.run_eq_after (by decide!), by decide!, by decide!⟩

/-- C9, amended: the nineteen AddEdge calls of the reference test run from the empty graph,
and afterwards GetGraphVertices has 8 entries (the identities 0, 1, 2, 3, 4, 5, 7, 8) and
GetGraphEdges has 19 entries. -/
theorem C9_eight_vertices_nineteen_edges :
    ∃ g : Graph ℚ, Graph.run Graph.empty testEdges = some g ∧
      g.GetGraphVertices.length = 8 ∧
      g.vertexIds g.GetGraphVertices = some [0, 1, 2, 3, 4, 5, 7, 8] ∧
      g.GetGraphEdges.map List.length = some 19 :=
  ⟨Graph.after testEdges, Graph.run_eq_after (by decide!), by decide!, by decide!, by decide!⟩

/-- C10, the claim as stated fails: on the graph of the reference test RemoveVertex(4) runs,
and it neither takes away exactly 6 edges nor leaves 8 vertices. -/
theorem C10_not_six_edges_eight_vertices :
    ∃ g g1 : Graph ℚ, ∃ es es1 : List (Edge ℚ),
      Graph.run Graph.empty testEdges = some g ∧ g.RemoveVertex (node 4) = some g1 ∧
      g.GetGraphEdges = some es ∧ g1.GetGraphEdges = some es1 ∧
      es1.length + 6 ≠ es.length ∧ g1.GetGraphVertices.length ≠ 8 :=
  ⟨Graph.after testEdges, Graph.after (testEdges ++ [Call.RemoveVertex (node 4)]),
    (Graph.after testEdges).allEdges,
    (Graph.after (testEdges ++ [Call.RemoveVertex (node 4)])).allEdges,
    Graph.run_eq_after (by decide!),
    @Graph.after_step ℚ testEdges (Call.RemoveVertex (node 4)) (by decide!),
    (Graph.after_reachable (by decide!)).wf.GetGraphEdges_eq,
    (Graph.after_reachable (by decide!)).wf.GetGraphEdges_eq,
    by decide!, by decide!⟩

/-- C10, amended: on the graph of the reference test RemoveVertex(4) runs, GetGraphEdges goes
from 19 entries to 12 (the seven edges 1 to 4, 3 to 4, 4 to 1, 4 to 3, 4 to 5, 5 to 4 and
7 to 4 are gone), and GetGraphVertices is left with 7 entries. -/
theorem C10_seven_edges_seven_vertices :
    ∃ g g1 : Graph ℚ, ∃ es es1 : List (Edge ℚ),
      Graph.run Graph.empty testEdges = some g ∧ g.RemoveVertex (node 4) = some g1 ∧
      g.GetGraphEdges = some es ∧ g1.GetGraphEdges = some es1 ∧
      es.length = 19 ∧ es1.length + 7 = es.length ∧ g1.GetGraphVertices.length = 7 ∧
      g1.vertexIds g1.GetGraphVertices = some [0, 1, 2, 3, 5, 7, 8] ∧
      g1.GetGraphEdgeIds.map (fun ts => ts.map (fun t => (t.1, t.2.1))) =
        some [(0, 1), (0, 3), (1, 0), (1, 2), (2, 1), (2, 5), (3, 0), (5, 2), (5, 8), (7, 8),
          (8, 5), (8, 7)] :=
  ⟨Graph.after testEdges, Graph.after (testEdges ++ [Call.RemoveVertex (node 4)]),
    (Graph.after testEdges).allEdges,
    (Graph.after (testEdges ++ [Call.RemoveVertex (node 4)])).allEdges,
    Graph.run_eq_after (by decide!),
    @Graph.after_step ℚ testEdges (Call.RemoveVertex (node 4)) (by decide!),
    (Graph.after_reachable (by decide!)).wf.GetGraphEdges_eq,
    (Graph.after_reachable (by decide!)).wf.GetGraphEdges_eq,
    by decide!, by decide!, by decide!, by decide!, by decide!⟩

/-! ## Facts used by the claims on lookup, back-references and frames -/

namespace Graph

variable {W : Type}

theorem RemoveEdge.scan_some {dp : Nat} {es : List (Edge W)} {i idx : Nat} {idx0 : Option Nat}
    (h : RemoveEdge.scan dp es i idx0 = some idx) :
    (idx0 = some idx ∧ ∀ x ∈ es, x.dst_ ≠ dp) ∨
    ∃ l1 e l2, es = l1 ++ e :: l2 ∧ idx = i + l1.length ∧ e.dst_ = dp ∧
      ∀ x ∈ l2, x.dst_ ≠ dp := by
  induction es generalizing i idx0 with
  | nil =>
    simp only [RemoveEdge.scan] at h
    exact Or.inl ⟨h, by simp⟩
  | cons a t ih =>
    simp only [RemoveEdge.scan] at h
    rcases ih h with ⟨h1, h2⟩ | ⟨l1, e, l2, h1, h2, h3, h4⟩
    · by_cases ha : a.dst_ = dp
      · simp only [ha, if_true, Option.some.injEq] at h1
        exact Or.inr ⟨[], a, t, rfl, by simp [h1], ha, h2⟩
      · simp only [ha, if_false] at h1
        refine Or.inl ⟨h1, ?_⟩
        intro x hx
        rcases List.mem_cons.1 hx with hx | hx
        · rw [hx]; exact ha
        · exact h2 x hx
    · refine Or.inr ⟨a :: l1, e, l2, by rw [h1]; rfl, ?_, h3, h4⟩
      simp only [List.length_cons]
      omega

theorem eraseIdx_middle {α : Type} (l1 : List α) (e : α) (l2 : List α) :
    (l1 ++ e :: l2).eraseIdx l1.length = l1 ++ l2 := by
  rw [List.eraseIdx_append_of_length_le (Nat.le_refl _)]
  simp

/-- A successful `RemoveEdge`, spelled out: the source vertex loses the one edge to the
destination vertex and nothing else changes. -/
theorem RemoveEdge_true {g g1 : Graph W} (hg : g.WF) {s d : BundledStructType}
    (h : g.RemoveEdge s d = some (true, g1)) :
    ∃ sp dp sv l1 e l2, map_find g.vertex_map_ (uint64_t s.data_id_) = some sp ∧
      map_find g.vertex_map_ (uint64_t d.data_id_) = some dp ∧ g.heap sp = some sv ∧
      sv.edges_ = l1 ++ e :: l2 ∧ e.src_ = sp ∧ e.dst_ = dp ∧
      (∀ x ∈ l1 ++ l2, x.dst_ ≠ dp) ∧
      g1 = { g with heap := Function.update g.heap sp (some { sv with edges_ := l1 ++ l2 }) } := by
  cases hs : map_find g.vertex_map_ (uint64_t s.data_id_) with
  | none => simp [Graph.RemoveEdge, Graph.SearchVertex, hs] at h
  | some sp =>
    cases hd : map_find g.vertex_map_ (uint64_t d.data_id_) with
    | none => simp [Graph.RemoveEdge, Graph.SearchVertex, hs, hd] at h
    | some dp =>
      have hsp := map_find_mem hs
      obtain ⟨sv, hsv, -⟩ := hg.live _ _ hsp
      cases hscan : RemoveEdge.scan dp sv.edges_ 0 none with
      | none => simp [Graph.RemoveEdge, Graph.SearchVertex, hs, hd, hsv, hscan] at h
      | some idx =>
        rw [RemoveEdge_of_found hs hd hsv hscan] at h
        rcases RemoveEdge.scan_some hscan with ⟨h1, -⟩ | ⟨l1, e, l2, h1, h2, h3, h4⟩
        · cases h1
        · have hn := hg.nopar _ _ sv hsp hsv
          rw [h1] at hn
          simp only [List.map_append, List.map_cons] at hn
          have hn1 := List.nodup_middle.1 hn
          rw [List.nodup_cons] at hn1
          refine ⟨sp, dp, sv, l1, e, l2, rfl, rfl, hsv, h1,
            (hg.v3 _ _ sv hsp hsv e (by rw [h1]; simp)).1, h3, ?_, ?_⟩
          · intro x hx hxd
            apply hn1.1
            rw [h3, ← hxd, ← List.map_append]
            exact List.mem_map.2 ⟨x, hx, rfl⟩
          · simp only [Option.some.injEq, Prod.mk.injEq, true_and] at h
            rw [← h]
            have hidx : idx = l1.length := by omega
            subst hidx
            simp only [h1, eraseIdx_middle]

theorem WF.vertexId_of_mem {g : Graph W} (hg : g.WF) {p : Nat} (hp : p ∈ g.GetGraphVertices)
    {k : Nat} : g.vertexId p = some k ↔ (k, p) ∈ g.vertex_map_ := by
  obtain ⟨⟨k1, q⟩, hx, rfl⟩ := List.mem_map.1 hp
  constructor
  · intro h
    rw [hg.vertexId_eq hx] at h
    cases h
    exact hx
  · intro h
    exact hg.vertexId_eq h

end Graph

/-- C16: in every reachable state and for every id, GetVertexFromID(id) returns a vertex
exactly when GetGraphVertices holds a vertex whose identity is id; the vertex returned is one of
GetGraphVertices, carries the identity id, and is the only such vertex; an id no vertex carries
yields the empty result. The embedded member is a function of the graph that returns only the
pointer: it has no way to change the graph. -/
theorem C16_GetVertexFromID_strict_lookup {W : Type} (g : Graph W) (hg : g.Reachable)
    (vertex_id : Nat) :
    ((∃ p, g.GetVertexFromID vertex_id = some p) ↔
      ∃ p ∈ g.GetGraphVertices, g.vertexId p = some vertex_id) ∧
    (∀ p, g.GetVertexFromID vertex_id = some p →
      p ∈ g.GetGraphVertices ∧ g.vertexId p = some vertex_id ∧
      ∀ q ∈ g.GetGraphVertices, g.vertexId q = some vertex_id → q = p) ∧
    ((¬ ∃ p ∈ g.GetGraphVertices, g.vertexId p = some vertex_id) →
      g.GetVertexFromID vertex_id = none) := by
  have hw := hg.wf
  have hfwd : ∀ p, g.GetVertexFromID vertex_id = some p →
      p ∈ g.GetGraphVertices ∧ g.vertexId p = some vertex_id := by
    intro p hp
    have hm := map_find_mem hp
    exact ⟨List.mem_map.2 ⟨_, hm, rfl⟩, hw.vertexId_eq hm⟩
  have hbwd : ∀ p ∈ g.GetGraphVertices, g.vertexId p = some vertex_id →
      g.GetVertexFromID vertex_id = some p := by
    intro p hp hid
    exact map_find_of_mem hw.sorted ((hw.vertexId_of_mem hp).1 hid)
  refine ⟨⟨?_, ?_⟩, ?_, ?_⟩
  · rintro ⟨p, hp⟩
    exact ⟨p, (hfwd p hp).1, (hfwd p hp).2⟩
  · rintro ⟨p, hp, hid⟩
    exact ⟨p, hbwd p hp hid⟩
  · intro p hp
    refine ⟨(hfwd p hp).1, (hfwd p hp).2, fun q hq hid => ?_⟩
    have := hbwd q hq hid
    rw [hp] at this
    cases this
    rfl
  · intro hno
    cases h : g.GetVertexFromID vertex_id with
    | none => rfl
    | some p => exact absurd ⟨p, (hfwd p h).1, (hfwd p h).2⟩ hno

/-- Witness for C16: looking up identity 2 after `AddEdge(1, 2, 1.5)` and `RemoveVertex(1)`. -/
theorem C16_GetVertexFromID_strict_lookup_witness :
    (Graph.after [Call.AddEdge (node 1) (node 2) (1.5 : ℚ),
      Call.RemoveVertex (node 1)]).Reachable ∧
    (Graph.after [Call.AddEdge (node 1) (node 2) (1.5 : ℚ),
      Call.RemoveVertex (node 1)]).GetVertexFromID 2 = some 1 ∧
    (((∃ p, (Graph.after [Call.AddEdge (node 1) (node 2) (1.5 : ℚ),
        Call.RemoveVertex (node 1)]).GetVertexFromID 2 = some p) ↔
      ∃ p ∈ (Graph.after [Call.AddEdge (node 1) (node 2) (1.5 : ℚ),
        Call.RemoveVertex (node 1)]).GetGraphVertices,
        (Graph.after [Call.AddEdge (node 1) (node 2) (1.5 : ℚ),
          Call.RemoveVertex (node 1)]).vertexId p = some 2) ∧
    (∀ p, (Graph.after [Call.AddEdge (node 1) (node 2) (1.5 : ℚ),
        Call.RemoveVertex (node 1)]).GetVertexFromID 2 = some p →
      p ∈ (Graph.after [Call.AddEdge (node 1) (node 2) (1.5 : ℚ),
        Call.RemoveVertex (node 1)]).GetGraphVertices ∧
      (Graph.after [Call.AddEdge (node 1) (node 2) (1.5 : ℚ),
        Call.RemoveVertex (node 1)]).vertexId p = some 2 ∧
      ∀ q ∈ (Graph.after [Call.AddEdge (node 1) (node 2) (1.5 : ℚ),
        Call.RemoveVertex (node 1)]).GetGraphVertices,
        (Graph.after [Call.AddEdge (node 1) (node 2) (1.5 : ℚ),
          Call.RemoveVertex (node 1)]).vertexId q = some 2 → q = p) ∧
    ((¬ ∃ p ∈ (Graph.after [Call.AddEdge (node 1) (node 2) (1.5 : ℚ),
        Call.RemoveVertex (node 1)]).GetGraphVertices,
        (Graph.after [Call.AddEdge (node 1) (node 2) (1.5 : ℚ),
          Call.RemoveVertex (node 1)]).vertexId p = some 2) →
      (Graph.after [Call.AddEdge (node 1) (node 2) (1.5 : ℚ),
        Call.RemoveVertex (node 1)]).GetVertexFromID 2 = none)) :=
  ⟨Graph.after_reachable (by decide), by decide,
    C16_GetVertexFromID_strict_lookup _ (Graph.after_reachable (by decide)) 2⟩

/-- C17, evaluated at the failing input: in the state reached by AddEdge(3,5,2.0),
AddEdge(3,4,1.0) and RemoveVertex(3), the graph owns the vertices at addresses 2 (identity 4)
and 1 (identity 5); each of them lists address 0 among its back-references, address 0 is not
owned and has been released, and the cascade loop of RemoveVertex(5) and of RemoveVertex(4)
reads through it: neither call has a defined result. -/
theorem C17_back_reference_to_released_vertex :
    (Graph.after [Call.AddEdge (node 3) (node 5) (2.0 : ℚ), Call.AddEdge (node 3) (node 4) 1.0,
      Call.RemoveVertex (node 3)]).Reachable ∧
    (Graph.after [Call.AddEdge (node 3) (node 5) (2.0 : ℚ), Call.AddEdge (node 3) (node 4) 1.0,
      Call.RemoveVertex (node 3)]).GetGraphVertices = [2, 1] ∧
    ((Graph.after [Call.AddEdge (node 3) (node 5) (2.0 : ℚ), Call.AddEdge (node 3) (node 4) 1.0,
      Call.RemoveVertex (node 3)]).heap 1).map (fun v => v.associated_vertices_) = some [0] ∧
    ((Graph.after [Call.AddEdge (node 3) (node 5) (2.0 : ℚ), Call.AddEdge (node 3) (node 4) 1.0,
      Call.RemoveVertex (node 3)]).heap 2).map (fun v => v.associated_vertices_) = some [0] ∧
    ((Graph.after [Call.AddEdge (node 3) (node 5) (2.0 : ℚ), Call.AddEdge (node 3) (node 4) 1.0,
      Call.RemoveVertex (node 3)]).heap 0).isNone = true ∧
    (Graph.after [Call.AddEdge (node 3) (node 5) (2.0 : ℚ), Call.AddEdge (node 3) (node 4) 1.0,
      Call.RemoveVertex (node 3)]).RemoveVertex (node 5) = none ∧
    (Graph.after [Call.AddEdge (node 3) (node 5) (2.0 : ℚ), Call.AddEdge (node 3) (node 4) 1.0,
      Call.RemoveVertex (node 3)]).RemoveVertex (node 4) = none :=
  ⟨Graph.after_reachable (by decide), by decide, by decide, by decide, by decide,
    Option.isNone_iff_eq_none.1 (by decide), Option.isNone_iff_eq_none.1 (by decide)⟩

/-- C18, the claim as stated fails. After AddEdge(1,2,2.0) and RemoveEdge(1,2) both vertices
are owned (addresses 0 and 1), the vertex of 2 lists the vertex of 1 among its
back-references, and the vertex of 1 holds no edge. After one more AddEdge(1,2,1.0) the vertex
of 2 lists the vertex of 1 twice. -/
theorem C18_stale_and_repeated_back_references :
    ((Graph.after [Call.AddEdge (node 1) (node 2) (2.0 : ℚ),
        Call.RemoveEdge (node 1) (node 2)]).Reachable ∧
      (Graph.after [Call.AddEdge (node 1) (node 2) (2.0 : ℚ),
        Call.RemoveEdge (node 1) (node 2)]).GetGraphVertices = [0, 1] ∧
      ((Graph.after [Call.AddEdge (node 1) (node 2) (2.0 : ℚ),
        Call.RemoveEdge (node 1) (node 2)]).heap 1).map (fun v => v.associated_vertices_) =
          some [0] ∧
      ((Graph.after [Call.AddEdge (node 1) (node 2) (2.0 : ℚ),
        Call.RemoveEdge (node 1) (node 2)]).heap 0).map (fun v => v.edges_.length) =
          some 0) ∧
    ((Graph.after [Call.AddEdge (node 1) (node 2) (2.0 : ℚ),
        Call.RemoveEdge (node 1) (node 2), Call.AddEdge (node 1) (node 2) 1.0]).Reachable ∧
      (Graph.after [Call.AddEdge (node 1) (node 2) (2.0 : ℚ),
        Call.RemoveEdge (node 1) (node 2),
        Call.AddEdge (node 1) (node 2) 1.0]).GetGraphVertices = [0, 1] ∧
      ((Graph.after [Call.AddEdge (node 1) (node 2) (2.0 : ℚ),
        Call.RemoveEdge (node 1) (node 2),
        Call.AddEdge (node 1) (node 2) 1.0]).heap 1).map (fun v => v.associated_vertices_) =
          some [0, 0]) :=
  ⟨⟨Graph.after_reachable (by decide), by decide, by decide, by decide⟩,
    ⟨Graph.after_reachable (by decide), by decide, by decide⟩⟩

/-- C18, amended: in every reachable state, for all owned vertices S and D, if S holds an
outgoing edge whose destination is D then the associated_vertices_ of D contains S. -/
theorem C18_in_neighbours_are_listed {W : Type} (g : Graph W) (hg : g.Reachable)
    (S D : Nat) (hS : S ∈ g.GetGraphVertices) (hD : D ∈ g.GetGraphVertices) :
    ∃ sv dv, g.heap S = some sv ∧ g.heap D = some dv ∧
      ((∃ e ∈ sv.edges_, e.dst_ = D) → S ∈ dv.associated_vertices_) := by
  have hw := hg.wf
  obtain ⟨⟨k, p⟩, hx, rfl⟩ := List.mem_map.1 hS
  obtain ⟨⟨k1, q⟩, hy, rfl⟩ := List.mem_map.1 hD
  obtain ⟨sv, hsv, -⟩ := hw.live k p hx
  obtain ⟨dv, hdv, -⟩ := hw.live k1 q hy
  refine ⟨sv, dv, hsv, hdv, ?_⟩
  rintro ⟨e, he, hed⟩
  exact hw.v2 k p sv hx hsv e he dv (by rw [hed]; exact hdv)

/-- Witness for C18, amended: the vertices of 1 and 2 after `AddEdge(1, 2, 2.0)`. -/
theorem C18_in_neighbours_are_listed_witness :
    (Graph.after [Call.AddEdge (node 1) (node 2) (2.0 : ℚ)]).Reachable ∧
    0 ∈ (Graph.after [Call.AddEdge (node 1) (node 2) (2.0 : ℚ)]).GetGraphVertices ∧
    1 ∈ (Graph.after [Call.AddEdge (node 1) (node 2) (2.0 : ℚ)]).GetGraphVertices ∧
    ∃ sv dv, (Graph.after [Call.AddEdge (node 1) (node 2) (2.0 : ℚ)]).heap 0 = some sv ∧
      (Graph.after [Call.AddEdge (node 1) (node 2) (2.0 : ℚ)]).heap 1 = some dv ∧
      ((∃ e ∈ sv.edges_, e.dst_ = 1) → 0 ∈ dv.associated_vertices_) :=
  ⟨Graph.after_reachable (by decide), by decide, by decide,
    C18_in_neighbours_are_listed _ (Graph.after_reachable (by decide)) 0 1 (by decide)
      (by decide)⟩

namespace Graph

variable {W : Type}

theorem RemoveEdge_true_no_edge {g g1 : Graph W} (hg : g.WF) {s d : BundledStructType}
    (h : g.RemoveEdge s d = some (true, g1)) :
    ∃ ts1, g1.GetGraphEdgeIds = some ts1 ∧
      ∀ t ∈ ts1, ¬ (t.1 = uint64_t s.data_id_ ∧ t.2.1 = uint64_t d.data_id_) := by
  have h1 : g1.WF := hg.RemoveEdge h
  obtain ⟨sp, dp, sv, l1, e, l2, hs, hd, hsv, -, -, -, hno, hg1⟩ := RemoveEdge_true hg h
  refine ⟨_, h1.GetGraphEdgeIds_eq, ?_⟩
  rintro t ht ⟨ht1, ht2⟩
  obtain ⟨e1, he1, rfl⟩ := List.mem_map.1 ht
  obtain ⟨k, p, v, hx, hv, hev⟩ := mem_allEdges.1 he1
  obtain ⟨hsrc, k2, hk2⟩ := h1.v3 k p v hx hv e1 hev
  simp only [Graph.tripleAt, hsrc, h1.idAt_eq hx, h1.idAt_eq hk2] at ht1 ht2
  subst ht1 ht2
  have hmap : g1.vertex_map_ = g.vertex_map_ := by rw [hg1]
  rw [hmap] at hx hk2
  have hp := map_unique hg.sorted hx (map_find_mem hs)
  have hq := map_unique hg.sorted hk2 (map_find_mem hd)
  subst hp
  rw [hg1] at hv
  simp only [Function.update_same, Option.some.injEq] at hv
  subst hv
  exact hno e1 hev hq

theorem RemoveEdge_pick {g : Graph W} {s d : BundledStructType}
    (h : (g.RemoveEdge s d).map Prod.fst = some true) :
    g.RemoveEdge s d = some (true, ((g.RemoveEdge s d).getD (false, Graph.empty)).2) := by
  cases hr : g.RemoveEdge s d with
  | none => rw [hr] at h; simp at h
  | some r =>
    obtain ⟨b, g1⟩ := r
    rw [hr] at h
    simp only [Option.map_some', Option.some.injEq] at h
    subst h
    rfl

end Graph

/-- C19: in every reachable state, when RemoveEdge(src,dst) returns true, the edge list of the
source vertex was `l1 ++ e :: l2` with `e` its only edge to the destination vertex and is
`l1 ++ l2` afterwards; the source vertex is otherwise the same, every other address holds what
it held before, the map of owned vertices and the allocation counter are the same, every
vertex has the associated_vertices_ it had, and the destination still lists the source. -/
theorem C19_RemoveEdge_frame {W : Type} (g : Graph W) (hg : g.Reachable)
    (src_node dst_node : BundledStructType) (g1 : Graph W)
    (h : g.RemoveEdge src_node dst_node = some (true, g1)) :
    ∃ sp dp sv l1 e l2,
      g.GetVertexFromID (uint64_t src_node.data_id_) = some sp ∧
      g.GetVertexFromID (uint64_t dst_node.data_id_) = some dp ∧
      g.heap sp = some sv ∧ sv.edges_ = l1 ++ e :: l2 ∧ e.src_ = sp ∧ e.dst_ = dp ∧
      (∀ x ∈ l1 ++ l2, x.dst_ ≠ dp) ∧
      g1.heap sp = some { sv with edges_ := l1 ++ l2 } ∧
      (∀ p, p ≠ sp → g1.heap p = g.heap p) ∧
      g1.vertex_map_ = g.vertex_map_ ∧ g1.brk = g.brk ∧
      (∀ p, (g1.heap p).map (fun v => v.associated_vertices_) =
        (g.heap p).map (fun v => v.associated_vertices_)) ∧
      ∃ dv1, g1.heap dp = some dv1 ∧ sp ∈ dv1.associated_vertices_ := by
  have hw := hg.wf
  obtain ⟨sp, dp, sv, l1, e, l2, hs, hd, hsv, hl, hsrc, hdst, hno, hg1⟩ :=
    Graph.RemoveEdge_true hw h
  subst hg1
  have hassoc : ∀ p, (Function.update g.heap sp (some { sv with edges_ := l1 ++ l2 }) p).map
      (fun v => v.associated_vertices_) = (g.heap p).map (fun v => v.associated_vertices_) := by
    intro p
    by_cases hp : p = sp
    · subst hp; simp [hsv]
    · rw [Function.update_noteq hp]
  refine ⟨sp, dp, sv, l1, e, l2, hs, hd, hsv, hl, hsrc, hdst, hno, Function.update_same _ _ _,
    fun p hp => Function.update_noteq hp _ _, rfl, rfl, hassoc, ?_⟩
  obtain ⟨dv, hdv, -⟩ := hw.live _ _ (map_find_mem hd)
  have hin : sp ∈ dv.associated_vertices_ :=
    hw.v2 _ _ sv (map_find_mem hs) hsv e (by rw [hl]; simp) dv (by rw [hdst]; exact hdv)
  have := hassoc dp
  rw [hdv] at this
  simp only [Option.map_some', Option.map_eq_some'] at this
  obtain ⟨dv1, h1, h2⟩ := this
  exact ⟨dv1, h1, by rw [h2]; exact hin⟩

/-- Witness for C19: `RemoveEdge(1, 2)` after `AddEdge(1, 3, 1.0)`, `AddEdge(1, 2, 2.0)` and
`AddEdge(1, 4, 2.5)`. -/
theorem C19_RemoveEdge_frame_witness :
    (Graph.after [Call.AddEdge (node 1) (node 3) (1.0 : ℚ), Call.AddEdge (node 1) (node 2) 2.0,
      Call.AddEdge (node 1) (node 4) 2.5]).Reachable ∧
    (Graph.after [Call.AddEdge (node 1) (node 3) (1.0 : ℚ), Call.AddEdge (node 1) (node 2) 2.0,
      Call.AddEdge (node 1) (node 4) 2.5]).RemoveEdge (node 1) (node 2) =
      some (true, (((Graph.after [Call.AddEdge (node 1) (node 3) (1.0 : ℚ),
        Call.AddEdge (node 1) (node 2) 2.0,
        Call.AddEdge (node 1) (node 4) 2.5]).RemoveEdge (node 1) (node 2)).getD
          (false, Graph.empty)).2) ∧
    ∃ sp dp sv l1 e l2,
      (Graph.after [Call.AddEdge (node 1) (node 3) (1.0 : ℚ), Call.AddEdge (node 1) (node 2) 2.0,
        Call.AddEdge (node 1) (node 4) 2.5]).GetVertexFromID (uint64_t (node 1).data_id_) =
          some sp ∧
      (Graph.after [Call.AddEdge (node 1) (node 3) (1.0 : ℚ), Call.AddEdge (node 1) (node 2) 2.0,
        Call.AddEdge (node 1) (node 4) 2.5]).GetVertexFromID (uint64_t (node 2).data_id_) =
          some dp ∧
      (Graph.after [Call.AddEdge (node 1) (node 3) (1.0 : ℚ), Call.AddEdge (node 1) (node 2) 2.0,
        Call.AddEdge (node 1) (node 4) 2.5]).heap sp = some sv ∧
      sv.edges_ = l1 ++ e :: l2 ∧ e.src_ = sp ∧ e.dst_ = dp ∧
      (∀ x ∈ l1 ++ l2, x.dst_ ≠ dp) ∧
      (((Graph.after [Call.AddEdge (node 1) (node 3) (1.0 : ℚ),
        Call.AddEdge (node 1) (node 2) 2.0,
        Call.AddEdge (node 1) (node 4) 2.5]).RemoveEdge (node 1) (node 2)).getD
          (false, Graph.empty)).2.heap sp = some { sv with edges_ := l1 ++ l2 } ∧
      (∀ p, p ≠ sp →
        (((Graph.after [Call.AddEdge (node 1) (node 3) (1.0 : ℚ),
          Call.AddEdge (node 1) (node 2) 2.0,
          Call.AddEdge (node 1) (node 4) 2.5]).RemoveEdge (node 1) (node 2)).getD
            (false, Graph.empty)).2.heap p =
        (Graph.after [Call.AddEdge (node 1) (node 3) (1.0 : ℚ),
          Call.AddEdge (node 1) (node 2) 2.0, Call.AddEdge (node 1) (node 4) 2.5]).heap p) ∧
      (((Graph.after [Call.AddEdge (node 1) (node 3) (1.0 : ℚ),
        Call.AddEdge (node 1) (node 2) 2.0,
        Call.AddEdge (node 1) (node 4) 2.5]).RemoveEdge (node 1) (node 2)).getD
          (false, Graph.empty)).2.vertex_map_ =
        (Graph.after [Call.AddEdge (node 1) (node 3) (1.0 : ℚ),
          Call.AddEdge (node 1) (node 2) 2.0, Call.AddEdge (node 1) (node 4) 2.5]).vertex_map_ ∧
      (((Graph.after [Call.AddEdge (node 1) (node 3) (1.0 : ℚ),
        Call.AddEdge (node 1) (node 2) 2.0,
        Call.AddEdge (node 1) (node 4) 2.5]).RemoveEdge (node 1) (node 2)).getD
          (false, Graph.empty)).2.brk =
        (Graph.after [Call.AddEdge (node 1) (node 3) (1.0 : ℚ),
          Call.AddEdge (node 1) (node 2) 2.0, Call.AddEdge (node 1) (node 4) 2.5]).brk ∧
      (∀ p, ((((Graph.after [Call.AddEdge (node 1) (node 3) (1.0 : ℚ),
          Call.AddEdge (node 1) (node 2) 2.0,
          Call.AddEdge (node 1) (node 4) 2.5]).RemoveEdge (node 1) (node 2)).getD
            (false, Graph.empty)).2.heap p).map (fun v => v.associated_vertices_) =
        ((Graph.after [Call.AddEdge (node 1) (node 3) (1.0 : ℚ),
          Call.AddEdge (node 1) (node 2) 2.0, Call.AddEdge (node 1) (node 4) 2.5]).heap p).map
            (fun v => v.associated_vertices_)) ∧
      ∃ dv1, (((Graph.after [Call.AddEdge (node 1) (node 3) (1.0 : ℚ),
        Call.AddEdge (node 1) (node 2) 2.0,
        Call.AddEdge (node 1) (node 4) 2.5]).RemoveEdge (node 1) (node 2)).getD
          (false, Graph.empty)).2.heap dp = some dv1 ∧ sp ∈ dv1.associated_vertices_ :=
  ⟨Graph.after_reachable (by decide), Graph.RemoveEdge_pick (by decide),
    C19_RemoveEdge_frame _ (Graph.after_reachable (by decide)) (node 1) (node 2) _
      (Graph.RemoveEdge_pick (by decide))⟩

/-- C20: in every reachable state the identity triples of GetGraphEdges hold at most one
entry per ordered pair (source identity, destination identity). Consequently a RemoveEdge that
returns true leaves no edge between its pair; erasing the first edge to a vertex from the edge
list of any owned vertex, the step of the cascade of RemoveVertex, leaves no edge of that
list to the vertex; and a RemoveVertex with defined behaviour leaves no edge at the removed
identity. -/
theorem C20_no_parallel_edges {W : Type} (g : Graph W) (hg : g.Reachable) :
    (∃ ts, g.GetGraphEdgeIds = some ts ∧ (ts.map (fun t => (t.1, t.2.1))).Nodup) ∧
    (∀ s d g1, g.RemoveEdge s d = some (true, g1) →
      ∃ ts1, g1.GetGraphEdgeIds = some ts1 ∧
        ∀ t ∈ ts1, ¬ (t.1 = uint64_t s.data_id_ ∧ t.2.1 = uint64_t d.data_id_)) ∧
    (∀ asv ∈ g.GetGraphVertices, ∃ av, g.heap asv = some av ∧
      ∀ vptr, ∀ e ∈ av.edges_.eraseP (fun e => decide (e.dst_ = vptr)), e.dst_ ≠ vptr) ∧
    (∀ x g1, g.RemoveVertex x = some g1 →
      ∃ ts1, g1.GetGraphEdgeIds = some ts1 ∧
        ∀ t ∈ ts1, t.1 ≠ uint64_t x.data_id_ ∧ t.2.1 ≠ uint64_t x.data_id_) := by
  have hw := hg.wf
  refine ⟨⟨_, hw.GetGraphEdgeIds_eq, hw.edge_ids_nodup⟩, ?_, ?_, ?_⟩
  · intro s d g1 h
    exact Graph.RemoveEdge_true_no_edge hw h
  · intro asv hasv
    obtain ⟨⟨k, p⟩, hx, rfl⟩ := List.mem_map.1 hasv
    obtain ⟨av, hav, -⟩ := hw.live k p hx
    exact ⟨av, hav, fun vptr => eraseP_no_dst (hw.nopar k p av hx hav)⟩
  · intro x g1 h
    exact Graph.RemoveVertex_closes hw h

/-- Witness for C20: the state reached by a sequence with all five kinds of call. -/
theorem C20_no_parallel_edges_witness :
    (Graph.after mixedCalls).Reachable ∧
    (∃ ts, (Graph.after mixedCalls).GetGraphEdgeIds = some ts ∧
      (ts.map (fun t => (t.1, t.2.1))).Nodup) ∧
    (∀ s d g1, (Graph.after mixedCalls).RemoveEdge s d = some (true, g1) →
      ∃ ts1, g1.GetGraphEdgeIds = some ts1 ∧
        ∀ t ∈ ts1, ¬ (t.1 = uint64_t s.data_id_ ∧ t.2.1 = uint64_t d.data_id_)) ∧
    (∀ asv ∈ (Graph.after mixedCalls).GetGraphVertices, ∃ av,
      (Graph.after mixedCalls).heap asv = some av ∧
      ∀ vptr, ∀ e ∈ av.edges_.eraseP (fun e => decide (e.dst_ = vptr)), e.dst_ ≠ vptr) ∧
    (∀ x g1, (Graph.after mixedCalls).RemoveVertex x = some g1 →
      ∃ ts1, g1.GetGraphEdgeIds = some ts1 ∧
        ∀ t ∈ ts1, t.1 ≠ uint64_t x.data_id_ ∧ t.2.1 ≠ uint64_t x.data_id_) :=
  ⟨Graph.after_reachable (by decide),
    C20_no_parallel_edges _ (Graph.after_reachable (by decide))⟩

/-! ## What `AddEdge` does to the enumerations -/

namespace Graph

variable {W : Type}

theorem flatMap_map_insert {β : Type} (F : Nat × Nat → List β) (m : List (Nat × Nat))
    {k p : Nat} (hF : F (k, p) = []) : (map_insert m k p).flatMap F = m.flatMap F := by
  induction m with
  | nil => simp [map_insert, hF]
  | cons a t ih =>
    obtain ⟨k1, q⟩ := a
    simp only [map_insert]
    split
    · simp [List.flatMap_cons, hF]
    · split
      · rfl
      · simp only [List.flatMap_cons, ih]

theorem map_insert_length_le (m : List (Nat × Nat)) (k p : Nat) :
    (map_insert m k p).length ≤ m.length + 1 := by
  induction m with
  | nil => simp [map_insert]
  | cons a t ih =>
    obtain ⟨k1, q⟩ := a
    simp only [map_insert]
    split
    · simp
    · split
      · simp
      · simp only [List.length_cons]; omega

theorem AddVertex_idAt {g : Graph W} (s : BundledStructType) {p : Nat} (hp : p ≠ g.brk) :
    (g.AddVertex s).2.idAt p = g.idAt p := by
  simp only [Graph.idAt, AddVertex_heap_old s hp]

theorem AddVertex_allEdges {g : Graph W} (hg : g.WF) (s : BundledStructType) :
    (g.AddVertex s).2.allEdges = g.allEdges := by
  unfold Graph.allEdges
  have h1 : (g.AddVertex s).2.vertex_map_ =
      map_insert g.vertex_map_ (uint64_t s.data_id_) g.brk := rfl
  rw [h1, flatMap_map_insert]
  · apply List.flatMap_congr
    rintro ⟨k, p⟩ hx
    simp only [Graph.edgesAt, AddVertex_heap_old s (Nat.ne_of_lt (hg.ptr_lt hx))]
  · simp [Graph.edgesAt, Graph.AddVertex, Vertex.new]

theorem AddVertex_triples {g : Graph W} (hg : g.WF) (s : BundledStructType) :
    (g.AddVertex s).2.allEdges.map (g.AddVertex s).2.tripleAt = g.allEdges.map g.tripleAt := by
  rw [AddVertex_allEdges hg s]
  apply List.map_congr_left
  intro e he
  obtain ⟨⟨k1, h1⟩, ⟨k2, h2⟩⟩ := hg.mem_allEdges_owned he
  simp only [Graph.tripleAt, AddVertex_idAt s (Nat.ne_of_lt (hg.ptr_lt h1)),
    AddVertex_idAt s (Nat.ne_of_lt (hg.ptr_lt h2))]

theorem GetVertex_triples {g : Graph W} (hg : g.WF) (s : BundledStructType) :
    (g.GetVertex s).2.allEdges.map (g.GetVertex s).2.tripleAt = g.allEdges.map g.tripleAt := by
  cases h : map_find g.vertex_map_ (uint64_t s.data_id_) with
  | none => rw [GetVertex_of_none h]; exact AddVertex_triples hg s
  | some p => rw [GetVertex_of_some h]

theorem GetVertex_grows {g : Graph W} (s : BundledStructType) :
    (g.GetVertex s).2.brk ≤ g.brk + 1 ∧
    (g.GetVertex s).2.vertex_map_.length ≤ g.vertex_map_.length + 1 := by
  cases h : map_find g.vertex_map_ (uint64_t s.data_id_) with
  | none =>
    rw [GetVertex_of_none h]
    exact ⟨Nat.le_refl _, map_insert_length_le _ _ _⟩
  | some p =>
    rw [GetVertex_of_some h]
    exact ⟨Nat.le_succ _, Nat.le_succ _⟩

theorem flatMap_extra {β : Type} {m : List (Nat × Nat)} {F F1 : Nat × Nat → List β}
    {sp : Nat} {new : β} (hn : (m.map Prod.snd).Nodup)
    (hF : ∀ x ∈ m, F1 x = F x ++ (if x.2 = sp then [new] else [])) :
    (m.flatMap F).Sublist (m.flatMap F1) ∧
    (m.flatMap F1).length = (m.flatMap F).length + (if sp ∈ m.map Prod.snd then 1 else 0) := by
  induction m with
  | nil => simp
  | cons a t ih =>
    simp only [List.map_cons, List.nodup_cons] at hn
    obtain ⟨ih1, ih2⟩ := ih hn.2 (fun x hx => hF x (List.mem_cons_of_mem _ hx))
    have ha := hF a (List.mem_cons_self _ _)
    simp only [List.flatMap_cons, List.length_append, List.map_cons, List.mem_cons]
    constructor
    · refine List.Sublist.append ?_ ih1
      rw [ha]
      exact List.sublist_append_left _ _
    · rw [ih2, ha]
      by_cases hsp : a.2 = sp
      · have hnot : sp ∉ List.map Prod.snd t := by rw [← hsp]; exact hn.1
        simp only [hsp, hnot, if_true, if_false, true_or, List.length_append,
          List.length_singleton]
        omega
      · have hsp1 : ¬ sp = a.2 := fun h => hsp h.symm
        simp only [hsp, hsp1, if_false, false_or, List.append_nil]
        omega

/-- The identity triples before and after an `AddEdge`: the old triples stay, in their
order; when the call finds no edge between its pair there is exactly one more. -/
theorem AddEdge_triples {g g1 : Graph W} (hg : g.WF) {s d : BundledStructType} {w : W}
    (h : g.AddEdge s d w = some g1) :
    (g.allEdges.map g.tripleAt).Sublist (g1.allEdges.map g1.tripleAt) ∧
    ((∀ t ∈ g.allEdges.map g.tripleAt,
        ¬ (t.1 = uint64_t s.data_id_ ∧ t.2.1 = uint64_t d.data_id_)) →
      (g1.allEdges.map g1.tripleAt).length = (g.allEdges.map g.tripleAt).length + 1) := by
  have ha := hg.GetVertex s
  have hb := ha.GetVertex d
  have hsp := GetVertex_mono ha d (GetVertex_mem hg s)
  have hdp := GetVertex_mem ha d
  obtain ⟨sv, hs, -⟩ := hb.live _ _ hsp
  obtain ⟨dv, hd, -⟩ := hb.live _ _ hdp
  have hold : ((g.GetVertex s).2.GetVertex d).2.allEdges.map
      ((g.GetVertex s).2.GetVertex d).2.tripleAt = g.allEdges.map g.tripleAt := by
    rw [GetVertex_triples ha d, GetVertex_triples hg s]
  rw [← hold]
  unfold Graph.AddEdge at h
  cases hc : sv.CheckNeighbour ((g.GetVertex s).2.GetVertex d).1 with
  | true =>
    have hc0 := hc
    rw [AddEdge.link_of_neighbour w hs hc] at h
    cases h
    refine ⟨List.Sublist.refl _, fun hno => ?_⟩
    exfalso
    rw [CheckNeighbour_iff] at hc0
    obtain ⟨e, he, hed⟩ := List.mem_map.1 hc0
    exact hno _ (hb.triple_mem hsp hdp hs he hed) ⟨rfl, rfl⟩
  | false =>
    rw [AddEdge.link_heap w hs hd hc] at h
    cases h
    have htr : ∀ e : Edge W, Graph.tripleAt
        { ((g.GetVertex s).2.GetVertex d).2 with
          heap := fun p => (((g.GetVertex s).2.GetVertex d).2.heap p).map (fun v =>
            { v with
              edges_ := v.edges_ ++ (if p = (g.GetVertex s).1 then
                [Edge.mk (g.GetVertex s).1 ((g.GetVertex s).2.GetVertex d).1 w] else [])
              associated_vertices_ := v.associated_vertices_ ++
                (if p = ((g.GetVertex s).2.GetVertex d).1 then [(g.GetVertex s).1]
                  else []) }) } e =
        ((g.GetVertex s).2.GetVertex d).2.tripleAt e := by
      intro e
      simp only [Graph.tripleAt, Graph.idAt]
      cases ((g.GetVertex s).2.GetVertex d).2.heap e.src_ <;>
        cases ((g.GetVertex s).2.GetVertex d).2.heap e.dst_ <;> rfl
    rw [List.map_congr_left (fun e _ => htr e)]
    have hex := @flatMap_extra (Edge W) ((g.GetVertex s).2.GetVertex d).2.vertex_map_
      (fun x => ((g.GetVertex s).2.GetVertex d).2.edgesAt x.2)
      (fun x => Graph.edgesAt
        { ((g.GetVertex s).2.GetVertex d).2 with
          heap := fun p => (((g.GetVertex s).2.GetVertex d).2.heap p).map (fun v =>
            { v with
              edges_ := v.edges_ ++ (if p = (g.GetVertex s).1 then
                [Edge.mk (g.GetVertex s).1 ((g.GetVertex s).2.GetVertex d).1 w] else [])
              associated_vertices_ := v.associated_vertices_ ++
                (if p = ((g.GetVertex s).2.GetVertex d).1 then [(g.GetVertex s).1]
                  else []) }) } x.2)
      (g.GetVertex s).1
      (Edge.mk (g.GetVertex s).1 ((g.GetVertex s).2.GetVertex d).1 w)
      hb.ptrs_nodup (by
        rintro ⟨k, p⟩ hx
        obtain ⟨v, hv, -⟩ := hb.live k p hx
        simp [Graph.edgesAt, hv])
    have hin : (g.GetVertex s).1 ∈ List.map Prod.snd
        ((g.GetVertex s).2.GetVertex d).2.vertex_map_ := List.mem_map.2 ⟨_, hsp, rfl⟩
    simp only [hin, if_true] at hex
    exact ⟨hex.1.map _, fun _ => by simp only [List.length_map]; exact hex.2⟩

end Graph

/-- C13: in every reachable state AddEdge(s,d,w) runs; afterwards GetGraphVertices is not
empty and holds a vertex with the identity of s and one with the identity of d, every vertex
owned before is still owned, at most two vertices were created, and GetGraphEdges holds an
edge from s to d. If no edge from s to d existed before, the identity triples of
GetGraphEdges are the old ones, unchanged and in their old order, with exactly one more, and
the triple (s, d, w) is among them. -/
theorem C13_AddEdge_postcondition {W : Type} (g : Graph W) (hg : g.Reachable)
    (s d : BundledStructType) (w : W) :
    ∃ g1, g.AddEdge s d w = some g1 ∧
      g1.GetGraphVertices ≠ [] ∧
      (∃ p ∈ g1.GetGraphVertices, g1.vertexId p = some (uint64_t s.data_id_)) ∧
      (∃ p ∈ g1.GetGraphVertices, g1.vertexId p = some (uint64_t d.data_id_)) ∧
      (∀ p ∈ g.GetGraphVertices, p ∈ g1.GetGraphVertices) ∧
      g1.GetGraphVertices.length ≤ g.GetGraphVertices.length + 2 ∧
      g1.brk ≤ g.brk + 2 ∧
      ∃ ts0 ts1, g.GetGraphEdgeIds = some ts0 ∧ g1.GetGraphEdgeIds = some ts1 ∧
        (∃ w1, (uint64_t s.data_id_, uint64_t d.data_id_, w1) ∈ ts1) ∧
        ((∀ t ∈ ts0, ¬ (t.1 = uint64_t s.data_id_ ∧ t.2.1 = uint64_t d.data_id_)) →
          ts0.Sublist ts1 ∧ ts1.length = ts0.length + 1 ∧
          (uint64_t s.data_id_, uint64_t d.data_id_, w) ∈ ts1) := by
  have hw := hg.wf
  obtain ⟨g1, h1⟩ := Graph.AddEdge_total hw s d w
  have hw1 : g1.WF := hw.AddEdge h1
  have ha := hw.GetVertex s
  have hsp := Graph.GetVertex_mono ha d (Graph.GetVertex_mem hw s)
  have hdp := Graph.GetVertex_mem ha d
  have hlink : g1.vertex_map_ = ((g.GetVertex s).2.GetVertex d).2.vertex_map_ ∧
      g1.brk = ((g.GetVertex s).2.GetVertex d).2.brk := Graph.AddEdge.link_map h1
  rw [← hlink.1] at hsp hdp
  have hps : (g.GetVertex s).1 ∈ g1.GetGraphVertices := List.mem_map.2 ⟨_, hsp, rfl⟩
  have hpd : ((g.GetVertex s).2.GetVertex d).1 ∈ g1.GetGraphVertices :=
    List.mem_map.2 ⟨_, hdp, rfl⟩
  have hg1 := Graph.GetVertex_grows (g := g) s
  have hg2 := @Graph.GetVertex_grows W (g.GetVertex s).2 d
  refine ⟨g1, h1, List.ne_nil_of_mem hps, ⟨_, hps, hw1.vertexId_eq hsp⟩,
    ⟨_, hpd, hw1.vertexId_eq hdp⟩, ?_, ?_, ?_, _, _, hw.GetGraphEdgeIds_eq,
    hw1.GetGraphEdgeIds_eq, Graph.AddEdge_has_edge hw h1, ?_⟩
  · intro p hp
    obtain ⟨x, hx, rfl⟩ := List.mem_map.1 hp
    refine List.mem_map.2 ⟨x, ?_, rfl⟩
    rw [hlink.1]
    exact Graph.GetVertex_mono ha d (Graph.GetVertex_mono hw s hx)
  · simp only [Graph.GetGraphVertices, List.length_map, hlink.1]
    omega
  · rw [hlink.2]
    omega
  · intro hno
    obtain ⟨h2, h3⟩ := Graph.AddEdge_triples hw h1
    exact ⟨h2, h3 hno, Graph.AddEdge_new_edge hw h1 hno⟩

/-- Witness for C13: `AddEdge(2, 5, 2.5)` in the state reached by a sequence with all five
kinds of call. -/
theorem C13_AddEdge_postcondition_witness :
    (Graph.after mixedCalls).Reachable ∧
    ∃ g1, (Graph.after mixedCalls).AddEdge (node 2) (node 5) 2.5 = some g1 ∧
      g1.GetGraphVertices ≠ [] ∧
      (∃ p ∈ g1.GetGraphVertices, g1.vertexId p = some (uint64_t (node 2).data_id_)) ∧
      (∃ p ∈ g1.GetGraphVertices, g1.vertexId p = some (uint64_t (node 5).data_id_)) ∧
      (∀ p ∈ (Graph.after mixedCalls).GetGraphVertices, p ∈ g1.GetGraphVertices) ∧
      g1.GetGraphVertices.length ≤ (Graph.after mixedCalls).GetGraphVertices.length + 2 ∧
      g1.brk ≤ (Graph.after mixedCalls).brk + 2 ∧
      ∃ ts0 ts1, (Graph.after mixedCalls).GetGraphEdgeIds = some ts0 ∧
        g1.GetGraphEdgeIds = some ts1 ∧
        (∃ w1, (uint64_t (node 2).data_id_, uint64_t (node 5).data_id_, w1) ∈ ts1) ∧
        ((∀ t ∈ ts0, ¬ (t.1 = uint64_t (node 2).data_id_ ∧
            t.2.1 = uint64_t (node 5).data_id_)) →
          ts0.Sublist ts1 ∧ ts1.length = ts0.length + 1 ∧
          (uint64_t (node 2).data_id_, uint64_t (node 5).data_id_, 2.5) ∈ ts1) :=
  ⟨Graph.after_reachable (by decide),
    C13_AddEdge_postcondition _ (Graph.after_reachable (by decide)) (node 2) (node 5) 2.5⟩

/-! ## The undirected enumeration -/

section collapse

variable {α : Type} (r : α → α → Bool)

theorem collapse_append (l1 l2 acc : List α) :
    collapse r (l1 ++ l2) acc = collapse r l2 (collapse r l1 acc) := by
  induction l1 generalizing acc with
  | nil => rfl
  | cons e es ih =>
    show collapse r (es ++ l2) _ = collapse r l2 (collapse r es _)
    exact ih _

theorem collapse_sublist (l acc : List α) :
    ∃ l1, l1.Sublist l ∧ collapse r l acc = acc ++ l1 := by
  induction l generalizing acc with
  | nil => exact ⟨[], List.Sublist.refl _, by simp [collapse]⟩
  | cons e es ih =>
    simp only [collapse]
    split
    · obtain ⟨l1, h1, h2⟩ := ih acc
      exact ⟨l1, h1.cons e, h2⟩
    · obtain ⟨l1, h1, h2⟩ := ih (acc ++ [e])
      exact ⟨e :: l1, h1.cons₂ e, by rw [h2]; simp⟩

theorem collapse_pairwise (l acc : List α) (ha : acc.Pairwise (fun x y => r x y = false)) :
    (collapse r l acc).Pairwise (fun x y => r x y = false) := by
  induction l generalizing acc with
  | nil => exact ha
  | cons e es ih =>
    simp only [collapse]
    split
    · exact ih acc ha
    · next hany =>
      apply ih
      rw [List.pairwise_append]
      refine ⟨ha, List.pairwise_singleton _ _, ?_⟩
      intro x hx y hy
      simp only [List.mem_singleton] at hy
      subst hy
      simp only [List.any_eq_true, not_exists, not_and, Bool.not_eq_true] at hany
      exact hany x hx

theorem collapse_covers (l acc : List α) :
    ∀ e ∈ l, e ∈ collapse r l acc ∨ ∃ x ∈ collapse r l acc, r x e = true := by
  induction l generalizing acc with
  | nil => simp
  | cons a es ih =>
    intro e he
    simp only [collapse]
    have hsub : ∀ acc1 : List α, ∀ x ∈ acc1, x ∈ collapse r es acc1 := by
      intro acc1 x hx
      obtain ⟨l1, -, h2⟩ := collapse_sublist r es acc1
      rw [h2]
      exact List.mem_append_left _ hx
    rcases List.mem_cons.1 he with h | h
    · subst h
      split
      · next hany =>
        simp only [List.any_eq_true] at hany
        obtain ⟨x, hx, hr⟩ := hany
        exact Or.inr ⟨x, hsub acc x hx, hr⟩
      · exact Or.inl (hsub _ e (by simp))
    · split
      · exact ih acc e h
      · exact ih _ e h

end collapse

namespace Graph

variable {W : Type} [DecidableEq W]

theorem WF.revPtr_iff {g : Graph W} (hg : g.WF) {x y : Edge W} (hx : x ∈ g.allEdges)
    (hy : y ∈ g.allEdges) :
    revPtr x y = true ↔
      (g.tripleAt x).1 = (g.tripleAt y).2.1 ∧ (g.tripleAt x).2.1 = (g.tripleAt y).1 ∧
        (g.tripleAt x).2.2 = (g.tripleAt y).2.2 := by
  obtain ⟨⟨k1, h1⟩, ⟨k2, h2⟩⟩ := hg.mem_allEdges_owned hx
  obtain ⟨⟨k3, h3⟩, ⟨k4, h4⟩⟩ := hg.mem_allEdges_owned hy
  simp only [revPtr, decide_eq_true_eq, Graph.tripleAt, hg.idAt_eq h1, hg.idAt_eq h2,
    hg.idAt_eq h3, hg.idAt_eq h4]
  constructor
  · rintro ⟨ha, hb, hc⟩
    rw [ha] at h1
    rw [hb] at h2
    exact ⟨hg.key_of_ptr h1 h4, hg.key_of_ptr h2 h3, hc⟩
  · rintro ⟨ha, hb, hc⟩
    subst ha hb
    exact ⟨map_unique hg.sorted h1 h4, map_unique hg.sorted h2 h3, hc⟩

theorem WF.isReverse_eq {g : Graph W} (hg : g.WF) {x y : Edge W} (hx : x ∈ g.allEdges)
    (hy : y ∈ g.allEdges) : g.isReverse x y = some (revPtr x y) := by
  obtain ⟨⟨k1, h1⟩, ⟨k2, h2⟩⟩ := hg.mem_allEdges_owned hx
  obtain ⟨⟨k3, h3⟩, ⟨k4, h4⟩⟩ := hg.mem_allEdges_owned hy
  have hiff := hg.revPtr_iff hx hy
  simp only [Graph.tripleAt, hg.idAt_eq h1, hg.idAt_eq h2, hg.idAt_eq h3, hg.idAt_eq h4] at hiff
  simp only [Graph.isReverse, hg.vertexId_eq h1, hg.vertexId_eq h2, hg.vertexId_eq h3,
    hg.vertexId_eq h4, Option.some.injEq]
  by_cases hr : revPtr x y = true
  · rw [hr]; exact decide_eq_true (hiff.1 hr)
  · simp only [Bool.not_eq_true] at hr
    rw [hr]
    apply decide_eq_false
    intro h
    rw [hiff.2 h] at hr
    cases hr

theorem WF.existed_eq {g : Graph W} (hg : g.WF) {ite : Edge W} (hite : ite ∈ g.allEdges)
    {edges : List (Edge W)} (he : ∀ x ∈ edges, x ∈ g.allEdges) :
    GetGraphUndirectedEdges.existed g ite edges =
      some (edges.any (fun x => revPtr x ite)) := by
  induction edges with
  | nil => rfl
  | cons a t ih =>
    have h1 := hg.isReverse_eq (he a (List.mem_cons_self _ _)) hite
    have h2 := ih (fun x hx => he x (List.mem_cons_of_mem _ hx))
    simp only [GetGraphUndirectedEdges.existed, h1, List.any_cons]
    cases hr : revPtr a ite with
    | true => simp
    | false => simp [h2]

theorem collapse_mem {α : Type} (r : α → α → Bool) {l acc : List α} {x : α}
    (hx : x ∈ collapse r l acc) : x ∈ acc ∨ x ∈ l := by
  obtain ⟨l1, h1, h2⟩ := collapse_sublist r l acc
  rw [h2] at hx
  rcases List.mem_append.1 hx with h | h
  · exact Or.inl h
  · exact Or.inr (h1.subset h)

theorem WF.inner_eq {g : Graph W} (hg : g.WF) {l edges : List (Edge W)}
    (hl : ∀ x ∈ l, x ∈ g.allEdges) (he : ∀ x ∈ edges, x ∈ g.allEdges) :
    GetGraphUndirectedEdges.inner g l edges = some (collapse revPtr l edges) := by
  induction l generalizing edges with
  | nil => rfl
  | cons a t ih =>
    have h1 := hg.existed_eq (hl a (List.mem_cons_self _ _)) he
    have ht : ∀ x ∈ t, x ∈ g.allEdges := fun x hx => hl x (List.mem_cons_of_mem _ hx)
    simp only [GetGraphUndirectedEdges.inner, h1, collapse]
    cases hany : edges.any (fun x => revPtr x a) with
    | true => simp only [if_true]; exact ih ht he
    | false =>
      simp only [Bool.false_eq_true, if_false]
      apply ih ht
      intro x hx
      rcases List.mem_append.1 hx with h | h
      · exact he x h
      · simp only [List.mem_singleton] at h
        subst h
        exact hl x (List.mem_cons_self _ _)

theorem WF.undirected_loop_eq {g : Graph W} (hg : g.WF) {m : List (Nat × Nat)}
    (hm : ∀ x ∈ m, x ∈ g.vertex_map_) {edges : List (Edge W)}
    (he : ∀ x ∈ edges, x ∈ g.allEdges) :
    GetGraphUndirectedEdges.loop g m edges =
      some (collapse revPtr (m.flatMap (fun x => g.edgesAt x.2)) edges) := by
  induction m generalizing edges with
  | nil => rfl
  | cons a t ih =>
    obtain ⟨k, p⟩ := a
    have hx := hm (k, p) (List.mem_cons_self _ _)
    obtain ⟨v, hv, -⟩ := hg.live k p hx
    have hl : ∀ x ∈ v.edges_, x ∈ g.allEdges :=
      fun x hxv => mem_allEdges.2 ⟨k, p, v, hx, hv, hxv⟩
    have hed : g.edgesAt p = v.edges_ := by simp [Graph.edgesAt, hv]
    simp only [GetGraphUndirectedEdges.loop, hv, hg.inner_eq hl he, List.flatMap_cons,
      collapse_append, hed]
    apply ih (fun x hxt => hm x (List.mem_cons_of_mem _ hxt))
    intro x hxc
    rcases collapse_mem revPtr hxc with h | h
    · exact he x h
    · exact hl x h

theorem WF.GetGraphUndirectedEdges_eq {g : Graph W} (hg : g.WF) :
    g.GetGraphUndirectedEdges = some (collapse revPtr g.allEdges []) := by
  unfold Graph.GetGraphUndirectedEdges
  rw [hg.undirected_loop_eq (fun _ hx => hx) (by simp)]
  rfl

/-- What `GetGraphUndirectedEdges` returns in a well-formed state, as identity triples: a
sublist of the triples of `GetGraphEdges` in which no entry is the reverse with the same weight
of another, and which holds every triple or its reverse with the same weight. -/
theorem WF.undirected_spec {g : Graph W} (hg : g.WF) :
    ∃ us tu, g.GetGraphUndirectedEdges = some us ∧ us.Sublist g.allEdges ∧
      g.GetGraphUndirectedEdgeIds = some tu ∧ tu = us.map g.tripleAt ∧
      tu.Sublist (g.allEdges.map g.tripleAt) ∧
      tu.Pairwise (fun x y => ¬ (x.1 = y.2.1 ∧ x.2.1 = y.1 ∧ x.2.2 = y.2.2)) ∧
      ∀ t ∈ g.allEdges.map g.tripleAt,
        t ∈ tu ∨ ∃ t1 ∈ tu, t1.1 = t.2.1 ∧ t1.2.1 = t.1 ∧ t1.2.2 = t.2.2 := by
  obtain ⟨l1, hsub, hl1⟩ := collapse_sublist (@revPtr W _) g.allEdges []
  simp only [List.nil_append] at hl1
  have hus := hg.GetGraphUndirectedEdges_eq
  rw [hl1] at hus
  have hmem : ∀ x ∈ l1, x ∈ g.allEdges := fun x hx => hsub.subset hx
  have htu : g.GetGraphUndirectedEdgeIds = some (l1.map g.tripleAt) := by
    unfold Graph.GetGraphUndirectedEdgeIds
    rw [hus]
    simp only
    apply edgeTriples_eq
    intro e he
    obtain ⟨⟨k1, h1⟩, ⟨k2, h2⟩⟩ := hg.mem_allEdges_owned (hmem e he)
    obtain ⟨v1, hv1, -⟩ := hg.live _ _ h1
    obtain ⟨v2, hv2, -⟩ := hg.live _ _ h2
    simp [hv1, hv2]
  refine ⟨l1, _, hus, hsub, htu, rfl, hsub.map _, ?_, ?_⟩
  · rw [List.pairwise_map]
    have hp := collapse_pairwise (@revPtr W _) g.allEdges [] List.Pairwise.nil
    rw [hl1] at hp
    refine hp.imp_of_mem ?_
    intro a b ha hb hr hc
    rw [(hg.revPtr_iff (hmem a ha) (hmem b hb)).2 hc] at hr
    cases hr
  · intro t ht
    obtain ⟨e, he, rfl⟩ := List.mem_map.1 ht
    have hc := collapse_covers (@revPtr W _) g.allEdges [] e he
    rw [hl1] at hc
    rcases hc with h | ⟨x, hx, hr⟩
    · exact Or.inl (List.mem_map.2 ⟨e, h, rfl⟩)
    · exact Or.inr ⟨g.tripleAt x, List.mem_map.2 ⟨x, hx, rfl⟩,
        (hg.revPtr_iff (hmem x hx) he).1 hr⟩

end Graph

/-- C12, the claim as stated fails. In the state reached by `mixedCalls` GetGraphEdges holds
the edge from 1 to 2 with weight 2.0 and the edge from 2 to 1 with weight 1.5. The weights
differ, so the comparison of an edge with its reverse is false and GetGraphUndirectedEdges
returns both edges: its second entry has the source and destination identities of its first
entry swapped. -/
theorem C12_reverse_of_other_weight_is_kept :
    (Graph.after mixedCalls).Reachable ∧
    (Graph.after mixedCalls).GetGraphEdgeIds = some [(1, 2, 2.0), (2, 1, 1.5)] ∧
    (Graph.after mixedCalls).GetGraphUndirectedEdgeIds = some [(1, 2, 2.0), (2, 1, 1.5)] ∧
    ¬ [((1 : Nat), (2 : Nat), (2.0 : ℚ)), (2, 1, 1.5)].Pairwise
      (fun x y => ¬ (y.1 = x.2.1 ∧ y.2.1 = x.1)) :=
  ⟨Graph.after_reachable (by decide), by rfl, by decide!, by decide⟩

/-- C12, amended: in every reachable state GetGraphEdges and GetGraphUndirectedEdges return;
the result of GetGraphUndirectedEdges is a subsequence of the result of GetGraphEdges; read as
identity and weight triples, no entry of it is the reverse with the same weight (source and
destination identities swapped, weights equal) of an earlier entry, and every edge of
GetGraphEdges appears in it or has its reverse with the same weight in it. -/
theorem C12_undirected_edges_collapse_equal_weight_reverses {W : Type} [DecidableEq W]
    (g : Graph W) (hg : g.Reachable) :
    ∃ es us ts tu, g.GetGraphEdges = some es ∧ g.GetGraphUndirectedEdges = some us ∧
      g.GetGraphEdgeIds = some ts ∧ g.GetGraphUndirectedEdgeIds = some tu ∧
      us.Sublist es ∧ tu.Sublist ts ∧
      tu.Pairwise (fun x y => ¬ (y.1 = x.2.1 ∧ y.2.1 = x.1 ∧ y.2.2 = x.2.2)) ∧
      ∀ t ∈ ts, t ∈ tu ∨ ∃ t1 ∈ tu, t1.1 = t.2.1 ∧ t1.2.1 = t.1 ∧ t1.2.2 = t.2.2 := by
  have hw := hg.wf
  obtain ⟨us, tu, h1, h2, h3, -, h5, h6, h7⟩ := hw.undirected_spec
  refine ⟨_, us, _, tu, hw.GetGraphEdges_eq, h1, hw.GetGraphEdgeIds_eq, h3, h2, h5, ?_, h7⟩
  exact h6.imp (fun h hc => h ⟨hc.2.1.symm, hc.1.symm, hc.2.2.symm⟩)

/-- Witness for C12, amended: the state reached by `undirectedCalls`, where the edges between
1 and 2 carry the same weight and the edges between 2 and 3 do not; of the four edges the
undirected enumeration returns three. -/
theorem C12_undirected_edges_collapse_equal_weight_reverses_witness :
    (Graph.after undirectedCalls).Reachable ∧
    (Graph.after undirectedCalls).GetGraphEdgeIds =
      some [(1, 2, 1.0), (2, 1, 1.0), (2, 3, 2.0), (3, 2, 1.5)] ∧
    (Graph.after undirectedCalls).GetGraphUndirectedEdgeIds =
      some [(1, 2, 1.0), (2, 3, 2.0), (3, 2, 1.5)] ∧
    ∃ es us ts tu, (Graph.after undirectedCalls).GetGraphEdges = some es ∧
      (Graph.after undirectedCalls).GetGraphUndirectedEdges = some us ∧
      (Graph.after undirectedCalls).GetGraphEdgeIds = some ts ∧
      (Graph.after undirectedCalls).GetGraphUndirectedEdgeIds = some tu ∧
      us.Sublist es ∧ tu.Sublist ts ∧
      tu.Pairwise (fun x y => ¬ (y.1 = x.2.1 ∧ y.2.1 = x.1 ∧ y.2.2 = x.2.2)) ∧
      ∀ t ∈ ts, t ∈ tu ∨ ∃ t1 ∈ tu, t1.1 = t.2.1 ∧ t1.2.1 = t.1 ∧ t1.2.2 = t.2.2 :=
  ⟨Graph.after_reachable (by decide), by rfl, by decide!,
    C12_undirected_edges_collapse_equal_weight_reverses _
      (Graph.after_reachable (by decide))⟩

namespace Graph

variable {W : Type} [DecidableEq W]

theorem filter_unique_length_one {α : Type} {l : List α} {P : α → Bool} {z : α}
    (hn : l.Nodup) (hz : z ∈ l) (hP : P z = true) (hu : ∀ y ∈ l, P y = true → y = z) :
    (l.filter P).length = 1 := by
  induction l with
  | nil => simp at hz
  | cons t r ih =>
    simp only [List.nodup_cons] at hn
    rcases List.mem_cons.1 hz with h | h
    · subst h
      have hr : r.filter P = [] := by
        rw [List.filter_eq_nil_iff]
        intro y hy hPy
        have := hu y (List.mem_cons_of_mem _ hy) hPy
        subst this
        exact hn.1 hy
      rw [List.filter_cons_of_pos hP, hr]
      rfl
    · have hPt : ¬ P t = true := by
        intro hPt
        have := hu t (List.mem_cons_self _ _) hPt
        subst this
        exact hn.1 h
      rw [List.filter_cons_of_neg hPt]
      exact ih hn.2 h (fun y hy => hu y (List.mem_cons_of_mem _ hy))

theorem filter_two_length {α : Type} {l : List α} {P : α → Bool} {x y : α}
    (hn : l.Nodup) (hx : x ∈ l) (hy : y ∈ l) (hxy : x ≠ y) (hPx : P x = true)
    (hPy : P y = true) (hu : ∀ z ∈ l, P z = true → z = x ∨ z = y) :
    (l.filter P).length = 2 := by
  induction l with
  | nil => simp at hx
  | cons t r ih =>
    simp only [List.nodup_cons] at hn
    have hur : ∀ z ∈ r, P z = true → z = x ∨ z = y :=
      fun z hz => hu z (List.mem_cons_of_mem _ hz)
    by_cases htx : t = x
    · subst htx
      have hyr : y ∈ r := by
        rcases List.mem_cons.1 hy with h | h
        · exact absurd h.symm hxy
        · exact h
      rw [List.filter_cons_of_pos hPx, List.length_cons,
        filter_unique_length_one hn.2 hyr hPy (fun z hz hPz => by
          rcases hur z hz hPz with h | h
          · subst h; exact absurd hz hn.1
          · exact h)]
    · by_cases hty : t = y
      · subst hty
        have hxr : x ∈ r := by
          rcases List.mem_cons.1 hx with h | h
          · exact absurd h.symm htx
          · exact h
        rw [List.filter_cons_of_pos hPy, List.length_cons,
          filter_unique_length_one hn.2 hxr hPx (fun z hz hPz => by
            rcases hur z hz hPz with h | h
            · exact h
            · subst h; exact absurd hz hn.1)]
      · have hPt : ¬ P t = true := by
          intro hPt
          rcases hu t (List.mem_cons_self _ _) hPt with h | h
          · exact htx h
          · exact hty h
        have hxr : x ∈ r := by
          rcases List.mem_cons.1 hx with h | h
          · exact absurd h.symm htx
          · exact h
        have hyr : y ∈ r := by
          rcases List.mem_cons.1 hy with h | h
          · exact absurd h.symm hty
          · exact h
        rw [List.filter_cons_of_neg hPt]
        exact ih hn.2 hxr hyr hur

theorem sublist_succ_mem {α : Type} {l l1 : List α} (h : l.Sublist l1)
    (hl : l1.length = l.length + 1) : ∃ x, ∀ y ∈ l1, y ∈ l ∨ y = x := by
  induction h with
  | slnil => simp at hl
  | cons a h ih =>
    simp only [List.length_cons, Nat.add_right_cancel_iff] at hl
    have := h.eq_of_length hl.symm
    subst this
    exact ⟨a, fun y hy => by
      rcases List.mem_cons.1 hy with h1 | h1
      · exact Or.inr h1
      · exact Or.inl h1⟩
  | cons₂ a h ih =>
    simp only [List.length_cons, Nat.add_right_cancel_iff] at hl
    obtain ⟨x, hx⟩ := ih hl
    exact ⟨x, fun y hy => by
      rcases List.mem_cons.1 hy with h1 | h1
      · exact Or.inl (by rw [h1]; exact List.mem_cons_self _ _)
      · rcases hx y h1 with h2 | h2
        · exact Or.inl (List.mem_cons_of_mem _ h2)
        · exact Or.inr h2⟩

/-- In a well-formed state that holds an edge from `a` to `b` and one from `b` to `a`, with
`a` and `b` different identities, the undirected enumeration holds one entry that joins them
when the two weights are equal and two entries when they differ. -/
theorem WF.undirected_pair {g : Graph W} (hg : g.WF) {a b : Nat} (hab : a ≠ b) {w1 w2 : W}
    (h1 : (a, b, w1) ∈ g.allEdges.map g.tripleAt)
    (h2 : (b, a, w2) ∈ g.allEdges.map g.tripleAt) :
    ∃ tu, g.GetGraphUndirectedEdgeIds = some tu ∧
      (w1 = w2 → (tu.filter (fun t =>
        decide ((t.1 = a ∧ t.2.1 = b) ∨ (t.1 = b ∧ t.2.1 = a)))).length = 1) ∧
      (w1 ≠ w2 → (tu.filter (fun t =>
        decide ((t.1 = a ∧ t.2.1 = b) ∨ (t.1 = b ∧ t.2.1 = a)))).length = 2) := by
  obtain ⟨us, tu, -, -, htu, -, hsub, hpw, hcov⟩ := hg.undirected_spec
  refine ⟨tu, htu, ?_, ?_⟩
  all_goals
    have hnd := hg.edge_ids_nodup
    have huniq : ∀ t ∈ g.allEdges.map g.tripleAt, ∀ t1 ∈ g.allEdges.map g.tripleAt,
        t.1 = t1.1 → t.2.1 = t1.2.1 → t = t1 := by
      intro t ht t1 ht1 e1 e2
      exact List.inj_on_of_nodup_map hnd ht ht1 (by simp only [e1, e2])
    have htun : tu.Nodup := (List.Nodup.of_map _ hnd).sublist hsub
    have hne : (a, b, w1) ≠ (b, a, w2) := by
      intro h
      exact hab (congrArg Prod.fst h)
    have hP : ∀ t ∈ tu, decide ((t.1 = a ∧ t.2.1 = b) ∨ (t.1 = b ∧ t.2.1 = a)) = true →
        t = (a, b, w1) ∨ t = (b, a, w2) := by
      intro t ht hp
      simp only [decide_eq_true_eq] at hp
      rcases hp with hp | hp
      · exact Or.inl (huniq t (hsub.subset ht) _ h1 hp.1 hp.2)
      · exact Or.inr (huniq t (hsub.subset ht) _ h2 hp.1 hp.2)
  · intro hw
    subst hw
    have hsym : Symmetric (fun x y : Nat × Nat × W =>
        ¬ (x.1 = y.2.1 ∧ x.2.1 = y.1 ∧ x.2.2 = y.2.2)) := by
      intro x y h hc
      exact h ⟨hc.2.1.symm, hc.1.symm, hc.2.2.symm⟩
    have hnot : ¬ ((a, b, w1) ∈ tu ∧ (b, a, w1) ∈ tu) := by
      rintro ⟨hx, hy⟩
      exact hpw.forall hsym hx hy hne ⟨rfl, rfl, rfl⟩
    have hone : (a, b, w1) ∈ tu ∨ (b, a, w1) ∈ tu := by
      rcases hcov _ h1 with h | ⟨t1, ht1, e1, e2, -⟩
      · exact Or.inl h
      · right
        have := huniq t1 (hsub.subset ht1) _ h2 e1 e2
        rw [← this]
        exact ht1
    rcases hone with hx | hy
    · refine filter_unique_length_one htun hx (by simp) ?_
      intro y hy hp
      rcases hP y hy hp with h | h
      · exact h
      · subst h
        exact absurd ⟨hx, hy⟩ hnot
    · refine filter_unique_length_one htun hy (by simp) ?_
      intro y hy1 hp
      rcases hP y hy1 hp with h | h
      · subst h
        exact absurd ⟨hy1, hy⟩ hnot
      · exact h
  · intro hw
    have hx : (a, b, w1) ∈ tu := by
      rcases hcov _ h1 with h | ⟨t1, ht1, e1, e2, e3⟩
      · exact h
      · have := huniq t1 (hsub.subset ht1) _ h2 e1 e2
        rw [this] at e3
        exact absurd e3.symm hw
    have hy : (b, a, w2) ∈ tu := by
      rcases hcov _ h2 with h | ⟨t1, ht1, e1, e2, e3⟩
      · exact h
      · have := huniq t1 (hsub.subset ht1) _ h1 e1 e2
        rw [this] at e3
        exact absurd e3 hw
    exact filter_two_length htun hx hy hne (by simp) (by simp) hP

end Graph

namespace Graph

variable {W : Type}

theorem AddUndirectedEdge_total {g : Graph W} (hg : g.WF) (a b : BundledStructType) (w : W) :
    ∃ g1 g2, g.AddEdge a b w = some g1 ∧ g1.AddEdge b a w = some g2 ∧
      g.AddUndirectedEdge a b w = some g2 := by
  obtain ⟨g1, h1⟩ := AddEdge_total hg a b w
  obtain ⟨g2, h2⟩ := AddEdge_total (hg.AddEdge h1) b a w
  exact ⟨g1, g2, h1, h2, by simp [Graph.AddUndirectedEdge, h1, h2]⟩

/-- After `AddUndirectedEdge(a, b, w)` in a state without an edge between `a` and `b`, of
different identities, both directed edges are stored with the weight `w`. -/
theorem AddUndirectedEdge_new_pair {g g1 g2 : Graph W} (hg : g.WF) {a b : BundledStructType}
    {w : W} (hab : uint64_t a.data_id_ ≠ uint64_t b.data_id_) (h1 : g.AddEdge a b w = some g1)
    (h2 : g1.AddEdge b a w = some g2)
    (hno : ∀ t ∈ g.allEdges.map g.tripleAt,
      ¬ (t.1 = uint64_t a.data_id_ ∧ t.2.1 = uint64_t b.data_id_) ∧
      ¬ (t.1 = uint64_t b.data_id_ ∧ t.2.1 = uint64_t a.data_id_)) :
    (uint64_t a.data_id_, uint64_t b.data_id_, w) ∈ g2.allEdges.map g2.tripleAt ∧
    (uint64_t b.data_id_, uint64_t a.data_id_, w) ∈ g2.allEdges.map g2.tripleAt := by
  have hw1 : g1.WF := hg.AddEdge h1
  have hnab : ∀ t ∈ g.allEdges.map g.tripleAt,
      ¬ (t.1 = uint64_t a.data_id_ ∧ t.2.1 = uint64_t b.data_id_) := fun t ht => (hno t ht).1
  have hm1 := AddEdge_new_edge hg h1 hnab
  obtain ⟨hs1, hl1⟩ := AddEdge_triples hg h1
  obtain ⟨x, hx⟩ := sublist_succ_mem hs1 (hl1 hnab)
  have hno1 : ∀ t ∈ g1.allEdges.map g1.tripleAt,
      ¬ (t.1 = uint64_t b.data_id_ ∧ t.2.1 = uint64_t a.data_id_) := by
    intro t ht hc
    rcases hx t ht with h | h
    · exact (hno t h).2 hc
    · rcases hx _ hm1 with h3 | h3
      · exact (hno _ h3).1 ⟨rfl, rfl⟩
      · rw [h, ← h3] at hc
        exact hab hc.1
  exact ⟨(AddEdge_triples hw1 h2).1.subset hm1, AddEdge_new_edge hw1 h2 hno1⟩

end Graph

/-- C11, the claim as stated fails. After AddEdge(1,2,1.0), AddUndirectedEdge(1,2,2.0) leaves
the edge from 1 to 2 with its weight 1.0 and adds the edge from 2 to 1 with weight 2.0; the
two weights differ and GetGraphUndirectedEdges returns two entries whose endpoints are 1
and 2. -/
theorem C11_two_undirected_entries_for_a_pair :
    (Graph.after [Call.AddEdge (node 1) (node 2) (1.0 : ℚ)]).Reachable ∧
    uint64_t (node 1).data_id_ ≠ uint64_t (node 2).data_id_ ∧
    ((Graph.after [Call.AddEdge (node 1) (node 2) (1.0 : ℚ)]).AddUndirectedEdge (node 1)
      (node 2) 2.0).bind (fun g2 => g2.GetGraphEdgeIds) =
        some [(1, 2, 1.0), (2, 1, 2.0)] ∧
    ((Graph.after [Call.AddEdge (node 1) (node 2) (1.0 : ℚ)]).AddUndirectedEdge (node 1)
      (node 2) 2.0).bind (fun g2 => g2.GetGraphUndirectedEdgeIds) =
        some [(1, 2, 1.0), (2, 1, 2.0)] ∧
    ([((1 : Nat), (2 : Nat), (1.0 : ℚ)), (2, 1, 2.0)].filter (fun t =>
      decide ((t.1 = uint64_t (node 1).data_id_ ∧ t.2.1 = uint64_t (node 2).data_id_) ∨
        (t.1 = uint64_t (node 2).data_id_ ∧
          t.2.1 = uint64_t (node 1).data_id_)))).length = 2 :=
  ⟨Graph.after_reachable (by decide), by decide, by rfl, by decide!, by decide⟩

/-- C11, amended: in every reachable state and for states a, b of different identities,
AddUndirectedEdge(a,b,w), that is AddEdge(a,b,w) followed by AddEdge(b,a,w), runs; afterwards
GetGraphEdges holds an edge from a to b and an edge from b to a; GetGraphUndirectedEdges
holds exactly one entry whose endpoints are a and b when the two edges carry the same weight
and two such entries when their weights differ; when no edge joined a and b before the call,
both edges carry the weight w and the entry is one. -/
theorem C11_undirected_symmetry_by_weight {W : Type} [DecidableEq W] (g : Graph W)
    (hg : g.Reachable) (a b : BundledStructType)
    (hab : uint64_t a.data_id_ ≠ uint64_t b.data_id_) (w : W) :
    ∃ g2, g.AddUndirectedEdge a b w = some g2 ∧
      ∃ ts0 ts tu w1 w2, g.GetGraphEdgeIds = some ts0 ∧ g2.GetGraphEdgeIds = some ts ∧
        g2.GetGraphUndirectedEdgeIds = some tu ∧
        (uint64_t a.data_id_, uint64_t b.data_id_, w1) ∈ ts ∧
        (uint64_t b.data_id_, uint64_t a.data_id_, w2) ∈ ts ∧
        (w1 = w2 → (tu.filter (fun t =>
          decide ((t.1 = uint64_t a.data_id_ ∧ t.2.1 = uint64_t b.data_id_) ∨
            (t.1 = uint64_t b.data_id_ ∧ t.2.1 = uint64_t a.data_id_)))).length = 1) ∧
        (w1 ≠ w2 → (tu.filter (fun t =>
          decide ((t.1 = uint64_t a.data_id_ ∧ t.2.1 = uint64_t b.data_id_) ∨
            (t.1 = uint64_t b.data_id_ ∧ t.2.1 = uint64_t a.data_id_)))).length = 2) ∧
        ((∀ t ∈ ts0, ¬ (t.1 = uint64_t a.data_id_ ∧ t.2.1 = uint64_t b.data_id_) ∧
            ¬ (t.1 = uint64_t b.data_id_ ∧ t.2.1 = uint64_t a.data_id_)) →
          w1 = w ∧ w2 = w) := by
  have hw := hg.wf
  obtain ⟨g1, g2, h1, h2, h12⟩ := Graph.AddUndirectedEdge_total hw a b w
  have hw1 : g1.WF := hw.AddEdge h1
  have hw2 : g2.WF := hw1.AddEdge h2
  obtain ⟨w1, hm1⟩ := Graph.AddEdge_has_edge hw h1
  obtain ⟨w2, hm2⟩ := Graph.AddEdge_has_edge hw1 h2
  have hm1b := (Graph.AddEdge_triples hw1 h2).1.subset hm1
  obtain ⟨tu, htu, hsame, hdiff⟩ := hw2.undirected_pair hab hm1b hm2
  refine ⟨g2, h12, _, _, tu, w1, w2, hw.GetGraphEdgeIds_eq, hw2.GetGraphEdgeIds_eq, htu, hm1b,
    hm2, hsame, hdiff, ?_⟩
  intro hno
  obtain ⟨ha, hb⟩ := Graph.AddUndirectedEdge_new_pair hw hab h1 h2 hno
  have hnd := hw2.edge_ids_nodup
  have e1 := List.inj_on_of_nodup_map hnd hm1b ha rfl
  have e2 := List.inj_on_of_nodup_map hnd hm2 hb rfl
  exact ⟨congrArg (fun t => t.2.2) e1, congrArg (fun t => t.2.2) e2⟩

/-- Witness for C11, amended: `AddUndirectedEdge(2, 3, 1.0)` in the state reached by a
sequence with all five kinds of call, which holds the edges between 1 and 2 and no edge
between 2 and 3; the undirected enumeration afterwards holds one entry for 2 and 3. -/
theorem C11_undirected_symmetry_by_weight_witness :
    (Graph.after mixedCalls).Reachable ∧
    uint64_t (node 2).data_id_ ≠ uint64_t (node 3).data_id_ ∧
    ((Graph.after mixedCalls).AddUndirectedEdge (node 2) (node 3) 1.0).bind
      (fun g2 => g2.GetGraphUndirectedEdgeIds) =
        some [(1, 2, 2.0), (2, 1, 1.5), (2, 3, 1.0)] ∧
    ∃ g2, (Graph.after mixedCalls).AddUndirectedEdge (node 2) (node 3) 1.0 = some g2 ∧
      ∃ ts0 ts tu w1 w2, (Graph.after mixedCalls).GetGraphEdgeIds = some ts0 ∧
        g2.GetGraphEdgeIds = some ts ∧ g2.GetGraphUndirectedEdgeIds = some tu ∧
        (uint64_t (node 2).data_id_, uint64_t (node 3).data_id_, w1) ∈ ts ∧
        (uint64_t (node 3).data_id_, uint64_t (node 2).data_id_, w2) ∈ ts ∧
        (w1 = w2 → (tu.filter (fun t =>
          decide ((t.1 = uint64_t (node 2).data_id_ ∧ t.2.1 = uint64_t (node 3).data_id_) ∨
            (t.1 = uint64_t (node 3).data_id_ ∧
              t.2.1 = uint64_t (node 2).data_id_)))).length = 1) ∧
        (w1 ≠ w2 → (tu.filter (fun t =>
          decide ((t.1 = uint64_t (node 2).data_id_ ∧ t.2.1 = uint64_t (node 3).data_id_) ∨
            (t.1 = uint64_t (node 3).data_id_ ∧
              t.2.1 = uint64_t (node 2).data_id_)))).length = 2) ∧
        ((∀ t ∈ ts0, ¬ (t.1 = uint64_t (node 2).data_id_ ∧
              t.2.1 = uint64_t (node 3).data_id_) ∧
            ¬ (t.1 = uint64_t (node 3).data_id_ ∧ t.2.1 = uint64_t (node 2).data_id_)) →
          w1 = (1.0 : ℚ) ∧ w2 = 1.0) :=
  ⟨Graph.after_reachable (by decide), by decide, by decide!,
    C11_undirected_symmetry_by_weight _ (Graph.after_reachable (by decide)) (node 2) (node 3)
      (by decide) 1.0⟩


/-! ## The by-pointer overloads against the by-value overloads -/

namespace Graph

variable {W : Type}

theorem GetVertex_ptr_eq {m : Store} {p : Nat} {s : BundledStructType} (h : m p = some s)
    (g : Graph W) : g.GetVertex_ptr m p = some (g.GetVertex s) := by
  simp only [Graph.GetVertex_ptr, Graph.GetVertex, h]
  cases hf : map_find g.vertex_map_ (uint64_t s.data_id_) <;> rfl

theorem AddVertex_ptr_eq {m : Store} {p : Nat} {s : BundledStructType} (h : m p = some s)
    (g : Graph W) : g.AddVertex_ptr m p = some (g.AddVertex s) := by
  unfold Graph.AddVertex_ptr Graph.AddVertex
  rw [h]

theorem SearchVertex_ptr_eq {m : Store} {p : Nat} {s : BundledStructType} (h : m p = some s)
    (g : Graph W) : g.SearchVertex_ptr m p = some (g.SearchVertex s) := by
  unfold Graph.SearchVertex_ptr Graph.SearchVertex
  rw [h]

theorem RemoveVertex_ptr_eq {m : Store} {p : Nat} {s : BundledStructType} (h : m p = some s)
    (g : Graph W) : g.RemoveVertex_ptr m p = g.RemoveVertex s := by
  unfold Graph.RemoveVertex_ptr Graph.RemoveVertex
  rw [h]

theorem AddEdge_ptr_eq {m : Store} {p q : Nat} {s d : BundledStructType} (hp : m p = some s)
    (hq : m q = some d) (g : Graph W) (w : W) : g.AddEdge_ptr m p q w = g.AddEdge s d w := by
  unfold Graph.AddEdge_ptr Graph.AddEdge
  rw [GetVertex_ptr_eq hp]
  simp only
  rw [GetVertex_ptr_eq hq]

theorem RemoveEdge_ptr_eq {m : Store} {p q : Nat} {s d : BundledStructType}
    (hp : m p = some s) (hq : m q = some d) (g : Graph W) :
    g.RemoveEdge_ptr m p q = g.RemoveEdge s d := by
  unfold Graph.RemoveEdge_ptr Graph.RemoveEdge
  rw [SearchVertex_ptr_eq hp, SearchVertex_ptr_eq hq]

theorem step_ptr_eq {m : Store} {c : PtrCall W} {c1 : Call W} (h : PtrCall.deref m c = some c1)
    (g : Graph W) : g.step_ptr m c = g.step c1 := by
  cases c with
  | AddVertex p =>
    simp only [PtrCall.deref, Option.map_eq_some'] at h
    obtain ⟨s, hs, rfl⟩ := h
    simp only [Graph.step_ptr, AddVertex_ptr_eq hs, Option.map_some', Graph.step]
  | AddEdge p q w =>
    cases hp : m p with
    | none => simp [PtrCall.deref, hp] at h
    | some s =>
      cases hq : m q with
      | none => simp [PtrCall.deref, hp, hq] at h
      | some d =>
        simp only [PtrCall.deref, hp, hq, Option.some.injEq] at h
        subst h
        simp only [Graph.step_ptr, AddEdge_ptr_eq hp hq, Graph.step]
  | RemoveEdge p q =>
    cases hp : m p with
    | none => simp [PtrCall.deref, hp] at h
    | some s =>
      cases hq : m q with
      | none => simp [PtrCall.deref, hp, hq] at h
      | some d =>
        simp only [PtrCall.deref, hp, hq, Option.some.injEq] at h
        subst h
        simp only [Graph.step_ptr, RemoveEdge_ptr_eq hp hq, Graph.step]
  | RemoveVertex p =>
    simp only [PtrCall.deref, Option.map_eq_some'] at h
    obtain ⟨s, hs, rfl⟩ := h
    simp only [Graph.step_ptr, RemoveVertex_ptr_eq hs, Graph.step]
  | ClearGraph =>
    simp only [PtrCall.deref, Option.some.injEq] at h
    subst h
    rfl

theorem run_ptr_eq {m : Store} {cs : List (PtrCall W)} {cv : List (Call W)}
    (h : PtrCall.derefAll m cs = some cv) (g : Graph W) : g.run_ptr m cs = g.run cv := by
  induction cs generalizing cv g with
  | nil =>
    simp only [PtrCall.derefAll, Option.some.injEq] at h
    subst h
    rfl
  | cons c cs ih =>
    simp only [PtrCall.derefAll] at h
    cases hc : PtrCall.deref m c with
    | none => simp [hc] at h
    | some c1 =>
      cases hcs : PtrCall.derefAll m cs with
      | none => simp [hc, hcs] at h
      | some cs1 =>
        simp only [hc, hcs, Option.some.injEq] at h
        subst h
        simp only [Graph.run_ptr, Graph.run, step_ptr_eq hc]
        cases g.step c1 with
        | none => rfl
        | some g1 => exact ih hcs g1

end Graph

/-- C14: for every memory of the caller and every sequence of by-pointer calls whose pointers
refer to state objects, the by-pointer overloads of GetVertex, AddVertex, SearchVertex and
RemoveVertex return what the by-value overloads return on the objects referred to; the
by-pointer call sequence and the by-value call sequence over those objects then produce the
same graph (or are both undefined), hence the same GetGraphVertices().size(), the same
GetGraphEdges() and the same GetGraphUndirectedEdges() as identity and weight triples. -/
theorem C14_mode_equivalence {W : Type} [DecidableEq W] (m : Store) (cs : List (PtrCall W))
    (cv : List (Call W)) (h : PtrCall.derefAll m cs = some cv) :
    (∀ (g : Graph W) p s, m p = some s →
      g.GetVertex_ptr m p = some (g.GetVertex s) ∧
      g.AddVertex_ptr m p = some (g.AddVertex s) ∧
      g.SearchVertex_ptr m p = some (g.SearchVertex s) ∧
      g.RemoveVertex_ptr m p = g.RemoveVertex s) ∧
    Graph.run_ptr m Graph.empty cs = Graph.run Graph.empty cv ∧
    (Graph.run_ptr m Graph.empty cs).map (fun g => g.GetGraphVertices.length) =
      (Graph.run Graph.empty cv).map (fun g => g.GetGraphVertices.length) ∧
    (Graph.run_ptr m Graph.empty cs).map (fun g => g.GetGraphEdgeIds) =
      (Graph.run Graph.empty cv).map (fun g => g.GetGraphEdgeIds) ∧
    (Graph.run_ptr m Graph.empty cs).map (fun g => g.GetGraphUndirectedEdgeIds) =
      (Graph.run Graph.empty cv).map (fun g => g.GetGraphUndirectedEdgeIds) := by
  have hrun := Graph.run_ptr_eq h (Graph.empty : Graph W)
  refine ⟨fun g p s hs => ⟨Graph.GetVertex_ptr_eq hs g, Graph.AddVertex_ptr_eq hs g,
    Graph.SearchVertex_ptr_eq hs g, Graph.RemoveVertex_ptr_eq hs g⟩, hrun, ?_, ?_, ?_⟩ <;>
  rw [hrun]

/-- Witness for C14: four by-pointer calls on the nodes of the test fixture. -/
theorem C14_mode_equivalence_witness :
    PtrCall.derefAll testStore ptrCalls = some valCalls ∧
    (∀ (g : Graph ℚ) p s, testStore p = some s →
      g.GetVertex_ptr testStore p = some (g.GetVertex s) ∧
      g.AddVertex_ptr testStore p = some (g.AddVertex s) ∧
      g.SearchVertex_ptr testStore p = some (g.SearchVertex s) ∧
      g.RemoveVertex_ptr testStore p = g.RemoveVertex s) ∧
    Graph.run_ptr testStore Graph.empty ptrCalls = Graph.run Graph.empty valCalls ∧
    (Graph.run_ptr testStore Graph.empty ptrCalls).map (fun g => g.GetGraphVertices.length) =
      (Graph.run Graph.empty valCalls).map (fun g => g.GetGraphVertices.length) ∧
    (Graph.run_ptr testStore Graph.empty ptrCalls).map (fun g => g.GetGraphEdgeIds) =
      (Graph.run Graph.empty valCalls).map (fun g => g.GetGraphEdgeIds) ∧
    (Graph.run_ptr testStore Graph.empty ptrCalls).map
        (fun g => g.GetGraphUndirectedEdgeIds) =
      (Graph.run Graph.empty valCalls).map (fun g => g.GetGraphUndirectedEdgeIds) :=
  ⟨by rfl, C14_mode_equivalence testStore ptrCalls valCalls (by rfl)⟩

/-! ## A cleared graph against a new graph -/

namespace Graph

variable {W : Type}

theorem map_find_shift (n : Nat) (m : List (Nat × Nat)) (k : Nat) :
    map_find (m.map (fun x => (x.1, x.2 + n))) k = (map_find m k).map (fun p => p + n) := by
  induction m with
  | nil => rfl
  | cons a t ih =>
    obtain ⟨k1, q⟩ := a
    simp only [List.map_cons, map_find]
    split
    · rfl
    · exact ih

theorem map_insert_shift (n : Nat) (m : List (Nat × Nat)) (k p : Nat) :
    map_insert (m.map (fun x => (x.1, x.2 + n))) k (p + n) =
      (map_insert m k p).map (fun x => (x.1, x.2 + n)) := by
  induction m with
  | nil => rfl
  | cons a t ih =>
    obtain ⟨k1, q⟩ := a
    simp only [List.map_cons, map_insert]
    split
    · rfl
    · split
      · rfl
      · simp only [List.map_cons, ih]

theorem shift_new (n : Nat) (s : BundledStructType) :
    Vertex.shift n (Vertex.new s : Vertex W) = Vertex.new s := rfl

theorem CheckNeighbour_shift (n : Nat) (v : Vertex W) (p : Nat) :
    (Vertex.shift n v).CheckNeighbour (p + n) = v.CheckNeighbour p := by
  simp [Vertex.CheckNeighbour, Vertex.shift, Edge.shift, List.any_map, Function.comp_def]

theorem Shifted.sim_AddVertex {n : Nat} {g0 g : Graph W} (h : Shifted n g0 g)
    (s : BundledStructType) :
    (g.AddVertex s).1 = (g0.AddVertex s).1 + n ∧
      Shifted n (g0.AddVertex s).2 (g.AddVertex s).2 := by
  obtain ⟨h1, h2, h3⟩ := h
  refine ⟨h2, ?_, ?_, ?_⟩
  · show map_insert g.vertex_map_ _ g.brk = _
    rw [h1, h2]
    exact map_insert_shift n _ _ _
  · show g.brk + 1 = g0.brk + 1 + n
    omega
  · intro p
    show Function.update g.heap g.brk _ (p + n) =
      (Function.update g0.heap g0.brk _ p).map (Vertex.shift n)
    by_cases hp : p = g0.brk
    · subst hp
      rw [h2]
      simp [shift_new]
    · have hp1 : p + n ≠ g.brk := by omega
      rw [Function.update_noteq hp, Function.update_noteq hp1]
      exact h3 p

theorem Shifted.sim_GetVertex {n : Nat} {g0 g : Graph W} (h : Shifted n g0 g)
    (s : BundledStructType) :
    (g.GetVertex s).1 = (g0.GetVertex s).1 + n ∧
      Shifted n (g0.GetVertex s).2 (g.GetVertex s).2 := by
  have hf := map_find_shift n g0.vertex_map_ (uint64_t s.data_id_)
  rw [← h.1] at hf
  cases hf0 : map_find g0.vertex_map_ (uint64_t s.data_id_) with
  | none =>
    rw [hf0] at hf
    rw [GetVertex_of_none hf0, GetVertex_of_none hf]
    exact h.sim_AddVertex s
  | some p =>
    rw [hf0] at hf
    rw [GetVertex_of_some hf0, GetVertex_of_some hf]
    exact ⟨rfl, h⟩

theorem Shifted.sim_link {n : Nat} {g0 g : Graph W} (h : Shifted n g0 g) (sp dp : Nat)
    (w : W) :
    (AddEdge.link g0 sp dp w = none ∧ AddEdge.link g (sp + n) (dp + n) w = none) ∨
    ∃ g01 g1, AddEdge.link g0 sp dp w = some g01 ∧
      AddEdge.link g (sp + n) (dp + n) w = some g1 ∧ Shifted n g01 g1 := by
  obtain ⟨h1, h2, h3⟩ := h
  cases hs : g0.heap sp with
  | none =>
    have hs1 : g.heap (sp + n) = none := by rw [h3, hs]; rfl
    exact Or.inl ⟨by simp [AddEdge.link, hs], by simp [AddEdge.link, hs1]⟩
  | some sv =>
    have hs1 : g.heap (sp + n) = some (Vertex.shift n sv) := by rw [h3, hs]; rfl
    cases hc : sv.CheckNeighbour dp with
    | true =>
      have hc1 : (Vertex.shift n sv).CheckNeighbour (dp + n) = true := by
        rw [CheckNeighbour_shift, hc]
      exact Or.inr ⟨g0, g, AddEdge.link_of_neighbour w hs hc,
        AddEdge.link_of_neighbour w hs1 hc1, h1, h2, h3⟩
    | false =>
      have hc1 : (Vertex.shift n sv).CheckNeighbour (dp + n) = false := by
        rw [CheckNeighbour_shift, hc]
      cases hd : g0.heap dp with
      | none =>
        have hd1 : g.heap (dp + n) = none := by rw [h3, hd]; rfl
        exact Or.inl ⟨by simp [AddEdge.link, hs, hc, hd],
          by simp [AddEdge.link, hs1, hc1, hd1]⟩
      | some dv =>
        have hd1 : g.heap (dp + n) = some (Vertex.shift n dv) := by rw [h3, hd]; rfl
        refine Or.inr ⟨_, _, AddEdge.link_heap w hs hd hc, AddEdge.link_heap w hs1 hd1 hc1,
          h1, h2, ?_⟩
        intro p
        show (g.heap (p + n)).map _ = ((g0.heap p).map _).map (Vertex.shift n)
        rw [h3 p]
        cases g0.heap p with
        | none => rfl
        | some v =>
          simp only [Option.map_some', Option.some.injEq, Vertex.shift]
          by_cases hps : p = sp <;> by_cases hpd : p = dp <;>
            simp [hps, hpd, Edge.shift] <;> split <;> simp [Edge.shift]

theorem Shifted.sim_AddEdge {n : Nat} {g0 g : Graph W} (h : Shifted n g0 g)
    (s d : BundledStructType) (w : W) :
    (g0.AddEdge s d w = none ∧ g.AddEdge s d w = none) ∨
    ∃ g01 g1, g0.AddEdge s d w = some g01 ∧ g.AddEdge s d w = some g1 ∧ Shifted n g01 g1 := by
  obtain ⟨ha1, ha2⟩ := h.sim_GetVertex s
  obtain ⟨hb1, hb2⟩ := ha2.sim_GetVertex d
  unfold Graph.AddEdge
  simp only [ha1, hb1]
  exact hb2.sim_link _ _ w

theorem Shifted.sim_run {n : Nat} {g0 g : Graph W} (h : Shifted n g0 g) {cs : List (Call W)}
    (hcs : ∀ c ∈ cs, c.isAddEdge = true) :
    (g0.run cs = none ∧ g.run cs = none) ∨
    ∃ g01 g1, g0.run cs = some g01 ∧ g.run cs = some g1 ∧ Shifted n g01 g1 := by
  induction cs generalizing g0 g with
  | nil => exact Or.inr ⟨g0, g, rfl, rfl, h⟩
  | cons c cs ih =>
    have hc := hcs c (List.mem_cons_self _ _)
    cases c with
    | AddEdge s d w =>
      rcases h.sim_AddEdge s d w with ⟨e1, e2⟩ | ⟨g01, g1, e1, e2, e3⟩
      · exact Or.inl ⟨by simp [Graph.run, Graph.step, e1], by simp [Graph.run, Graph.step, e2]⟩
      · have := ih e3 (fun x hx => hcs x (List.mem_cons_of_mem _ hx))
        simp only [Graph.run, Graph.step, e1, e2]
        exact this
    | AddVertex s => simp [Call.isAddEdge] at hc
    | RemoveEdge s d => simp [Call.isAddEdge] at hc
    | RemoveVertex s => simp [Call.isAddEdge] at hc
    | ClearGraph => simp [Call.isAddEdge] at hc

theorem Shifted.vertexId {n : Nat} {g0 g : Graph W} (h : Shifted n g0 g) (p : Nat) :
    g.vertexId (p + n) = g0.vertexId p := by
  unfold Graph.vertexId
  rw [h.2.2 p]
  cases g0.heap p <;> rfl

theorem Shifted.vertexIds {n : Nat} {g0 g : Graph W} (h : Shifted n g0 g) :
    g.vertexIds g.GetGraphVertices = g0.vertexIds g0.GetGraphVertices := by
  have hl : ∀ l : List Nat, g.vertexIds (l.map (fun p => p + n)) = g0.vertexIds l := by
    intro l
    induction l with
    | nil => rfl
    | cons a t ih => simp only [List.map_cons, Graph.vertexIds, h.vertexId, ih]
  have hv : g.GetGraphVertices = g0.GetGraphVertices.map (fun p => p + n) := by
    simp only [Graph.GetGraphVertices, h.1, List.map_map]
    rfl
  rw [hv, hl]

theorem Shifted.GetGraphEdges {n : Nat} {g0 g : Graph W} (h : Shifted n g0 g) :
    g.GetGraphEdges = g0.GetGraphEdges.map (List.map (Edge.shift n)) := by
  unfold Graph.GetGraphEdges
  rw [h.1]
  generalize g0.vertex_map_ = m
  induction m with
  | nil => rfl
  | cons a t ih =>
    obtain ⟨k, p⟩ := a
    simp only [List.map_cons, GetGraphEdges.loop, h.2.2 p, ih]
    cases g0.heap p with
    | none => rfl
    | some v =>
      cases GetGraphEdges.loop g0.heap t with
      | none => rfl
      | some es => simp [Vertex.shift]

theorem Shifted.edgeTriples {n : Nat} {g0 g : Graph W} (h : Shifted n g0 g)
    (es : List (Edge W)) : g.edgeTriples (es.map (Edge.shift n)) = g0.edgeTriples es := by
  induction es with
  | nil => rfl
  | cons e t ih =>
    have he : g.edgeTriple (Edge.shift n e) = g0.edgeTriple e := by
      simp only [Graph.edgeTriple, Edge.shift, h.vertexId]
    simp only [List.map_cons, Graph.edgeTriples, he, ih]

theorem Shifted.GetGraphEdgeIds {n : Nat} {g0 g : Graph W} (h : Shifted n g0 g) :
    g.GetGraphEdgeIds = g0.GetGraphEdgeIds := by
  unfold Graph.GetGraphEdgeIds
  rw [h.GetGraphEdges]
  cases g0.GetGraphEdges with
  | none => rfl
  | some es => exact h.edgeTriples es

theorem ClearGraph.loop_defined {m : List (Nat × Nat)} {h : Heap W}
    (hn : (m.map Prod.snd).Nodup) (hl : ∀ x ∈ m, h x.2 ≠ none) :
    ∃ h1, ClearGraph.loop m h = some h1 := by
  induction m generalizing h with
  | nil => exact ⟨h, rfl⟩
  | cons a t ih =>
    obtain ⟨k, p⟩ := a
    simp only [List.map_cons, List.nodup_cons] at hn
    cases hp : h p with
    | none => exact absurd hp (hl (k, p) (List.mem_cons_self _ _))
    | some v =>
      simp only [ClearGraph.loop, Heap.delete, hp]
      apply ih hn.2
      intro x hx
      have hne : x.2 ≠ p := by
        intro hxp
        exact hn.1 (List.mem_map.2 ⟨x, hx, hxp⟩)
      rw [Function.update_noteq hne]
      exact hl x (List.mem_cons_of_mem _ hx)

theorem ClearGraph_total {g : Graph W} (hg : g.WF) :
    ∃ gc, g.ClearGraph = some gc ∧ gc.vertex_map_ = [] ∧ gc.brk = g.brk := by
  obtain ⟨h1, hl⟩ := @ClearGraph.loop_defined W g.vertex_map_ g.heap hg.ptrs_nodup (by
    rintro ⟨k, p⟩ hx
    obtain ⟨v, hv, -⟩ := hg.live k p hx
    simp [hv])
  exact ⟨{ g with vertex_map_ := [], heap := h1 }, by simp [Graph.ClearGraph, hl], rfl, rfl⟩

theorem run_addEdge_total {g : Graph W} (hg : g.WF) {cs : List (Call W)}
    (hcs : ∀ c ∈ cs, c.isAddEdge = true) : ∃ g1, g.run cs = some g1 := by
  have hadd : ∀ c ∈ cs, c.isAdd = true := by
    intro c hc
    have := hcs c hc
    cases c <;> simp_all [Call.isAddEdge, Call.isAdd]
  obtain ⟨g1, h1, -⟩ := run_add hg hadd
  exact ⟨g1, h1⟩

end Graph

/-- C15: in every reachable state ClearGraph runs; afterwards GetGraphVertices and
GetGraphEdges are empty and GetVertexFromID returns nothing for every id; and every sequence
of AddEdge calls run on the cleared graph and on a newly constructed graph runs on both and
gives the same vertex identities and the same identity and weight triples of edges, in the
same order. -/
theorem C15_ClearGraph_resets {W : Type} (g : Graph W) (hg : g.Reachable) :
    ∃ gc, g.ClearGraph = some gc ∧ gc.GetGraphVertices = [] ∧ gc.GetGraphEdges = some [] ∧
      (∀ vertex_id, gc.GetVertexFromID vertex_id = none) ∧
      ∀ cs : List (Call W), (∀ c ∈ cs, c.isAddEdge = true) →
        ∃ g1 g2, Graph.run gc cs = some g1 ∧ Graph.run Graph.empty cs = some g2 ∧
          g1.GetGraphVertices.length = g2.GetGraphVertices.length ∧
          g1.vertexIds g1.GetGraphVertices = g2.vertexIds g2.GetGraphVertices ∧
          g1.GetGraphEdgeIds = g2.GetGraphEdgeIds := by
  have hw := hg.wf
  obtain ⟨gc, hc, hmap, hbrk⟩ := Graph.ClearGraph_total hw
  have hwc : gc.WF := hw.ClearGraph hc
  have hsh : Graph.Shifted g.brk Graph.empty gc := by
    refine ⟨by rw [hmap]; rfl, by rw [hbrk]; simp [Graph.empty], ?_⟩
    intro p
    rw [hwc.fresh (p + g.brk) (by rw [hbrk]; omega)]
    rfl
  refine ⟨gc, hc, by simp [Graph.GetGraphVertices, hmap],
    by simp [Graph.GetGraphEdges, hmap, Graph.GetGraphEdges.loop],
    fun vertex_id => by simp [Graph.GetVertexFromID, hmap, map_find], ?_⟩
  intro cs hcs
  obtain ⟨g2, h2⟩ := @Graph.run_addEdge_total W Graph.empty Graph.WF.empty cs hcs
  rcases hsh.sim_run hcs with ⟨e1, -⟩ | ⟨g01, g1, e1, e2, e3⟩
  · rw [h2] at e1; cases e1
  · refine ⟨g1, g01, e2, e1, ?_, e3.vertexIds, e3.GetGraphEdgeIds⟩
    simp only [Graph.GetGraphVertices, e3.1, List.length_map]

/-- Witness for C15: clearing the state reached by a sequence with all five kinds of call. -/
theorem C15_ClearGraph_resets_witness :
    (Graph.after mixedCalls).Reachable ∧
    ∃ gc, (Graph.after mixedCalls).ClearGraph = some gc ∧ gc.GetGraphVertices = [] ∧
      gc.GetGraphEdges = some [] ∧
      (∀ vertex_id, gc.GetVertexFromID vertex_id = none) ∧
      ∀ cs : List (Call ℚ), (∀ c ∈ cs, c.isAddEdge = true) →
        ∃ g1 g2, Graph.run gc cs = some g1 ∧ Graph.run Graph.empty cs = some g2 ∧
          g1.GetGraphVertices.length = g2.GetGraphVertices.length ∧
          g1.vertexIds g1.GetGraphVertices = g2.vertexIds g2.GetGraphVertices ∧
          g1.GetGraphEdgeIds = g2.GetGraphEdgeIds :=
  ⟨Graph.after_reachable (by decide),
    C15_ClearGraph_resets _ (Graph.after_reachable (by decide))⟩

/-! ## `AddEdge` followed by `RemoveEdge` -/

namespace Graph

variable {W : Type}

theorem RemoveEdge.scan_last {dp : Nat} (l : List (Edge W)) {e : Edge W} (he : e.dst_ = dp)
    (i : Nat) (idx0 : Option Nat) :
    RemoveEdge.scan dp (l ++ [e]) i idx0 = some (i + l.length) := by
  induction l generalizing i idx0 with
  | nil => simp [RemoveEdge.scan, he]
  | cons a t ih =>
    show RemoveEdge.scan dp (t ++ [e]) (i + 1) _ = _
    rw [ih, List.length_cons]
    congr 1
    omega

theorem WF.observations_eq {g g2 : Graph W} (hg : g.WF) (hg2 : g2.WF)
    (hm : g2.vertex_map_ = g.vertex_map_) (he : ∀ p, g2.edgesAt p = g.edgesAt p)
    (hi : ∀ p, g2.idAt p = g.idAt p) :
    g2.GetGraphVertices = g.GetGraphVertices ∧
    g2.vertexIds g2.GetGraphVertices = g.vertexIds g.GetGraphVertices ∧
    g2.GetGraphEdges = g.GetGraphEdges ∧ g2.GetGraphEdgeIds = g.GetGraphEdgeIds := by
  have ha : g2.allEdges = g.allEdges := by
    simp only [Graph.allEdges, hm, he]
  have ht : g2.tripleAt = g.tripleAt := by
    funext e
    simp only [Graph.tripleAt, hi]
  refine ⟨by simp only [Graph.GetGraphVertices, hm], ?_, ?_, ?_⟩
  · rw [hg2.vertexIds_eq, hg.vertexIds_eq, hm]
  · rw [hg2.GetGraphEdges_eq, hg.GetGraphEdges_eq, ha]
  · rw [hg2.GetGraphEdgeIds_eq, hg.GetGraphEdgeIds_eq, ha, ht]

/-- With both vertices owned and no edge between them, `AddEdge` appends one edge to the
source and `RemoveEdge` erases it again; the edge lists and identities of all vertices are
then the old ones. -/
theorem AddEdge_RemoveEdge {g : Graph W} (hg : g.WF) {s d : BundledStructType} (w : W)
    {sp dp : Nat} (hs : (uint64_t s.data_id_, sp) ∈ g.vertex_map_)
    (hd : (uint64_t d.data_id_, dp) ∈ g.vertex_map_)
    (hno : ∀ t ∈ g.allEdges.map g.tripleAt,
      ¬ (t.1 = uint64_t s.data_id_ ∧ t.2.1 = uint64_t d.data_id_)) :
    ∃ g1 g2, g.AddEdge s d w = some g1 ∧ g1.RemoveEdge s d = some (true, g2) ∧
      g2.vertex_map_ = g.vertex_map_ ∧ (∀ p, g2.edgesAt p = g.edgesAt p) ∧
      (∀ p, g2.idAt p = g.idAt p) ∧
      (g1.allEdges.map g1.tripleAt).length = (g.allEdges.map g.tripleAt).length + 1 := by
  have hfs := map_find_of_mem hg.sorted hs
  have hfd := map_find_of_mem hg.sorted hd
  obtain ⟨sv, hsv, -⟩ := hg.live _ _ hs
  obtain ⟨dv, hdv, -⟩ := hg.live _ _ hd
  have hc : sv.CheckNeighbour dp = false := by
    cases hc : sv.CheckNeighbour dp with
    | false => rfl
    | true =>
      rw [CheckNeighbour_iff] at hc
      obtain ⟨e, he, hed⟩ := List.mem_map.1 hc
      exact absurd ⟨rfl, rfl⟩ (hno _ (hg.triple_mem hs hd hsv he hed))
  have h1 := AddEdge.link_heap w hsv hdv hc
  have hadd : g.AddEdge s d w = AddEdge.link g sp dp w := by
    unfold Graph.AddEdge
    rw [GetVertex_of_some hfs]
    simp only
    rw [GetVertex_of_some hfd]
  rw [← hadd] at h1
  have hlen := (AddEdge_triples hg h1).2 hno
  have hrem := @RemoveEdge_of_found W
    { g with heap := fun p => (g.heap p).map (fun v =>
        { v with
          edges_ := v.edges_ ++ (if p = sp then [Edge.mk sp dp w] else [])
          associated_vertices_ :=
            v.associated_vertices_ ++ (if p = dp then [sp] else []) }) }
    s d sp dp (0 + sv.edges_.length)
    { sv with
      edges_ := sv.edges_ ++ [Edge.mk sp dp w]
      associated_vertices_ := sv.associated_vertices_ ++ (if sp = dp then [sp] else []) }
    hfs hfd (by simp [hsv])
    (@RemoveEdge.scan_last W dp sv.edges_ (Edge.mk sp dp w) rfl 0 none)
  refine ⟨_, _, h1, hrem, rfl, ?_, ?_, hlen⟩
  · intro p
    by_cases hp : p = sp
    · subst hp
      simp only [Graph.edgesAt, Function.update_same, hsv, Nat.zero_add]
      rw [eraseIdx_middle sv.edges_ _ [], List.append_nil]
    · simp only [Graph.edgesAt, Function.update_noteq hp, hp, if_false, List.append_nil]
      cases g.heap p <;> rfl
  · intro p
    by_cases hp : p = sp
    · subst hp
      simp only [Graph.idAt, Function.update_same, hsv]
    · simp only [Graph.idAt, Function.update_noteq hp]
      cases g.heap p <;> rfl

end Graph

/-- C21: in every reachable state in which GetGraphVertices holds a vertex with the identity
of s and one with the identity of d and GetGraphEdges holds no edge from s to d,
AddEdge(s,d,w) runs and adds one edge, the following RemoveEdge(s,d) returns true, and
afterwards GetGraphVertices and GetGraphEdges return exactly what they returned before the
AddEdge: the same vertices and the same edges in the same order, also when read as identities
and as identity and weight triples. -/
theorem C21_AddEdge_RemoveEdge_round_trip {W : Type} (g : Graph W) (hg : g.Reachable)
    (s d : BundledStructType) (w : W)
    (hs : ∃ p ∈ g.GetGraphVertices, g.vertexId p = some (uint64_t s.data_id_))
    (hd : ∃ p ∈ g.GetGraphVertices, g.vertexId p = some (uint64_t d.data_id_))
    (ts : List (Nat × Nat × W)) (hts : g.GetGraphEdgeIds = some ts)
    (hno : ∀ t ∈ ts, ¬ (t.1 = uint64_t s.data_id_ ∧ t.2.1 = uint64_t d.data_id_)) :
    ∃ g1 g2 ts1, g.AddEdge s d w = some g1 ∧
      g1.GetGraphEdgeIds = some ts1 ∧ ts1.length = ts.length + 1 ∧
      g1.RemoveEdge s d = some (true, g2) ∧
      g2.GetGraphVertices = g.GetGraphVertices ∧
      g2.vertexIds g2.GetGraphVertices = g.vertexIds g.GetGraphVertices ∧
      (∃ es, g.GetGraphEdges = some es ∧ g2.GetGraphEdges = some es) ∧
      g2.GetGraphEdgeIds = some ts := by
  have hw := hg.wf
  obtain ⟨sp, hsp, hsid⟩ := hs
  obtain ⟨dp, hdp, hdid⟩ := hd
  rw [hw.GetGraphEdgeIds_eq] at hts
  cases hts
  obtain ⟨g1, g2, h1, h2, hm, he, hi, hlen⟩ :=
    Graph.AddEdge_RemoveEdge hw w ((hw.vertexId_of_mem hsp).1 hsid)
      ((hw.vertexId_of_mem hdp).1 hdid) hno
  have hw1 : g1.WF := hw.AddEdge h1
  have hw2 : g2.WF := hw1.RemoveEdge h2
  obtain ⟨o1, o2, o3, o4⟩ := hw.observations_eq hw2 hm he hi
  exact ⟨g1, g2, _, h1, hw1.GetGraphEdgeIds_eq, hlen, h2, o1, o2,
    ⟨_, hw.GetGraphEdges_eq, by rw [o3]; exact hw.GetGraphEdges_eq⟩,
    by rw [o4]; exact hw.GetGraphEdgeIds_eq⟩

/-- Witness for C21: `AddEdge(1, 4, 2.5)` and `RemoveEdge(1, 4)` in the state reached by a
sequence with all five kinds of call, where the vertices of 1 and 4 are owned and the edges
are 1 to 2 and 2 to 1. -/
theorem C21_AddEdge_RemoveEdge_round_trip_witness :
    (Graph.after mixedCalls).Reachable ∧
    (∃ p ∈ (Graph.after mixedCalls).GetGraphVertices,
      (Graph.after mixedCalls).vertexId p = some (uint64_t (node 1).data_id_)) ∧
    (∃ p ∈ (Graph.after mixedCalls).GetGraphVertices,
      (Graph.after mixedCalls).vertexId p = some (uint64_t (node 4).data_id_)) ∧
    (Graph.after mixedCalls).GetGraphEdgeIds = some [(1, 2, 2.0), (2, 1, 1.5)] ∧
    (∀ t ∈ [(1, 2, (2.0 : ℚ)), (2, 1, 1.5)],
      ¬ (t.1 = uint64_t (node 1).data_id_ ∧ t.2.1 = uint64_t (node 4).data_id_)) ∧
    ∃ g1 g2 ts1, (Graph.after mixedCalls).AddEdge (node 1) (node 4) 2.5 = some g1 ∧
      g1.GetGraphEdgeIds = some ts1 ∧
      ts1.length = [(1, 2, (2.0 : ℚ)), (2, 1, 1.5)].length + 1 ∧
      g1.RemoveEdge (node 1) (node 4) = some (true, g2) ∧
      g2.GetGraphVertices = (Graph.after mixedCalls).GetGraphVertices ∧
      g2.vertexIds g2.GetGraphVertices =
        (Graph.after mixedCalls).vertexIds (Graph.after mixedCalls).GetGraphVertices ∧
      (∃ es, (Graph.after mixedCalls).GetGraphEdges = some es ∧
        g2.GetGraphEdges = some es) ∧
      g2.GetGraphEdgeIds = some [(1, 2, 2.0), (2, 1, 1.5)] :=
  ⟨Graph.after_reachable (by decide), by decide, by decide, by rfl, by decide,
    C21_AddEdge_RemoveEdge_round_trip _ (Graph.after_reachable (by decide)) (node 1) (node 4)
      2.5 (by decide) (by decide) _ (by rfl) (by decide)⟩

end librav
